import Mathlib

/-!
Verification of the graph_lmdb property-graph storage engine.

This file gives a shallow embedding of the repository's core components and
proves the specification claims about them:

* association-list utilities mirroring Python `dict` / `OrderedDict` semantics;
* the UTF-8 byte codec used for persisted keys and values
  (`str.encode("utf-8")` / `bytes.decode("utf-8")`);
* the LRU cache (`src/lru_cache.py`);
* the key namespace helpers and the graph engine of `src/graphdbv2.py`
  (`get_node`, `get_edge`, `get_batch_nodes`, `get_batch_edges`,
  `get_neighbors`, `bfs`, `create_edges_batch`);
* the LMDB-backed `conditional_bfs` engine of `src/graphdb.py`;
* the JSON entity codec (`json.dumps(entity.to_dict()).encode("utf-8")` and
  `Node.from_dict(json.loads(raw.decode("utf-8")))`, `src/graph_entities.py`).

Python strings are modelled as Lean `String` (sequences of Unicode scalar
values); Python byte strings as `List Nat` with every element a byte;
Python `dict` as association lists in insertion order.
-/

/-- Lookup in an association list, first match wins.  Mirrors Python `d[k]` /
`d.get(k)` on a dict whose keys are unique. -/
def alookup {α β : Type} [DecidableEq α] : List (α × β) → α → Option β
  | [], _ => none
  | (k, v) :: t, x => if k = x then some v else alookup t x

/-- Remove every entry with the given key.  On a unique-key association list
this mirrors Python `dict.pop(k)` / `OrderedDict.pop(k)`. -/
def aerase {α β : Type} [DecidableEq α] (l : List (α × β)) (x : α) : List (α × β) :=
  l.filter (fun p => p.1 ≠ x)

/-- Python `d[k] = v` on an insertion-ordered dict: if the key is present its
value is replaced in place (position kept), otherwise the pair is appended. -/
def upsert {α β : Type} [DecidableEq α] (l : List (α × β)) (x : α) (v : β) : List (α × β) :=
  if (alookup l x).isSome then l.map (fun p => if p.1 = x then (x, v) else p)
  else l ++ [(x, v)]

/-- First-occurrence deduplication, mirroring the key set of a Python dict
built by iterating assignments. -/
def dedupFirstAux {α : Type} [DecidableEq α] : List α → List α → List α
  | [], _ => []
  | x :: t, seen => if x ∈ seen then dedupFirstAux t seen else x :: dedupFirstAux t (x :: seen)

def dedupFirst {α : Type} [DecidableEq α] (l : List α) : List α :=
  dedupFirstAux l []

theorem alookup_cons {α β : Type} [DecidableEq α] (p : α × β) (t : List (α × β)) (x : α) :
    alookup (p :: t) x = if p.1 = x then some p.2 else alookup t x := by
  cases p
  rfl

theorem alookup_eq_none {α β : Type} [DecidableEq α] (l : List (α × β)) (x : α)
    (h : ∀ p ∈ l, p.1 ≠ x) : alookup l x = none := by
  induction l with
  | nil => rfl
  | cons p t ih =>
    simp only [alookup]
    rw [if_neg (h p (by simp))]
    exact ih fun q hq => h q (by simp [hq])

theorem alookup_of_mem {α β : Type} [DecidableEq α] (l : List (α × β)) (k : α) (v : β)
    (hnd : (l.map Prod.fst).Nodup) (hm : (k, v) ∈ l) : alookup l k = some v := by
  induction l with
  | nil => cases hm
  | cons p t ih =>
    simp only [List.map_cons, List.nodup_cons] at hnd
    rcases List.mem_cons.mp hm with h | h
    · subst h; simp [alookup]
    · have hk : p.1 ≠ k := by
        intro he
        exact hnd.1 (he ▸ (List.mem_map.mpr ⟨(k, v), h, rfl⟩))
      simp only [alookup]
      rw [if_neg hk]
      exact ih hnd.2 h

theorem mem_of_alookup {α β : Type} [DecidableEq α] (l : List (α × β)) (k : α) (v : β)
    (h : alookup l k = some v) : (k, v) ∈ l := by
  induction l with
  | nil => cases h
  | cons p t ih =>
    simp only [alookup] at h
    by_cases hk : p.1 = k
    · rw [if_pos hk] at h
      refine List.mem_cons.mpr (Or.inl ?_)
      cases p
      simp_all
    · rw [if_neg hk] at h
      exact List.mem_cons_of_mem _ (ih h)

/-! ## UTF-8

The byte codec behind `str.encode("utf-8")` and `bytes.decode("utf-8")`.
Code points are `Nat`; a Unicode scalar value is a code point outside the
surrogate range and below `0x110000` (Python's strict UTF-8 codec rejects
surrogates and out-of-range values, so these are exactly the encodable
code points). -/

def ValidScalar (c : Nat) : Prop := c < 0xD800 ∨ (0xDFFF < c ∧ c < 0x110000)

instance (c : Nat) : Decidable (ValidScalar c) := by
  unfold ValidScalar; infer_instance

/-- UTF-8 encoding of a single scalar value. -/
def utf8Char (c : Nat) : List Nat :=
  if c < 0x80 then [c]
  else if c < 0x800 then [0xC0 + c / 0x40, 0x80 + c % 0x40]
  else if c < 0x10000 then [0xE0 + c / 0x1000, 0x80 + c / 0x40 % 0x40, 0x80 + c % 0x40]
  else [0xF0 + c / 0x40000, 0x80 + c / 0x1000 % 0x40, 0x80 + c / 0x40 % 0x40, 0x80 + c % 0x40]

/-- UTF-8 encoding of a sequence of scalar values (`str.encode("utf-8")`). -/
def utf8 : List Nat → List Nat
  | [] => []
  | c :: t => utf8Char c ++ utf8 t

/-- A UTF-8 continuation byte and its 6-bit payload. -/
def cont (b : Nat) : Option Nat :=
  if 0x80 ≤ b ∧ b < 0xC0 then some (b - 0x80) else none

/-- Decode the tail of a two-byte UTF-8 sequence with lead byte `b`. -/
def dec2 (b : Nat) : List Nat → Option (Nat × List Nat)
  | b1 :: bs => (cont b1).map fun x1 => ((b - 0xC0) * 0x40 + x1, bs)
  | [] => none

/-- Decode the tail of a three-byte UTF-8 sequence with lead byte `b`,
rejecting overlong forms and surrogates. -/
def dec3 (b : Nat) : List Nat → Option (Nat × List Nat)
  | b1 :: b2 :: bs =>
    (cont b1).bind fun x1 => (cont b2).bind fun x2 =>
      let c := (b - 0xE0) * 0x1000 + x1 * 0x40 + x2
      if 0x800 ≤ c ∧ ¬ (0xD800 ≤ c ∧ c ≤ 0xDFFF) then some (c, bs) else none
  | _ => none

/-- Decode the tail of a four-byte UTF-8 sequence with lead byte `b`,
rejecting overlong and out-of-range forms. -/
def dec4 (b : Nat) : List Nat → Option (Nat × List Nat)
  | b1 :: b2 :: b3 :: bs =>
    (cont b1).bind fun x1 => (cont b2).bind fun x2 => (cont b3).bind fun x3 =>
      let c := (b - 0xF0) * 0x40000 + x1 * 0x1000 + x2 * 0x40 + x3
      if 0x10000 ≤ c ∧ c < 0x110000 then some (c, bs) else none
  | _ => none

/-- Decode a single scalar value from lead byte `b` and the remaining bytes. -/
def decOne (b : Nat) (bs : List Nat) : Option (Nat × List Nat) :=
  if b < 0x80 then some (b, bs)
  else if b < 0xC2 then none
  else if b < 0xE0 then dec2 b bs
  else if b < 0xF0 then dec3 b bs
  else if b < 0xF5 then dec4 b bs
  else none

/-- Fuel-driven strict UTF-8 decoding loop. -/
def utf8DecF : Nat → List Nat → Option (List Nat)
  | _, [] => some []
  | 0, _ :: _ => none
  | f + 1, b :: bs =>
    match decOne b bs with
    | some (c, rest) => (utf8DecF f rest).map (c :: ·)
    | none => none

/-- Strict UTF-8 decoding (`bytes.decode("utf-8")`): rejects truncated
sequences, bad continuation bytes, overlong forms, surrogates and
out-of-range values, as CPython's strict codec does.  The fuel argument of
the loop is the input length, which always suffices because every step
consumes at least the lead byte. -/
def utf8Dec (bs : List Nat) : Option (List Nat) :=
  utf8DecF bs.length bs

theorem cont_eq (b : Nat) (h1 : 0x80 ≤ b) (h2 : b < 0xC0) : cont b = some (b - 0x80) := by
  unfold cont
  rw [if_pos ⟨h1, h2⟩]

set_option maxRecDepth 4000 in
theorem decOne_char (c : Nat) (rest : List Nat) (h : ValidScalar c) :
    ∃ b bs, utf8Char c = b :: bs ∧ bs.length ≤ 3 ∧ decOne b (bs ++ rest) = some (c, rest) := by
  by_cases h1 : c < 0x80
  · refine ⟨c, [], ?_, by simp, ?_⟩
    · rw [utf8Char, if_pos h1]
    · simp only [List.nil_append]
      unfold decOne
      rw [if_pos h1]
  · by_cases h2 : c < 0x800
    · refine ⟨0xC0 + c / 0x40, [0x80 + c % 0x40], ?_, by simp, ?_⟩
      · rw [utf8Char, if_neg h1, if_pos h2]
      · simp only [List.cons_append, List.nil_append]
        unfold decOne
        rw [if_neg (by omega), if_neg (by omega), if_pos (by omega)]
        rw [show dec2 (0xC0 + c / 0x40) ((0x80 + c % 0x40) :: rest)
            = (cont (0x80 + c % 0x40)).map
              (fun x1 => ((0xC0 + c / 0x40 - 0xC0) * 0x40 + x1, rest)) from rfl]
        rw [cont_eq _ (by omega) (by omega), Option.map_some']
        have he : (0xC0 + c / 0x40 - 0xC0) * 0x40 + (0x80 + c % 0x40 - 0x80) = c := by omega
        rw [he]
    · by_cases h3 : c < 0x10000
      · have hs : c < 0xD800 ∨ 0xDFFF < c := by
          rcases h with h | h
          · exact Or.inl h
          · exact Or.inr h.1
        refine ⟨0xE0 + c / 0x1000, [0x80 + c / 0x40 % 0x40, 0x80 + c % 0x40], ?_, by simp, ?_⟩
        · rw [utf8Char, if_neg h1, if_neg h2, if_pos h3]
        · simp only [List.cons_append, List.nil_append]
          unfold decOne
          rw [if_neg (by omega), if_neg (by omega), if_neg (by omega), if_pos (by omega)]
          rw [show dec3 (0xE0 + c / 0x1000) ((0x80 + c / 0x40 % 0x40) :: (0x80 + c % 0x40) :: rest)
              = ((cont (0x80 + c / 0x40 % 0x40)).bind fun x1 =>
                (cont (0x80 + c % 0x40)).bind fun x2 =>
                let d := (0xE0 + c / 0x1000 - 0xE0) * 0x1000 + x1 * 0x40 + x2
                if 0x800 ≤ d ∧ ¬ (0xD800 ≤ d ∧ d ≤ 0xDFFF) then some (d, rest) else none)
              from rfl]
          rw [cont_eq _ (by omega) (by omega), cont_eq _ (by omega) (by omega)]
          simp only [Option.some_bind]
          have he : (0xE0 + c / 0x1000 - 0xE0) * 0x1000 + (0x80 + c / 0x40 % 0x40 - 0x80) * 0x40
              + (0x80 + c % 0x40 - 0x80) = c := by omega
          rw [he, if_pos (by omega)]
      · have h4 : c < 0x110000 := by
          rcases h with h | h
          · omega
          · exact h.2
        refine ⟨0xF0 + c / 0x40000,
          [0x80 + c / 0x1000 % 0x40, 0x80 + c / 0x40 % 0x40, 0x80 + c % 0x40], ?_, by simp, ?_⟩
        · rw [utf8Char, if_neg h1, if_neg h2, if_neg h3]
        · simp only [List.cons_append, List.nil_append]
          unfold decOne
          rw [if_neg (by omega), if_neg (by omega), if_neg (by omega), if_neg (by omega),
            if_pos (by omega)]
          rw [show dec4 (0xF0 + c / 0x40000) ((0x80 + c / 0x1000 % 0x40)
                :: (0x80 + c / 0x40 % 0x40) :: (0x80 + c % 0x40) :: rest)
              = ((cont (0x80 + c / 0x1000 % 0x40)).bind fun x1 =>
                (cont (0x80 + c / 0x40 % 0x40)).bind fun x2 =>
                (cont (0x80 + c % 0x40)).bind fun x3 =>
                let d := (0xF0 + c / 0x40000 - 0xF0) * 0x40000 + x1 * 0x1000 + x2 * 0x40 + x3
                if 0x10000 ≤ d ∧ d < 0x110000 then some (d, rest) else none)
              from rfl]
          rw [cont_eq _ (by omega) (by omega), cont_eq _ (by omega) (by omega),
            cont_eq _ (by omega) (by omega)]
          simp only [Option.some_bind]
          have hf : (0xF0 + c / 0x40000 - 0xF0) * 0x40000 + (0x80 + c / 0x1000 % 0x40 - 0x80)
              * 0x1000 + (0x80 + c / 0x40 % 0x40 - 0x80) * 0x40 + (0x80 + c % 0x40 - 0x80)
              = c := by omega
          rw [hf, if_pos (by omega)]

theorem utf8DecF_utf8 (cs : List Nat) :
    ∀ f, (utf8 cs).length ≤ f → (∀ c ∈ cs, ValidScalar c) → utf8DecF f (utf8 cs) = some cs := by
  induction cs with
  | nil => intro f _ _; cases f <;> rfl
  | cons c t ih =>
    intro f hf h
    have hc : ValidScalar c := h c (by simp)
    obtain ⟨b, bs, henc, hlen, hdec⟩ := decOne_char c (utf8 t) hc
    have hshape : utf8 (c :: t) = b :: (bs ++ utf8 t) := by
      simp only [utf8, henc, List.cons_append]
    rw [hshape] at hf ⊢
    match f, hf with
    | f + 1, hf =>
      show (match decOne b (bs ++ utf8 t) with
        | some (c, rest) => (utf8DecF f rest).map (c :: ·)
        | none => none) = some (c :: t)
      rw [hdec]
      have hlt : (utf8 t).length ≤ f := by
        have := List.length_append bs (utf8 t)
        simp only [List.length_cons] at hf
        omega
      show (utf8DecF f (utf8 t)).map (c :: ·) = some (c :: t)
      rw [ih f hlt fun x hx => h x (by simp [hx])]
      rfl

/-- Round trip: strict decoding inverts encoding on scalar-value sequences. -/
theorem utf8Dec_utf8 (cs : List Nat) (h : ∀ c ∈ cs, ValidScalar c) :
    utf8Dec (utf8 cs) = some cs :=
  utf8DecF_utf8 cs (utf8 cs).length le_rfl h

/-- Injectivity of UTF-8 encoding on scalar-value sequences. -/
theorem utf8_inj (cs ds : List Nat) (hc : ∀ c ∈ cs, ValidScalar c)
    (hd : ∀ c ∈ ds, ValidScalar c) (h : utf8 cs = utf8 ds) : cs = ds := by
  have h1 := utf8Dec_utf8 cs hc
  have h2 := utf8Dec_utf8 ds hd
  rw [h, h2] at h1
  exact (Option.some.injEq _ _).mp h1.symm

/-- The code points of a Lean string; every one is a valid scalar value. -/
def strCodes (s : String) : List Nat := s.data.map Char.toNat

theorem strCodes_valid (s : String) : ∀ c ∈ strCodes s, ValidScalar c := by
  intro c hc
  rcases List.mem_map.mp hc with ⟨ch, _, rfl⟩
  have := ch.valid
  rcases this with h | h
  · exact Or.inl (by exact_mod_cast h)
  · exact Or.inr ⟨by exact_mod_cast h.1, by exact_mod_cast h.2⟩

theorem strCodes_inj (s t : String) (h : strCodes s = strCodes t) : s = t := by
  have hinj : Function.Injective Char.toNat := fun a b hab => Char.ext (UInt32.ext hab)
  exact String.ext (List.map_injective_iff.mpr hinj h)

/-- UTF-8 bytes of a string: `s.encode("utf-8")`. -/
def strBytes (s : String) : List Nat := utf8 (strCodes s)

theorem strBytes_inj (s t : String) (h : strBytes s = strBytes t) : s = t :=
  strCodes_inj s t (utf8_inj _ _ (strCodes_valid s) (strCodes_valid t) h)

/-! ## LRU cache (`src/lru_cache.py`)

`LRUCache` wraps an insertion-ordered `OrderedDict`; we model the ordered
dict as an association list whose head is the least recently used entry and
whose last element is the most recently used one. -/

structure LRU (α β : Type) where
  capacity : Nat
  store : List (α × β)
  deriving DecidableEq

/-- A fresh `LRUCache(capacity)`. -/
def LRU.empty (α β : Type) (cap : Nat) : LRU α β := ⟨cap, []⟩

/-- `LRUCache.get`: a miss returns `None` without side effects; a hit pops
the entry and re-inserts it at the most-recently-used end. -/
def LRU.get {α β : Type} [DecidableEq α] (c : LRU α β) (k : α) : Option β × LRU α β :=
  match alookup c.store k with
  | none => (none, c)
  | some v => (some v, { c with store := aerase c.store k ++ [(k, v)] })

/-- `LRUCache.put`: discard any old entry for the key, append the new value
at the most-recently-used end, then evict the least-recently-used entry
(`popitem(last=False)`) whenever the size exceeds the capacity. -/
def LRU.put {α β : Type} [DecidableEq α] (c : LRU α β) (k : α) (v : β) : LRU α β :=
  if c.capacity < (aerase c.store k ++ [(k, v)]).length
  then { c with store := (aerase c.store k ++ [(k, v)]).tail }
  else { c with store := aerase c.store k ++ [(k, v)] }

theorem LRU.put_capacity {α β : Type} [DecidableEq α] (c : LRU α β) (k : α) (v : β) :
    (c.put k v).capacity = c.capacity := by
  unfold LRU.put
  split <;> rfl

theorem aerase_cons_found {α β : Type} [DecidableEq α] (p : α × β) (t : List (α × β)) (k : α)
    (hk : p.1 = k) : aerase (p :: t) k = aerase t k := by
  simp only [aerase, List.filter_cons]
  rw [if_neg (by simp [hk])]

theorem aerase_cons_skip {α β : Type} [DecidableEq α] (p : α × β) (t : List (α × β)) (k : α)
    (hk : p.1 ≠ k) : aerase (p :: t) k = p :: aerase t k := by
  simp only [aerase, List.filter_cons]
  rw [if_pos (by simp [hk])]

theorem aerase_of_forall_ne {α β : Type} [DecidableEq α] (l : List (α × β)) (k : α)
    (h : ∀ p ∈ l, p.1 ≠ k) : aerase l k = l :=
  List.filter_eq_self.mpr fun p hp => by simpa using h p hp

theorem aerase_length_lt {α β : Type} [DecidableEq α] (l : List (α × β)) (k : α)
    (h : (alookup l k).isSome) : (aerase l k).length < l.length := by
  induction l with
  | nil => simp [alookup] at h
  | cons p t ih =>
    simp only [alookup] at h
    by_cases hk : p.1 = k
    · have hle : (aerase t k).length ≤ t.length := List.length_filter_le _ _
      rw [aerase_cons_found p t k hk]
      simp only [List.length_cons]
      omega
    · rw [if_neg hk] at h
      rw [aerase_cons_skip p t k hk]
      simp only [List.length_cons]
      exact Nat.succ_lt_succ (ih h)

theorem aerase_length_of_nodup {α β : Type} [DecidableEq α] (l : List (α × β)) (k : α)
    (hnd : (l.map Prod.fst).Nodup) (h : (alookup l k).isSome) :
    (aerase l k).length + 1 = l.length := by
  induction l with
  | nil => simp [alookup] at h
  | cons p t ih =>
    simp only [List.map_cons, List.nodup_cons] at hnd
    simp only [alookup] at h
    by_cases hk : p.1 = k
    · have ht : aerase t k = t := by
        refine aerase_of_forall_ne t k fun q hq he => ?_
        exact hnd.1 (hk ▸ he ▸ List.mem_map.mpr ⟨q, hq, rfl⟩)
      rw [aerase_cons_found p t k hk, ht]
      simp
    · rw [if_neg hk] at h
      rw [aerase_cons_skip p t k hk]
      simp only [List.length_cons]
      have := ih hnd.2 h
      omega

/-- Filling a cache whose remaining room covers all new distinct keys never
evicts: the entries are simply appended in order. -/
theorem lru_fill {α β : Type} [DecidableEq α] (pairs : List (α × β)) :
    ∀ (c : LRU α β), ((c.store ++ pairs).map Prod.fst).Nodup →
      c.store.length + pairs.length ≤ c.capacity →
      (pairs.foldl (fun s p => s.put p.1 p.2) c).store = c.store ++ pairs ∧
      (pairs.foldl (fun s p => s.put p.1 p.2) c).capacity = c.capacity := by
  induction pairs with
  | nil => intro c _ _; simp
  | cons p ps ih =>
    intro c hnd hlen
    have hfresh : ∀ q ∈ c.store, q.1 ≠ p.1 := by
      intro q hq he
      have h1 : p.1 ∈ (c.store.map Prod.fst) := he ▸ List.mem_map.mpr ⟨q, hq, rfl⟩
      have h2 : p.1 ∈ ((p :: ps).map Prod.fst) := by simp
      have := (List.nodup_append.mp (by simpa using hnd)).2.2
      exact this h1 h2
    have hput : (c.put p.1 p.2).store = c.store ++ [p] := by
      unfold LRU.put
      rw [aerase_of_forall_ne c.store p.1 hfresh]
      rw [if_neg (by
        simp only [List.length_cons] at hlen
        simp only [List.length_append, List.length_cons, List.length_nil]
        omega)]
    have hassoc : (c.store ++ [p]) ++ ps = c.store ++ (p :: ps) := by
      rw [List.append_assoc]; rfl
    have := ih (c.put p.1 p.2)
      (by rw [hput, hassoc]; exact hnd)
      (by
        rw [hput, LRU.put_capacity]
        simp only [List.length_cons] at hlen
        simp only [List.length_append, List.length_cons, List.length_nil]
        omega)
    simp only [List.foldl_cons]
    refine ⟨?_, ?_⟩
    · rw [this.1, hput, hassoc]
    · rw [this.2, LRU.put_capacity]

/-- Filling a cache to exactly one over capacity evicts exactly the
least-recently-used entry: the head of the combined list. -/
theorem lru_fill_over {α β : Type} [DecidableEq α] (pairs : List (α × β)) :
    ∀ (c : LRU α β), pairs ≠ [] → ((c.store ++ pairs).map Prod.fst).Nodup →
      c.store.length + pairs.length = c.capacity + 1 → 1 ≤ c.capacity →
      (pairs.foldl (fun s p => s.put p.1 p.2) c).store = (c.store ++ pairs).tail := by
  induction pairs with
  | nil => intro c h; cases h rfl
  | cons p ps ih =>
    intro c _ hnd hlen hcap1
    have hfresh : ∀ q ∈ c.store, q.1 ≠ p.1 := by
      intro q hq he
      have h1 : p.1 ∈ (c.store.map Prod.fst) := he ▸ List.mem_map.mpr ⟨q, hq, rfl⟩
      have h2 : p.1 ∈ ((p :: ps).map Prod.fst) := by simp
      have := (List.nodup_append.mp (by simpa using hnd)).2.2
      exact this h1 h2
    have hassoc : (c.store ++ [p]) ++ ps = c.store ++ (p :: ps) := by
      rw [List.append_assoc]; rfl
    cases ps with
    | nil =>
      have hfull : c.store.length = c.capacity := by
        simp only [List.length_cons, List.length_nil] at hlen; omega
      have hne : c.store ≠ [] := by
        intro h; rw [h] at hfull; simp at hfull; omega
      simp only [List.foldl_cons, List.foldl_nil]
      unfold LRU.put
      rw [aerase_of_forall_ne c.store p.1 hfresh]
      rw [if_pos (by simp [hfull])]
    | cons p2 ps2 =>
      have hput : (c.put p.1 p.2).store = c.store ++ [p] := by
        unfold LRU.put
        rw [aerase_of_forall_ne c.store p.1 hfresh]
        rw [if_neg (by
          simp only [List.length_cons] at hlen
          simp only [List.length_append, List.length_cons, List.length_nil]
          omega)]
      have hrec := ih (c.put p.1 p.2) (by simp)
        (by rw [hput, hassoc]; exact hnd)
        (by
          rw [hput, LRU.put_capacity]
          simp only [List.length_cons] at hlen
          simp only [List.length_append, List.length_cons, List.length_nil]
          omega)
        (by rw [LRU.put_capacity]; exact hcap1)
      simp only [List.foldl_cons] at hrec ⊢
      rw [hrec, hput, hassoc]

/-- Insert a whole list of key-value pairs into a cache, in order. -/
def lruPutAll {α β : Type} [DecidableEq α] (pairs : List (α × β)) (c : LRU α β) : LRU α β :=
  pairs.foldl (fun s p => s.put p.1 p.2) c

/-- C6: Inserting `c + 1` distinct keys into an empty capacity-`c` LRU cache
evicts exactly the least-recently-touched key (the first one inserted): a
subsequent `get` on it misses while every other inserted key still hits.
Moreover a `put` whose key is already present discards the old position and
appends the new value at the most-recently-used end with no eviction of
other entries. -/
theorem claim_C6 :
    (∀ (α β : Type) (inst : DecidableEq α) (c : Nat) (first : α × β) (rest : List (α × β)),
      1 ≤ c → (((first :: rest).map Prod.fst).Nodup) → (first :: rest).length = c + 1 →
      ((lruPutAll (first :: rest) (LRU.empty α β c)).get first.1).1 = none ∧
      ∀ p ∈ rest, ((lruPutAll (first :: rest) (LRU.empty α β c)).get p.1).1 = some p.2)
    ∧ (∀ (α β : Type) (inst : DecidableEq α) (s : LRU α β) (k : α) (v : β),
      (s.store.map Prod.fst).Nodup → (alookup s.store k).isSome → s.store.length ≤ s.capacity →
      (s.put k v).store = aerase s.store k ++ [(k, v)]) := by
  constructor
  · intro α β inst c first rest hc hnd hlen
    have hstore : (lruPutAll (first :: rest) (LRU.empty α β c)).store = rest := by
      unfold lruPutAll
      rw [lru_fill_over (first :: rest) (LRU.empty α β c) (by simp)
        (by simp only [LRU.empty, List.nil_append]; exact hnd)
        (by simp only [LRU.empty, List.length_nil]; omega) hc]
      rfl
    constructor
    · unfold LRU.get
      rw [hstore]
      have hfresh : alookup rest first.1 = none := by
        refine alookup_eq_none rest first.1 fun q hq he => ?_
        simp only [List.map_cons, List.nodup_cons] at hnd
        exact hnd.1 (he ▸ List.mem_map.mpr ⟨q, hq, rfl⟩)
      rw [hfresh]
    · intro p hp
      unfold LRU.get
      rw [hstore]
      have : alookup rest p.1 = some p.2 := by
        refine alookup_of_mem rest p.1 p.2 ?_ (by simpa using hp)
        simp only [List.map_cons, List.nodup_cons] at hnd
        exact hnd.2
      rw [this]
  · intro α β inst s k v hnd hmem hlen
    unfold LRU.put
    rw [if_neg (by
      have := aerase_length_of_nodup s.store k hnd hmem
      simp only [List.length_append, List.length_cons, List.length_nil]
      omega)]

/-- C6 witness: capacity 2, inserting keys 10, 20, 30 evicts exactly key 10,
and re-putting a present key updates in place without eviction. -/
theorem claim_C6_witness :
    ((1 ≤ 2 ∧ (((((10 : Nat), (1 : Nat)) :: [(20, 2), (30, 3)]).map Prod.fst).Nodup) ∧
      (((10 : Nat), (1 : Nat)) :: [(20, 2), (30, 3)]).length = 2 + 1) ∧
      ((lruPutAll (((10 : Nat), (1 : Nat)) :: [(20, 2), (30, 3)]) (LRU.empty Nat Nat 2)).get 10).1
        = none ∧
      ∀ p ∈ [((20 : Nat), (2 : Nat)), (30, 3)],
        ((lruPutAll (((10 : Nat), (1 : Nat)) :: [(20, 2), (30, 3)]) (LRU.empty Nat Nat 2)).get
          p.1).1 = some p.2) ∧
    ((LRU.mk 2 [(10, 1), (20, 2)]).put 10 (7 : Nat)).store = [(20, 2), ((10 : Nat), 7)] := by
  refine ⟨⟨⟨by decide, by decide, by decide⟩, ?_⟩, ?_⟩
  · exact claim_C6.1 Nat Nat inferInstance 2 (10, 1) [(20, 2), (30, 3)]
      (by decide) (by decide) (by decide)
  · have := claim_C6.2 Nat Nat inferInstance (LRU.mk 2 [(10, 1), (20, 2)]) 10 7
      (by decide) (by decide) (by decide)
    rw [this]
    rfl

/-- A single cache operation: `get` or `put`. -/
inductive CacheOp (α β : Type) where
  | get (k : α)
  | put (k : α) (v : β)

/-- Apply one cache operation, keeping only the cache state. -/
def cacheStep {α β : Type} [DecidableEq α] (s : LRU α β) : CacheOp α β → LRU α β
  | .get k => (s.get k).2
  | .put k v => s.put k v

/-- Run a sequence of cache operations, keeping only the cache state. -/
def runCacheOps {α β : Type} [DecidableEq α] (ops : List (CacheOp α β)) (c : LRU α β) :
    LRU α β :=
  ops.foldl cacheStep c

theorem LRU.get_capacity {α β : Type} [DecidableEq α] (c : LRU α β) (k : α) :
    (c.get k).2.capacity = c.capacity := by
  unfold LRU.get
  cases h : alookup c.store k <;> rfl

theorem cacheStep_capacity {α β : Type} [DecidableEq α] (c : LRU α β) (op : CacheOp α β) :
    (cacheStep c op).capacity = c.capacity := by
  cases op with
  | get k => exact LRU.get_capacity c k
  | put k v => exact LRU.put_capacity c k v

theorem cacheStep_size {α β : Type} [DecidableEq α] (c : LRU α β) (op : CacheOp α β)
    (h : c.store.length ≤ c.capacity) :
    (cacheStep c op).store.length ≤ (cacheStep c op).capacity := by
  rw [cacheStep_capacity]
  cases op with
  | get k =>
    show (c.get k).2.store.length ≤ c.capacity
    unfold LRU.get
    cases hl : alookup c.store k with
    | none => exact h
    | some v =>
      have := aerase_length_lt c.store k (by rw [hl]; rfl)
      show (aerase c.store k ++ [(k, v)]).length ≤ c.capacity
      simp only [List.length_append, List.length_cons, List.length_nil]
      omega
  | put k v =>
    show (c.put k v).store.length ≤ c.capacity
    unfold LRU.put
    split
    · rename_i hgt
      show (aerase c.store k ++ [(k, v)]).tail.length ≤ c.capacity
      have hle : (aerase c.store k).length ≤ c.store.length := List.length_filter_le _ _
      rw [List.length_tail]
      simp only [List.length_append, List.length_cons, List.length_nil] at hgt ⊢
      omega
    · rename_i hle
      show (aerase c.store k ++ [(k, v)]).length ≤ c.capacity
      omega

/-- C9: starting from an empty cache of capacity `c ≥ 1`, the size bound
`size ≤ capacity` holds after every sequence of `get`/`put` operations:
`put` inserts and then immediately evicts the least-recently-used entry
whenever the size exceeds the capacity, so the bound is an invariant. -/
theorem claim_C9 (α β : Type) (inst : DecidableEq α) (c : Nat) (ops : List (CacheOp α β))
    (hc : 1 ≤ c) : (runCacheOps ops (LRU.empty α β c)).store.length ≤ c := by
  suffices h : ∀ (s : LRU α β), s.store.length ≤ s.capacity →
      (runCacheOps ops s).store.length ≤ (runCacheOps ops s).capacity ∧
      (runCacheOps ops s).capacity = s.capacity by
    have hgoal := h (LRU.empty α β c) (by simp [LRU.empty])
    have hcap : (LRU.empty α β c).capacity = c := rfl
    rw [hgoal.2, hcap] at hgoal
    exact hgoal.1
  induction ops with
  | nil => intro s hs; exact ⟨hs, rfl⟩
  | cons op t ih =>
    intro s hs
    have hstep := cacheStep_size s op hs
    have hrec := ih (cacheStep s op) hstep
    have hfold : runCacheOps (op :: t) s = runCacheOps t (cacheStep s op) := rfl
    rw [hfold]
    exact ⟨hrec.1, by rw [hrec.2, cacheStep_capacity]⟩

/-- C9 witness: capacity 1, a concrete sequence of puts and gets stays
within the bound. -/
theorem claim_C9_witness :
    1 ≤ 1 ∧
    (runCacheOps [CacheOp.put 10 1, CacheOp.put 20 2, CacheOp.get 10, CacheOp.put 30 3]
      (LRU.empty Nat Nat 1)).store.length ≤ 1 :=
  ⟨by decide, claim_C9 Nat Nat inferInstance 1
    [CacheOp.put 10 1, CacheOp.put 20 2, CacheOp.get 10, CacheOp.put 30 3] (by decide)⟩

/-! ## Entities (`src/graph_entities.py`)

A `Node` carries an identifier, a label, a property mapping and the ordered
list of outgoing edge identifiers; an `Edge` carries an identifier, a label,
its two endpoint identifiers and a property mapping.  Property values in
the scope of the specification are integers, floats or strings; a Python
float value is represented by its canonical shortest `repr` literal (for
every finite IEEE double, `float(repr(x)) == x` and `repr` output is the
canonical form, so the literal determines the value and vice versa). -/

structure PyFloat where
  lit : String
  deriving DecidableEq, Repr

inductive PropVal where
  | pInt (z : Int)
  | pFloat (f : PyFloat)
  | pStr (s : String)
  deriving DecidableEq, Repr

structure NodeR where
  id : String
  label : String
  properties : List (String × PropVal)
  outgoing_edge_ids : List String
  deriving DecidableEq, Repr

structure EdgeR where
  id : String
  label : String
  start_node_id : String
  end_node_id : String
  properties : List (String × PropVal)
  deriving DecidableEq, Repr

/-! ## Key construction (`src/graphdbv2.py`, lines 19-44)

`NODE_PREFIX = b"N:"` and `EDGE_PREFIX = b"E:"` (named `nodeTag` and
`edgeTag` in this development); `_make_node_key` and `_make_edge_key`
concatenate the prefix with the UTF-8 bytes of the identifier. -/

def nodeTag : List Nat := [78, 58]

def edgeTag : List Nat := [69, 58]

def makeNodeKey (nodeId : String) : List Nat := nodeTag ++ strBytes nodeId

def makeEdgeKey (edgeId : String) : List Nat := edgeTag ++ strBytes edgeId

theorem makeNodeKey_inj (a b : String) (h : makeNodeKey a = makeNodeKey b) : a = b := by
  unfold makeNodeKey nodeTag at h
  simp only [List.cons_append, List.nil_append, List.cons.injEq, true_and] at h
  exact strBytes_inj a b h

theorem makeEdgeKey_inj (a b : String) (h : makeEdgeKey a = makeEdgeKey b) : a = b := by
  unfold makeEdgeKey edgeTag at h
  simp only [List.cons_append, List.nil_append, List.cons.injEq, true_and] at h
  exact strBytes_inj a b h

/-- C7: the node and edge key namespaces are disjoint: for all identifier
strings `a` and `b`, the encoded node key of `a` (prefix `b"N:"` followed by
the UTF-8 bytes of `a`) never equals the encoded edge key of `b` (prefix
`b"E:"` followed by the UTF-8 bytes of `b`), even when `a = b`. -/
theorem claim_C7 (a b : String) : makeNodeKey a ≠ makeEdgeKey b := by
  unfold makeNodeKey makeEdgeKey nodeTag edgeTag
  intro h
  simp only [List.cons_append, List.nil_append, List.cons.injEq] at h
  exact absurd h.1 (by decide)

/-! ## Graph engine (`src/graphdbv2.py`)

The engine holds a `KVStorage` plus one LRU cache for nodes and one for
edges.  The backend maps encoded byte keys to the JSON bytes of the
entity's dict; since the byte layer
(`json.dumps(d).encode("utf-8")` / `json.loads(raw.decode("utf-8"))`)
is proven to round-trip exactly in the codec section below, stored values
are modelled here at the decoded-record level. -/

inductive StoreVal where
  | nodeRec (n : NodeR)
  | edgeRec (e : EdgeR)
  deriving DecidableEq, Repr

deriving instance DecidableEq for Except

/-- Engine state: backend contents plus the two caches. -/
structure ES where
  store : List (List Nat × StoreVal)
  nodeCache : LRU String NodeR
  edgeCache : LRU String EdgeR
  deriving DecidableEq

/-- The node record stored under `_make_node_key(nodeId)`, if any. -/
def storeNode (store : List (List Nat × StoreVal)) (nodeId : String) : Option NodeR :=
  match alookup store (makeNodeKey nodeId) with
  | some (StoreVal.nodeRec n) => some n
  | _ => none

/-- The edge record stored under `_make_edge_key(edgeId)`, if any. -/
def storeEdge (store : List (List Nat × StoreVal)) (edgeId : String) : Option EdgeR :=
  match alookup store (makeEdgeKey edgeId) with
  | some (StoreVal.edgeRec e) => some e
  | _ => none

/-- `get_node`: cache first (a hit refreshes recency), then a single backend
get; a fetched record populates the cache.  A stored value that does not
decode as a node record makes Python raise `CorruptRecord`; that path is
unreachable for engine-written stores and is modelled as absent. -/
def getNode (st : ES) (nodeId : String) : Option NodeR × ES :=
  match st.nodeCache.get nodeId with
  | (some n, nc) => (some n, { st with nodeCache := nc })
  | (none, nc) =>
    match alookup st.store (makeNodeKey nodeId) with
    | some (StoreVal.nodeRec n) => (some n, { st with nodeCache := nc.put nodeId n })
    | _ => (none, { st with nodeCache := nc })

/-- `get_edge`, symmetric to `get_node`. -/
def getEdge (st : ES) (edgeId : String) : Option EdgeR × ES :=
  match st.edgeCache.get edgeId with
  | (some e, ec) => (some e, { st with edgeCache := ec })
  | (none, ec) =>
    match alookup st.store (makeEdgeKey edgeId) with
    | some (StoreVal.edgeRec e) => (some e, { st with edgeCache := ec.put edgeId e })
    | _ => (none, { st with edgeCache := ec })

/-- First phase of `get_batch_nodes`: walk the requested identifiers,
collecting cache hits into the results dict and cache misses into
`to_fetch` (in order, duplicates kept, as `list.append` does). -/
def gbnScan : List String → ES → List (String × NodeR) → List String →
    List (String × NodeR) × List String × ES
  | [], st, res, tf => (res, tf, st)
  | nid :: t, st, res, tf =>
    match st.nodeCache.get nid with
    | (some n, nc) => gbnScan t { st with nodeCache := nc } (upsert res nid n) tf
    | (none, nc) => gbnScan t { st with nodeCache := nc } res (tf ++ [nid])

/-- Second phase of `get_batch_nodes`: one backend batch get over the missed
keys (a dict, so keys deduplicate to their first occurrence), decode each
present record, populate the cache and the results dict; absent keys are
skipped. -/
def gbnFill : List String → ES → List (String × NodeR) → List (String × NodeR) × ES
  | [], st, res => (res, st)
  | nid :: t, st, res =>
    match storeNode st.store nid with
    | some n => gbnFill t { st with nodeCache := st.nodeCache.put nid n } (upsert res nid n)
    | none => gbnFill t st res

/-- `get_batch_nodes`: cache hits plus decoded misses, as an insertion-order
dict from identifier to record. -/
def getBatchNodes (st : ES) (ids : List String) : List (String × NodeR) × ES :=
  match gbnScan ids st [] [] with
  | (res, [], st1) => (res, st1)
  | (res, tf, st1) => gbnFill (dedupFirst tf) st1 res

/-- First phase of `get_batch_edges`, as for nodes. -/
def gbeScan : List String → ES → List (String × EdgeR) → List String →
    List (String × EdgeR) × List String × ES
  | [], st, res, tf => (res, tf, st)
  | eid :: t, st, res, tf =>
    match st.edgeCache.get eid with
    | (some e, ec) => gbeScan t { st with edgeCache := ec } (upsert res eid e) tf
    | (none, ec) => gbeScan t { st with edgeCache := ec } res (tf ++ [eid])

/-- Second phase of `get_batch_edges`, as for nodes. -/
def gbeFill : List String → ES → List (String × EdgeR) → List (String × EdgeR) × ES
  | [], st, res => (res, st)
  | eid :: t, st, res =>
    match storeEdge st.store eid with
    | some e => gbeFill t { st with edgeCache := st.edgeCache.put eid e } (upsert res eid e)
    | none => gbeFill t st res

/-- `get_batch_edges`. -/
def getBatchEdges (st : ES) (ids : List String) : List (String × EdgeR) × ES :=
  match gbeScan ids st [] [] with
  | (res, [], st1) => (res, st1)
  | (res, tf, st1) => gbeFill (dedupFirst tf) st1 res

/-- `get_neighbors`: resolve the node, batch-fetch its outgoing edges,
collect the end-node identifiers, batch-fetch those nodes and return the
dict values.  An absent node yields an empty list. -/
def getNeighbors (st : ES) (nodeId : String) : List NodeR × ES :=
  match getNode st nodeId with
  | (none, st1) => ([], st1)
  | (some node, st1) =>
    match getBatchEdges st1 node.outgoing_edge_ids with
    | (edgeMap, st2) =>
      match getBatchNodes st2 (edgeMap.map fun p => p.2.end_node_id) with
      | (nodeMap, st3) => (nodeMap.map Prod.snd, st3)

/-- Result of `bfs`: a found node (when a target label matched), the full
visitation order (no target), or `None` (target given but not found). -/
inductive BfsRes where
  | found (n : NodeR)
  | trace (order : List String)
  | nofind
  deriving DecidableEq, Repr

/-- Python truthiness of the optional target label: `None` and the empty
string are falsy. -/
def targetTruthy : Option String → Bool
  | none => false
  | some t => !(t == "")

/-- The body of the `bfs` while-loop, with explicit fuel.  Each iteration
pops the frontier head; an already-visited identifier is skipped, an absent
node is marked visited but not expanded, otherwise the node is appended to
the visitation order, returned if its label matches a truthy target, and
its unvisited neighbors are enqueued. -/
def bfsLoop (target : Option String) :
    Nat → ES → List String → List String → List String → Option (BfsRes × ES)
  | _, st, _, [], order =>
    if targetTruthy target then some (BfsRes.nofind, st) else some (BfsRes.trace order, st)
  | 0, _, _, _ :: _, _ => none
  | f + 1, st, visited, cur :: rest, order =>
    if cur ∈ visited then bfsLoop target f st visited rest order
    else
      match getNode st cur with
      | (none, st1) => bfsLoop target f st1 (cur :: visited) rest order
      | (some node, st1) =>
        if targetTruthy target && (node.label == target.getD "") then
          some (BfsRes.found node, st1)
        else
          match getNeighbors st1 cur with
          | (nbrs, st2) =>
            bfsLoop target f st2 (cur :: visited)
              (rest ++ (nbrs.map fun n => n.id).filter (fun i => ¬ i ∈ cur :: visited))
              (order ++ [cur])

/-- The identifiers of all node records in the backend. -/
def nodeIdsOf (store : List (List Nat × StoreVal)) : List String :=
  store.filterMap fun p => match p.2 with
    | StoreVal.nodeRec n => some n.id
    | StoreVal.edgeRec _ => none

/-- The out-degree bound of a stored node: the length of its outgoing-edge
identifier list (0 for an absent node). -/
def weight (store : List (List Nat × StoreVal)) (x : String) : Nat :=
  match storeNode store x with
  | some n => n.outgoing_edge_ids.length
  | none => 0

/-- Remaining enqueue budget: total out-degree of the not-yet-visited
stored nodes. -/
def remW (store : List (List Nat × StoreVal)) (visited : List String) : Nat :=
  (((nodeIdsOf store).filter fun x => ¬ x ∈ visited).map (weight store)).sum

/-- Fuel sufficient for the whole BFS: one initial enqueue plus the total
out-degree of all stored nodes, an upper bound on the total number of
enqueues (each stored node is expanded at most once). -/
def bfsFuel (store : List (List Nat × StoreVal)) : Nat :=
  1 + ((nodeIdsOf store).map (weight store)).sum

/-- `bfs(start_node_id, target_label)`.  The fuel `bfsFuel` is proven
sufficient below (claim C5), which is the termination argument for the
Python while-loop. -/
def bfs (st : ES) (startId : String) (target : Option String) : Option (BfsRes × ES) :=
  bfsLoop target (bfsFuel st.store) st [] [startId] []

/-- An edge specification for `create_edges_batch`:
`{"label": ..., "start_node_id": ..., "end_node_id": ..., "properties": ...}`. -/
structure EdgeSpec where
  label : String
  start_node_id : String
  end_node_id : String
  properties : List (String × PropVal)
  deriving DecidableEq, Repr

/-- In-place mutation of the Python node object aliased by the cache: the
cached value under `k` (if any) is replaced without touching recency or
membership.  If the object was evicted meanwhile, the cache is unchanged. -/
def cacheSetIfPresent (c : LRU String NodeR) (k : String) (v : NodeR) : LRU String NodeR :=
  { c with store := c.store.map fun p => if p.1 = k then (k, v) else p }

/-- The validation-and-accumulation loop of `create_edges_batch`.  Each spec
resolves both endpoints through `get_node` (mutating caches); a missing
endpoint raises, carrying the state as mutated so far.  Otherwise the new
edge is recorded, and the start node object - aliased by the node cache
when still resident - gets the edge identifier appended in place; the
`node_updates` dict maps the start identifier to that object's current
value.  Edge identifiers (`str(uuid.uuid4())` in Python) are supplied as
an explicit list paired with the specs. -/
def cebLoop : List (String × EdgeSpec) → ES → List EdgeR → List (List Nat × StoreVal) →
    List (String × NodeR) →
    Except ES (List EdgeR × List (List Nat × StoreVal) × List (String × NodeR) × ES)
  | [], st, edges, eb, upd => Except.ok (edges, eb, upd, st)
  | (eid, spec) :: t, st, edges, eb, upd =>
    match getNode st spec.start_node_id with
    | (sn, st1) =>
      match getNode st1 spec.end_node_id with
      | (en, st2) =>
        match sn, en with
        | some startNode, some _ =>
          let e : EdgeR := ⟨eid, spec.label, spec.start_node_id, spec.end_node_id,
            spec.properties⟩
          let sn' : NodeR := { startNode with
            outgoing_edge_ids := startNode.outgoing_edge_ids ++ [eid] }
          cebLoop t
            { st2 with nodeCache := cacheSetIfPresent st2.nodeCache spec.start_node_id sn' }
            (edges ++ [e])
            (upsert eb (makeEdgeKey eid) (StoreVal.edgeRec e))
            (upsert upd spec.start_node_id sn')
        | _, _ => Except.error st2

/-- `put_batch` on the modelled backend: each pair written in order, later
duplicates overwriting earlier ones within the same transaction. -/
def putBatch (store : List (List Nat × StoreVal)) (items : List (List Nat × StoreVal)) :
    List (List Nat × StoreVal) :=
  items.foldl (fun s p => upsert s p.1 p.2) store

/-- `create_edges_batch`: validate and accumulate, merge the edge records
and the re-encoded start-node records into one dict (their key namespaces
are disjoint, claim C7, so the merge is an append), issue a single backend
batch write, then populate both caches.  On a missing endpoint the error
carries the engine state left behind by the aborted call. -/
def createEdgesBatch (st : ES) (idSpecs : List (String × EdgeSpec)) :
    Except ES (List EdgeR × ES) :=
  match cebLoop idSpecs st [] [] [] with
  | Except.error stE => Except.error stE
  | Except.ok (edges, eb, upd, st1) =>
    let batch := eb ++ upd.map fun p => (makeNodeKey p.1, StoreVal.nodeRec p.2)
    let st2 : ES := { st1 with store := putBatch st1.store batch }
    let ec := edges.foldl (fun c e => c.put e.id e) st2.edgeCache
    let nc := upd.foldl (fun c p => c.put p.1 p.2) st2.nodeCache
    Except.ok (edges, { st2 with edgeCache := ec, nodeCache := nc })

/-! ### Claims C1 and C2: batch atomicity and adjacency accumulation

`create_edges_batch` validates each endpoint inside its accumulation loop
and issues the single backend write only after the loop, so an aborted
batch never touches the backend.  But the loop mutates the start-node
objects in place, and those objects are aliased by the node cache:
`get_node` returns the very object the cache holds.  Two consequences,
each witnessed below on a concrete run:

* C1: after an abort, a start node already processed keeps the appended
  edge identifier in its cached record, so `get_node` observes a node
  update from the failed call (the claimed rollback of observable state
  fails, even though the backend is untouched and `get_edge` misses).
* C2: if the cache capacity is small enough that the shared start node is
  evicted between two specs, the second spec re-fetches the stale stored
  record and the accumulated `node_updates` entry is overwritten, losing
  the first edge's adjacency (the claimed exactly-once adjacency fails).
-/

def nodeA : NodeR := ⟨"A", "person", [], []⟩

def nodeB : NodeR := ⟨"B", "person", [], []⟩

def nodeC : NodeR := ⟨"C", "person", [], []⟩

/-- Engine over a backend holding nodes `A` and `B`, fresh caches of
capacity 10 (no eviction in play). -/
def stC1 : ES :=
  ⟨[(makeNodeKey "A", StoreVal.nodeRec nodeA), (makeNodeKey "B", StoreVal.nodeRec nodeB)],
    LRU.empty String NodeR 10, LRU.empty String EdgeR 10⟩

/-- Two edge specs: `A -> B` (valid) then `A -> Z` (`Z` has no record). -/
def specsC1 : List (String × EdgeSpec) :=
  [("e1", ⟨"knows", "A", "B", []⟩), ("e2", ⟨"knows", "A", "Z", []⟩)]

/-- C1 (failing run): the batch aborts on the missing endpoint before any
backend write - the store is unchanged and `get_edge` misses on the new
edge identifier - yet `get_node("A")` afterwards returns a record whose
outgoing-edge list contains the aborted edge `e1`, whereas before the call
it was empty: a node update from the failed call is observable, refuting
the claimed unchanged observable state. -/
theorem claim_C1_bug :
    (∃ stE, createEdgesBatch stC1 specsC1 = Except.error stE ∧
      stE.store = stC1.store ∧
      (getEdge stE "e1").1 = none ∧ (getEdge stE "e2").1 = none ∧
      (getNode stE "A").1 = some ⟨"A", "person", [], ["e1"]⟩) ∧
    (getNode stC1 "A").1 = some ⟨"A", "person", [], []⟩ := by
  refine ⟨⟨⟨stC1.store,
    LRU.mk 10 [("B", nodeB), ("A", ⟨"A", "person", [], ["e1"]⟩)],
    LRU.empty String EdgeR 10⟩, ?_, ?_, ?_, ?_, ?_⟩, ?_⟩ <;> decide

/-- Engine over a backend holding nodes `A`, `B`, `C`, fresh caches of
capacity 1 (the specification requires only capacity ≥ 1). -/
def stC2 : ES :=
  ⟨[(makeNodeKey "A", StoreVal.nodeRec nodeA), (makeNodeKey "B", StoreVal.nodeRec nodeB),
    (makeNodeKey "C", StoreVal.nodeRec nodeC)],
    LRU.empty String NodeR 1, LRU.empty String EdgeR 1⟩

/-- Two edge specs sharing start node `A`, all endpoints resolving. -/
def specsC2 : List (String × EdgeSpec) :=
  [("e1", ⟨"knows", "A", "B", []⟩), ("e2", ⟨"knows", "A", "C", []⟩)]

/-- The engine state after `create_edges_batch(specsC2)` on `stC2`. -/
def stC2final : ES :=
  ⟨[(makeNodeKey "A", StoreVal.nodeRec ⟨"A", "person", [], ["e2"]⟩),
    (makeNodeKey "B", StoreVal.nodeRec nodeB),
    (makeNodeKey "C", StoreVal.nodeRec nodeC),
    (makeEdgeKey "e1", StoreVal.edgeRec ⟨"e1", "knows", "A", "B", []⟩),
    (makeEdgeKey "e2", StoreVal.edgeRec ⟨"e2", "knows", "A", "C", []⟩)],
    LRU.mk 1 [("A", ⟨"A", "person", [], ["e2"]⟩)],
    LRU.mk 1 [("e2", ⟨"e2", "knows", "A", "C", []⟩)]⟩

/-- C2 (failing run): on a capacity-1 cache, `create_edges_batch` with two
edges sharing start node `A` succeeds and creates both edge records in the
single batch write, but the fetch of the second spec's end node evicts the
in-progress `A` object, so the second spec re-reads the stale stored record
and its `node_updates` entry overwrites the first: afterwards
`get_node("A").outgoing_edge_ids` is `["e2"]` - the first new edge
identifier `e1` is missing, refuting the claimed exactly-once adjacency
for every call (the edge record `e1` itself is committed, orphaned from
its start node's adjacency). -/
theorem claim_C2_bug :
    createEdgesBatch stC2 specsC2 =
      Except.ok ([⟨"e1", "knows", "A", "B", []⟩, ⟨"e2", "knows", "A", "C", []⟩], stC2final) ∧
    (getNode stC2final "A").1 = some ⟨"A", "person", [], ["e2"]⟩ ∧
    storeNode stC2final.store "A" = some ⟨"A", "person", [], ["e2"]⟩ ∧
    storeEdge stC2final.store "e1" = some ⟨"e1", "knows", "A", "B", []⟩ ∧
    ¬ "e1" ∈ (⟨"A", "person", [], ["e2"]⟩ : NodeR).outgoing_edge_ids := by
  refine ⟨?_, ?_, ?_, ?_, ?_⟩ <;> decide

/-! ### Association-list and cache invariant lemmas -/

theorem alookup_isSome_iff {α β : Type} [DecidableEq α] (l : List (α × β)) (k : α) :
    (alookup l k).isSome ↔ k ∈ l.map Prod.fst := by
  induction l with
  | nil => simp [alookup]
  | cons p t ih =>
    simp only [alookup, List.map_cons, List.mem_cons]
    by_cases hk : p.1 = k
    · rw [if_pos hk]; simp [hk]
    · rw [if_neg hk]
      simp only [ih]
      constructor
      · exact Or.inr
      · rintro (h | h)
        · exact absurd h.symm hk
        · exact h

theorem alookup_append_left {α β : Type} [DecidableEq α] (l m : List (α × β)) (k : α) (v : β)
    (h : alookup l k = some v) : alookup (l ++ m) k = some v := by
  induction l with
  | nil => cases h
  | cons p t ih =>
    simp only [alookup] at h ⊢
    by_cases hk : p.1 = k
    · rw [if_pos hk] at h ⊢; exact h
    · rw [if_neg hk] at h ⊢; exact ih h

theorem alookup_append_right {α β : Type} [DecidableEq α] (l m : List (α × β)) (k : α)
    (h : alookup l k = none) : alookup (l ++ m) k = alookup m k := by
  induction l with
  | nil => rfl
  | cons p t ih =>
    simp only [alookup] at h ⊢
    by_cases hk : p.1 = k
    · rw [if_pos hk] at h; cases h
    · rw [if_neg hk] at h ⊢; exact ih h

theorem upsert_map_fst {α β : Type} [DecidableEq α] (l : List (α × β)) (k : α) (v : β) :
    (l.map fun p => if p.1 = k then (k, v) else p).map Prod.fst = l.map Prod.fst := by
  induction l with
  | nil => rfl
  | cons p t ih =>
    simp only [List.map_cons, ih]
    by_cases hk : p.1 = k
    · rw [if_pos hk]; simp [hk]
    · rw [if_neg hk]

theorem alookup_map_replace {α β : Type} [DecidableEq α] (l : List (α × β)) (k : α) (v : β)
    (h : (alookup l k).isSome) :
    alookup (l.map fun p => if p.1 = k then (k, v) else p) k = some v := by
  induction l with
  | nil => simp [alookup] at h
  | cons p t ih =>
    simp only [List.map_cons]
    by_cases hk : p.1 = k
    · rw [if_pos hk, alookup_cons]
      simp
    · rw [if_neg hk, alookup_cons, if_neg hk]
      rw [alookup_cons, if_neg hk] at h
      exact ih h

theorem alookup_upsert_self {α β : Type} [DecidableEq α] (l : List (α × β)) (k : α) (v : β) :
    alookup (upsert l k v) k = some v := by
  unfold upsert
  by_cases h : (alookup l k).isSome
  · rw [if_pos h]
    exact alookup_map_replace l k v h
  · rw [if_neg h]
    rw [alookup_append_right l _ k (by cases hl : alookup l k with
      | none => rfl
      | some w => rw [hl] at h; simp at h)]
    simp [alookup]

theorem alookup_upsert_other {α β : Type} [DecidableEq α] (l : List (α × β)) (k x : α) (v : β)
    (hx : x ≠ k) : alookup (upsert l k v) x = alookup l x := by
  unfold upsert
  by_cases h : (alookup l k).isSome
  · rw [if_pos h]
    clear h
    induction l with
    | nil => rfl
    | cons p t ih =>
      simp only [List.map_cons]
      rw [alookup_cons p t x]
      by_cases hk : p.1 = k
      · rw [if_pos hk, alookup_cons]
        have h1 : ¬ ((k, v).1 = x) := fun he => hx ((show k = x from he).symm)
        rw [if_neg h1, if_neg (fun he : p.1 = x => hx (hk ▸ he).symm)]
        exact ih
      · rw [if_neg hk, alookup_cons]
        by_cases hpx : p.1 = x
        · rw [if_pos hpx, if_pos hpx]
        · rw [if_neg hpx, if_neg hpx]
          exact ih
  · rw [if_neg h]
    cases hl : alookup l x with
    | some w => exact alookup_append_left l _ x w hl
    | none =>
      rw [alookup_append_right l _ x hl, alookup_cons]
      have h1 : ¬ ((k, v).1 = x) := fun he => hx ((show k = x from he).symm)
      rw [if_neg h1]
      rfl

theorem upsert_keys_nodup {α β : Type} [DecidableEq α] (l : List (α × β)) (k : α) (v : β)
    (hnd : (l.map Prod.fst).Nodup) : ((upsert l k v).map Prod.fst).Nodup := by
  unfold upsert
  by_cases h : (alookup l k).isSome
  · rw [if_pos h, upsert_map_fst]
    exact hnd
  · rw [if_neg h]
    have hk : k ∉ l.map Prod.fst := fun hm => h ((alookup_isSome_iff l k).mpr hm)
    simp only [List.map_append, List.map_cons, List.map_nil]
    exact List.Nodup.append hnd (by simp) (by
      intro a ha hb
      simp only [List.mem_singleton] at hb
      exact hk (hb ▸ ha))

theorem mem_upsert {α β : Type} [DecidableEq α] (l : List (α × β)) (k : α) (v : β) (p : α × β)
    (h : p ∈ upsert l k v) : p ∈ l ∨ p = (k, v) := by
  unfold upsert at h
  by_cases hs : (alookup l k).isSome
  · rw [if_pos hs] at h
    rcases List.mem_map.mp h with ⟨q, hq, he⟩
    by_cases hk : q.1 = k
    · rw [if_pos hk] at he; exact Or.inr he.symm
    · rw [if_neg hk] at he; exact Or.inl (he ▸ hq)
  · rw [if_neg hs] at h
    rcases List.mem_append.mp h with h | h
    · exact Or.inl h
    · simp only [List.mem_singleton] at h; exact Or.inr h

theorem mem_dedupFirstAux {α : Type} [DecidableEq α] (l : List α) :
    ∀ (seen : List α) (x : α), x ∈ dedupFirstAux l seen ↔ x ∈ l ∧ x ∉ seen := by
  induction l with
  | nil => intro seen x; simp [dedupFirstAux]
  | cons y t ih =>
    intro seen x
    simp only [dedupFirstAux]
    by_cases hy : y ∈ seen
    · rw [if_pos hy, ih]
      constructor
      · rintro ⟨h1, h2⟩; exact ⟨List.mem_cons_of_mem _ h1, h2⟩
      · rintro ⟨h1, h2⟩
        rcases List.mem_cons.mp h1 with h | h
        · exact absurd (h ▸ hy) h2
        · exact ⟨h, h2⟩
    · rw [if_neg hy]
      simp only [List.mem_cons, ih]
      constructor
      · rintro (h | ⟨h1, h2⟩)
        · exact ⟨Or.inl h, h ▸ hy⟩
        · exact ⟨Or.inr h1, fun hc => h2 (Or.inr hc)⟩
      · rintro ⟨h1 | h1, h2⟩
        · exact Or.inl h1
        · by_cases hxy : x = y
          · exact Or.inl hxy
          · refine Or.inr ⟨h1, fun hc => ?_⟩
            rcases hc with h | h
            · exact hxy h
            · exact h2 h

theorem mem_dedupFirst {α : Type} [DecidableEq α] (l : List α) (x : α) :
    x ∈ dedupFirst l ↔ x ∈ l := by
  unfold dedupFirst
  rw [mem_dedupFirstAux]
  simp

theorem dedupFirstAux_nodup {α : Type} [DecidableEq α] (l : List α) :
    ∀ (seen : List α), (dedupFirstAux l seen).Nodup := by
  induction l with
  | nil => intro seen; simp [dedupFirstAux]
  | cons y t ih =>
    intro seen
    simp only [dedupFirstAux]
    by_cases hy : y ∈ seen
    · rw [if_pos hy]; exact ih seen
    · rw [if_neg hy]
      refine List.nodup_cons.mpr ⟨?_, ih (y :: seen)⟩
      intro hc
      exact ((mem_dedupFirstAux t (y :: seen) y).mp hc).2 (by simp)

theorem dedupFirst_nodup {α : Type} [DecidableEq α] (l : List α) : (dedupFirst l).Nodup :=
  dedupFirstAux_nodup l []

theorem mem_aerase {α β : Type} [DecidableEq α] (l : List (α × β)) (k : α) (p : α × β) :
    p ∈ aerase l k ↔ p ∈ l ∧ p.1 ≠ k := by
  unfold aerase
  simp [List.mem_filter]

theorem aerase_keys_sublist {α β : Type} [DecidableEq α] (l : List (α × β)) (k : α) :
    ((aerase l k).map Prod.fst).Sublist (l.map Prod.fst) :=
  List.Sublist.map _ (List.filter_sublist l)

theorem length_le_of_nodup_subset {α : Type} [DecidableEq α] (l m : List α)
    (hnd : l.Nodup) (hsub : ∀ x ∈ l, x ∈ m) : l.length ≤ m.length := by
  calc l.length = l.toFinset.card := (List.toFinset_card_of_nodup hnd).symm
    _ ≤ m.toFinset.card := Finset.card_le_card (fun x hx =>
        List.mem_toFinset.mpr (hsub x (List.mem_toFinset.mp hx)))
    _ ≤ m.length := List.toFinset_card_le m

theorem aerase_not_mem_keys {α β : Type} [DecidableEq α] (l : List (α × β)) (k : α) :
    k ∉ (aerase l k).map Prod.fst := by
  intro h
  rcases List.mem_map.mp h with ⟨p, hp, he⟩
  exact ((mem_aerase l k p).mp hp).2 he

theorem aerase_append_keys_nodup {α β : Type} [DecidableEq α] (l : List (α × β)) (k : α) (v : β)
    (hnd : (l.map Prod.fst).Nodup) : ((aerase l k ++ [(k, v)]).map Prod.fst).Nodup := by
  simp only [List.map_append, List.map_cons, List.map_nil]
  refine List.Nodup.append (List.Nodup.sublist (aerase_keys_sublist l k) hnd) (by simp) ?_
  intro a ha hb
  simp only [List.mem_singleton] at hb
  exact aerase_not_mem_keys l k (hb ▸ ha)

theorem lru_get_fst {α β : Type} [DecidableEq α] (c : LRU α β) (k : α) :
    (c.get k).1 = alookup c.store k := by
  unfold LRU.get
  cases alookup c.store k <;> rfl

theorem lru_get_none_snd {α β : Type} [DecidableEq α] (c : LRU α β) (k : α)
    (h : (c.get k).1 = none) : (c.get k).2 = c := by
  unfold LRU.get at h ⊢
  cases hl : alookup c.store k with
  | none => rfl
  | some v => rw [hl] at h; simp at h

theorem mem_lru_get {α β : Type} [DecidableEq α] (c : LRU α β) (k : α) (p : α × β)
    (hnd : (c.store.map Prod.fst).Nodup) : p ∈ (c.get k).2.store ↔ p ∈ c.store := by
  unfold LRU.get
  cases hl : alookup c.store k with
  | none => rfl
  | some v =>
    show p ∈ aerase c.store k ++ [(k, v)] ↔ p ∈ c.store
    constructor
    · intro h
      rcases List.mem_append.mp h with h | h
      · exact ((mem_aerase c.store k p).mp h).1
      · simp only [List.mem_singleton] at h
        exact h ▸ mem_of_alookup c.store k v hl
    · intro h
      by_cases hk : p.1 = k
      · have : alookup c.store p.1 = some p.2 := alookup_of_mem c.store p.1 p.2 hnd
          (by cases p; exact h)
        rw [hk, hl] at this
        refine List.mem_append.mpr (Or.inr ?_)
        simp only [List.mem_singleton]
        cases p
        simp only at hk
        simp_all
      · exact List.mem_append.mpr (Or.inl ((mem_aerase c.store k p).mpr ⟨h, hk⟩))

theorem lru_get_keys_nodup {α β : Type} [DecidableEq α] (c : LRU α β) (k : α)
    (hnd : (c.store.map Prod.fst).Nodup) : ((c.get k).2.store.map Prod.fst).Nodup := by
  unfold LRU.get
  cases hl : alookup c.store k with
  | none => exact hnd
  | some v => exact aerase_append_keys_nodup c.store k v hnd

theorem mem_lru_put {α β : Type} [DecidableEq α] (c : LRU α β) (k : α) (v : β) (p : α × β)
    (h : p ∈ (c.put k v).store) : p ∈ c.store ∨ p = (k, v) := by
  unfold LRU.put at h
  split at h
  · have h2 : p ∈ aerase c.store k ++ [(k, v)] := List.mem_of_mem_tail h
    rcases List.mem_append.mp h2 with h3 | h3
    · exact Or.inl ((mem_aerase c.store k p).mp h3).1
    · simp only [List.mem_singleton] at h3
      exact Or.inr h3
  · rcases List.mem_append.mp h with h3 | h3
    · exact Or.inl ((mem_aerase c.store k p).mp h3).1
    · simp only [List.mem_singleton] at h3
      exact Or.inr h3

theorem lru_put_keys_nodup {α β : Type} [DecidableEq α] (c : LRU α β) (k : α) (v : β)
    (hnd : (c.store.map Prod.fst).Nodup) : ((c.put k v).store.map Prod.fst).Nodup := by
  unfold LRU.put
  split
  · exact List.Nodup.sublist (List.Sublist.map _ (List.tail_sublist _))
      (aerase_append_keys_nodup c.store k v hnd)
  · exact aerase_append_keys_nodup c.store k v hnd

/-! ### Store well-formedness and engine consistency

A well-formed backend maps each key to a record whose own identifier
re-encodes to that key (which is how every engine write constructs keys);
a consistent engine state additionally has duplicate-free caches whose
every entry equals the stored record for that identifier (the cache
invariant of the specification: a hit reflects the committed value). -/

def entryKeyOK : List Nat × StoreVal → Prop
  | (k, StoreVal.nodeRec n) => k = makeNodeKey n.id
  | (k, StoreVal.edgeRec e) => k = makeEdgeKey e.id

instance : (p : List Nat × StoreVal) → Decidable (entryKeyOK p)
  | (k, StoreVal.nodeRec n) => inferInstanceAs (Decidable (k = makeNodeKey n.id))
  | (k, StoreVal.edgeRec e) => inferInstanceAs (Decidable (k = makeEdgeKey e.id))

def WFStore (store : List (List Nat × StoreVal)) : Prop :=
  (store.map Prod.fst).Nodup ∧ ∀ p ∈ store, entryKeyOK p

def Consistent (st : ES) : Prop :=
  WFStore st.store ∧
  (st.nodeCache.store.map Prod.fst).Nodup ∧
  (st.edgeCache.store.map Prod.fst).Nodup ∧
  (∀ p ∈ st.nodeCache.store, storeNode st.store p.1 = some p.2) ∧
  (∀ p ∈ st.edgeCache.store, storeEdge st.store p.1 = some p.2)

instance (store : List (List Nat × StoreVal)) : Decidable (WFStore store) := by
  unfold WFStore; infer_instance

instance (st : ES) : Decidable (Consistent st) := by
  unfold Consistent; infer_instance

theorem storeNode_id (store : List (List Nat × StoreVal)) (i : String) (n : NodeR)
    (hwf : WFStore store) (h : storeNode store i = some n) : n.id = i := by
  unfold storeNode at h
  cases hl : alookup store (makeNodeKey i) with
  | none => rw [hl] at h; cases h
  | some v =>
    rw [hl] at h
    cases v with
    | nodeRec m =>
      have hm := hwf.2 _ (mem_of_alookup store _ _ hl)
      unfold entryKeyOK at hm
      cases h
      exact (makeNodeKey_inj _ _ hm.symm)
    | edgeRec e => cases h

theorem storeEdge_id (store : List (List Nat × StoreVal)) (i : String) (e : EdgeR)
    (hwf : WFStore store) (h : storeEdge store i = some e) : e.id = i := by
  unfold storeEdge at h
  cases hl : alookup store (makeEdgeKey i) with
  | none => rw [hl] at h; cases h
  | some v =>
    rw [hl] at h
    cases v with
    | nodeRec m => cases h
    | edgeRec f =>
      have hm := hwf.2 _ (mem_of_alookup store _ _ hl)
      unfold entryKeyOK at hm
      cases h
      exact (makeEdgeKey_inj _ _ hm.symm)

/-- On a consistent state, `get_node` returns exactly the stored record (the
cache never disagrees with the backend), leaves the backend and the edge
cache untouched, and preserves consistency. -/
theorem getNode_spec (st : ES) (i : String) (h : Consistent st) :
    (getNode st i).1 = storeNode st.store i ∧
    (getNode st i).2.store = st.store ∧
    (getNode st i).2.edgeCache = st.edgeCache ∧
    Consistent (getNode st i).2 := by
  obtain ⟨hwf, hncd, hecd, hnc, hec⟩ := h
  have hfst := lru_get_fst st.nodeCache i
  have hnd2 := lru_get_keys_nodup st.nodeCache i hncd
  unfold getNode
  cases hg : st.nodeCache.get i with
  | mk o nc =>
    rw [hg] at hfst hnd2
    simp only at hfst hnd2
    cases o with
    | some n =>
      have hmem : (i, n) ∈ st.nodeCache.store := mem_of_alookup _ _ _ hfst.symm
      have hsn : storeNode st.store i = some n := hnc (i, n) hmem
      refine ⟨hsn.symm, rfl, rfl, hwf, hnd2, hecd, ?_, hec⟩
      intro p hp
      have hp2 : p ∈ (st.nodeCache.get i).2.store := by rw [hg]; exact hp
      exact hnc p ((mem_lru_get st.nodeCache i p hncd).mp hp2)
    | none =>
      have hceq : nc = st.nodeCache := by
        have := lru_get_none_snd st.nodeCache i (by rw [hg])
        rw [hg] at this
        exact this
      subst hceq
      cases hs : alookup st.store (makeNodeKey i) with
      | none =>
        have hsn : storeNode st.store i = none := by unfold storeNode; rw [hs]
        exact ⟨hsn.symm, rfl, rfl, hwf, hncd, hecd, hnc, hec⟩
      | some v =>
        cases v with
        | nodeRec n =>
          have hsn : storeNode st.store i = some n := by unfold storeNode; rw [hs]
          refine ⟨hsn.symm, rfl, rfl, hwf, lru_put_keys_nodup _ i n hncd, hecd, ?_, hec⟩
          intro p hp
          rcases mem_lru_put _ i n p hp with hm | hm
          · exact hnc p hm
          · rw [hm]
            exact hsn
        | edgeRec e =>
          have hsn : storeNode st.store i = none := by unfold storeNode; rw [hs]
          exact ⟨hsn.symm, rfl, rfl, hwf, hncd, hecd, hnc, hec⟩

/-- On a consistent state, `get_edge` returns exactly the stored record,
leaves the backend and the node cache untouched, and preserves
consistency. -/
theorem getEdge_spec (st : ES) (i : String) (h : Consistent st) :
    (getEdge st i).1 = storeEdge st.store i ∧
    (getEdge st i).2.store = st.store ∧
    (getEdge st i).2.nodeCache = st.nodeCache ∧
    Consistent (getEdge st i).2 := by
  obtain ⟨hwf, hncd, hecd, hnc, hec⟩ := h
  have hfst := lru_get_fst st.edgeCache i
  have hnd2 := lru_get_keys_nodup st.edgeCache i hecd
  unfold getEdge
  cases hg : st.edgeCache.get i with
  | mk o ec =>
    rw [hg] at hfst hnd2
    simp only at hfst hnd2
    cases o with
    | some e =>
      have hmem : (i, e) ∈ st.edgeCache.store := mem_of_alookup _ _ _ hfst.symm
      have hse : storeEdge st.store i = some e := hec (i, e) hmem
      refine ⟨hse.symm, rfl, rfl, hwf, hncd, hnd2, hnc, ?_⟩
      intro p hp
      have hp2 : p ∈ (st.edgeCache.get i).2.store := by rw [hg]; exact hp
      exact hec p ((mem_lru_get st.edgeCache i p hecd).mp hp2)
    | none =>
      have hceq : ec = st.edgeCache := by
        have := lru_get_none_snd st.edgeCache i (by rw [hg])
        rw [hg] at this
        exact this
      subst hceq
      cases hs : alookup st.store (makeEdgeKey i) with
      | none =>
        have hse : storeEdge st.store i = none := by unfold storeEdge; rw [hs]
        exact ⟨hse.symm, rfl, rfl, hwf, hncd, hecd, hnc, hec⟩
      | some v =>
        cases v with
        | edgeRec e =>
          have hse : storeEdge st.store i = some e := by unfold storeEdge; rw [hs]
          refine ⟨hse.symm, rfl, rfl, hwf, hncd, lru_put_keys_nodup _ i e hecd, hnc, ?_⟩
          intro p hp
          rcases mem_lru_put _ i e p hp with hm | hm
          · exact hec p hm
          · rw [hm]
            exact hse
        | nodeRec n =>
          have hse : storeEdge st.store i = none := by unfold storeEdge; rw [hs]
          exact ⟨hse.symm, rfl, rfl, hwf, hncd, hecd, hnc, hec⟩

theorem alookup_upsert_isSome_mono {α β : Type} [DecidableEq α] (l : List (α × β)) (k x : α)
    (v : β) (h : (alookup l x).isSome) : (alookup (upsert l k v) x).isSome := by
  by_cases hx : x = k
  · subst hx
    rw [alookup_upsert_self]
    rfl
  · rw [alookup_upsert_other l k x v hx]
    exact h

theorem consistent_nodeCache_get (st : ES) (i : String) (h : Consistent st) :
    Consistent { st with nodeCache := (st.nodeCache.get i).2 } := by
  obtain ⟨hwf, hncd, hecd, hnc, hec⟩ := h
  refine ⟨hwf, lru_get_keys_nodup st.nodeCache i hncd, hecd, ?_, hec⟩
  intro p hp
  exact hnc p ((mem_lru_get st.nodeCache i p hncd).mp hp)

theorem consistent_edgeCache_get (st : ES) (i : String) (h : Consistent st) :
    Consistent { st with edgeCache := (st.edgeCache.get i).2 } := by
  obtain ⟨hwf, hncd, hecd, hnc, hec⟩ := h
  refine ⟨hwf, hncd, lru_get_keys_nodup st.edgeCache i hecd, hnc, ?_⟩
  intro p hp
  exact hec p ((mem_lru_get st.edgeCache i p hecd).mp hp)

theorem consistent_nodeCache_put (st : ES) (i : String) (n : NodeR) (h : Consistent st)
    (hs : storeNode st.store i = some n) :
    Consistent { st with nodeCache := st.nodeCache.put i n } := by
  obtain ⟨hwf, hncd, hecd, hnc, hec⟩ := h
  refine ⟨hwf, lru_put_keys_nodup st.nodeCache i n hncd, hecd, ?_, hec⟩
  intro p hp
  rcases mem_lru_put st.nodeCache i n p hp with hm | hm
  · exact hnc p hm
  · rw [hm]
    exact hs

theorem consistent_edgeCache_put (st : ES) (i : String) (e : EdgeR) (h : Consistent st)
    (hs : storeEdge st.store i = some e) :
    Consistent { st with edgeCache := st.edgeCache.put i e } := by
  obtain ⟨hwf, hncd, hecd, hnc, hec⟩ := h
  refine ⟨hwf, hncd, lru_put_keys_nodup st.edgeCache i e hecd, hnc, ?_⟩
  intro p hp
  rcases mem_lru_put st.edgeCache i e p hp with hm | hm
  · exact hec p hm
  · rw [hm]
    exact hs

/-- Behavior of the cache-scan phase of `get_batch_nodes` on a consistent
state: store and edge cache untouched, consistency kept, the results dict
only ever holds stored values for scanned identifiers, and every requested
identifier ends up either in the results dict or in the miss list. -/
theorem gbnScan_spec (ids : List String) : ∀ (st : ES) (res : List (String × NodeR))
    (tf : List String), Consistent st → (res.map Prod.fst).Nodup →
    (∀ p ∈ res, storeNode st.store p.1 = some p.2) →
    (gbnScan ids st res tf).2.2.store = st.store ∧
    (gbnScan ids st res tf).2.2.edgeCache = st.edgeCache ∧
    Consistent (gbnScan ids st res tf).2.2 ∧
    ((gbnScan ids st res tf).1.map Prod.fst).Nodup ∧
    (∀ p ∈ (gbnScan ids st res tf).1, storeNode st.store p.1 = some p.2) ∧
    (∀ x, (alookup res x).isSome → (alookup (gbnScan ids st res tf).1 x).isSome) ∧
    (∀ x, (alookup (gbnScan ids st res tf).1 x).isSome → (alookup res x).isSome ∨ x ∈ ids) ∧
    (∀ x ∈ ids, (alookup (gbnScan ids st res tf).1 x).isSome ∨ x ∈ (gbnScan ids st res tf).2.1) ∧
    (∀ x ∈ (gbnScan ids st res tf).2.1, x ∈ tf ∨ x ∈ ids) ∧
    (∀ x ∈ tf, x ∈ (gbnScan ids st res tf).2.1) := by
  induction ids with
  | nil =>
    intro st res tf hcon hnd hval
    refine ⟨rfl, rfl, hcon, hnd, hval, fun x h => h, fun x h => Or.inl h, ?_, ?_, ?_⟩
    · intro x hx; cases hx
    · intro x hx; exact Or.inl hx
    · intro x hx; exact hx
  | cons nid t ih =>
    intro st res tf hcon hnd hval
    have hfst := lru_get_fst st.nodeCache nid
    have hconsget := consistent_nodeCache_get st nid hcon
    rw [show gbnScan (nid :: t) st res tf =
      (match st.nodeCache.get nid with
      | (some n, nc) => gbnScan t { st with nodeCache := nc } (upsert res nid n) tf
      | (none, nc) => gbnScan t { st with nodeCache := nc } res (tf ++ [nid])) from rfl]
    cases hg : st.nodeCache.get nid with
    | mk o nc =>
      rw [hg] at hfst hconsget
      simp only at hfst hconsget
      cases o with
      | some n =>
        have hmem : (nid, n) ∈ st.nodeCache.store := mem_of_alookup _ _ _ hfst.symm
        have hsn : storeNode st.store nid = some n := hcon.2.2.2.1 (nid, n) hmem
        have hvals : ∀ p ∈ upsert res nid n, storeNode st.store p.1 = some p.2 := by
          intro p hp
          rcases mem_upsert res nid n p hp with hm | hm
          · exact hval p hm
          · rw [hm]; exact hsn
        have := ih { st with nodeCache := nc } (upsert res nid n) tf hconsget
          (upsert_keys_nodup res nid n hnd) hvals
        simp only at this
        obtain ⟨c1, c2, c3, c4, c5, c6, c7, c8, c9, c10⟩ := this
        refine ⟨c1, c2, c3, c4, c5, ?_, ?_, ?_, ?_, c10⟩
        · intro x hx
          exact c6 x (alookup_upsert_isSome_mono res nid x n hx)
        · intro x hx
          rcases c7 x hx with hx2 | hx2
          · by_cases hxe : x = nid
            · exact Or.inr (hxe ▸ List.mem_cons_self nid t)
            · rw [alookup_upsert_other res nid x n hxe] at hx2
              exact Or.inl hx2
          · exact Or.inr (List.mem_cons_of_mem _ hx2)
        · intro x hx
          rcases List.mem_cons.mp hx with hxe | hxe
          · subst hxe
            exact Or.inl (c6 x (by rw [alookup_upsert_self]; rfl))
          · exact c8 x hxe
        · intro x hx
          rcases c9 x hx with hx2 | hx2
          · exact Or.inl hx2
          · exact Or.inr (List.mem_cons_of_mem _ hx2)
      | none =>
        have hceq : nc = st.nodeCache := by
          have := lru_get_none_snd st.nodeCache nid (by rw [hg])
          rw [hg] at this
          exact this
        subst hceq
        have := ih { st with nodeCache := st.nodeCache } res (tf ++ [nid]) hconsget hnd hval
        simp only at this
        obtain ⟨c1, c2, c3, c4, c5, c6, c7, c8, c9, c10⟩ := this
        refine ⟨c1, c2, c3, c4, c5, c6, ?_, ?_, ?_, ?_⟩
        · intro x hx
          rcases c7 x hx with hx2 | hx2
          · exact Or.inl hx2
          · exact Or.inr (List.mem_cons_of_mem _ hx2)
        · intro x hx
          rcases List.mem_cons.mp hx with hxe | hxe
          · subst hxe
            exact Or.inr (c10 x (List.mem_append.mpr (Or.inr (by simp))))
          · exact c8 x hxe
        · intro x hx
          rcases c9 x hx with hx2 | hx2
          · rcases List.mem_append.mp hx2 with hx3 | hx3
            · exact Or.inl hx3
            · simp only [List.mem_singleton] at hx3
              exact Or.inr (hx3 ▸ List.mem_cons_self nid t)
          · exact Or.inr (List.mem_cons_of_mem _ hx2)
        · intro x hx
          exact c10 x (List.mem_append.mpr (Or.inl hx))

/-- Behavior of the decode-and-populate phase of `get_batch_nodes`: the
results dict gains exactly the fetched identifiers with a backing record,
every other lookup is unchanged. -/
theorem gbnFill_spec (fids : List String) : ∀ (st : ES) (res : List (String × NodeR)),
    Consistent st → (res.map Prod.fst).Nodup →
    (∀ p ∈ res, storeNode st.store p.1 = some p.2) →
    (gbnFill fids st res).2.store = st.store ∧
    (gbnFill fids st res).2.edgeCache = st.edgeCache ∧
    Consistent (gbnFill fids st res).2 ∧
    ((gbnFill fids st res).1.map Prod.fst).Nodup ∧
    (∀ p ∈ (gbnFill fids st res).1, storeNode st.store p.1 = some p.2) ∧
    (∀ x, alookup (gbnFill fids st res).1 x =
      if x ∈ fids ∧ (storeNode st.store x).isSome then storeNode st.store x
      else alookup res x) := by
  induction fids with
  | nil =>
    intro st res hcon hnd hval
    refine ⟨rfl, rfl, hcon, hnd, hval, ?_⟩
    intro x
    rw [if_neg (by simp)]
    rfl
  | cons fid t ih =>
    intro st res hcon hnd hval
    rw [show gbnFill (fid :: t) st res =
      (match storeNode st.store fid with
      | some n => gbnFill t { st with nodeCache := st.nodeCache.put fid n } (upsert res fid n)
      | none => gbnFill t st res) from rfl]
    cases hs : storeNode st.store fid with
    | some n =>
      have hcons2 : Consistent { st with nodeCache := st.nodeCache.put fid n } :=
        consistent_nodeCache_put st fid n hcon hs
      have hvals : ∀ p ∈ upsert res fid n, storeNode st.store p.1 = some p.2 := by
        intro p hp
        rcases mem_upsert res fid n p hp with hm | hm
        · exact hval p hm
        · rw [hm]; exact hs
      have := ih { st with nodeCache := st.nodeCache.put fid n } (upsert res fid n) hcons2
        (upsert_keys_nodup res fid n hnd) hvals
      simp only at this
      obtain ⟨c1, c2, c3, c4, c5, c6⟩ := this
      refine ⟨c1, c2, c3, c4, c5, ?_⟩
      intro x
      rw [c6 x]
      by_cases hxt : x ∈ t ∧ (storeNode st.store x).isSome
      · rw [if_pos hxt, if_pos ⟨List.mem_cons_of_mem _ hxt.1, hxt.2⟩]
      · rw [if_neg hxt]
        by_cases hxf : x = fid
        · subst hxf
          rw [alookup_upsert_self, if_pos ⟨List.mem_cons_self x t, by rw [hs]; rfl⟩, hs]
        · rw [alookup_upsert_other res fid x n hxf]
          rw [if_neg (by
            rintro ⟨hm, hsome⟩
            rcases List.mem_cons.mp hm with he | he
            · exact hxf he
            · exact hxt ⟨he, hsome⟩)]
    | none =>
      have := ih st res hcon hnd hval
      obtain ⟨c1, c2, c3, c4, c5, c6⟩ := this
      refine ⟨c1, c2, c3, c4, c5, ?_⟩
      intro x
      rw [c6 x]
      by_cases hxt : x ∈ t ∧ (storeNode st.store x).isSome
      · rw [if_pos hxt, if_pos ⟨List.mem_cons_of_mem _ hxt.1, hxt.2⟩]
      · rw [if_neg hxt]
        rw [if_neg (by
          rintro ⟨hm, hsome⟩
          rcases List.mem_cons.mp hm with he | he
          · rw [he, hs] at hsome
            cases hsome
          · exact hxt ⟨he, hsome⟩)]

/-- Full behavior of `get_batch_nodes` on a consistent state: the returned
dict maps exactly the requested identifiers that have a backing record to
that stored record; the backend and the edge cache are untouched,
consistency is preserved, and the dict is no larger than the request. -/
theorem getBatchNodes_spec (st : ES) (ids : List String) (h : Consistent st) :
    (getBatchNodes st ids).2.store = st.store ∧
    (getBatchNodes st ids).2.edgeCache = st.edgeCache ∧
    Consistent (getBatchNodes st ids).2 ∧
    ((getBatchNodes st ids).1.map Prod.fst).Nodup ∧
    (∀ x, alookup (getBatchNodes st ids).1 x =
      if x ∈ ids then storeNode st.store x else none) ∧
    (getBatchNodes st ids).1.length ≤ ids.length := by
  have hscan := gbnScan_spec ids st [] [] h (by simp) (by simp)
  rw [show getBatchNodes st ids = (match gbnScan ids st [] [] with
    | (res, [], st1) => (res, st1)
    | (res, tf, st1) => gbnFill (dedupFirst tf) st1 res) from rfl]
  cases hg : gbnScan ids st [] [] with
  | mk res rest =>
    cases rest with
    | mk tf st1 =>
      rw [hg] at hscan
      simp only at hscan
      obtain ⟨c1, c2, c3, c4, c5, c6, c7, c8, c9, c10⟩ := hscan
      have hform0 : ∀ x, x ∉ ids → alookup res x = none := by
        intro x hx
        cases hl : alookup res x with
        | none => rfl
        | some v =>
          rcases c7 x (by rw [hl]; rfl) with hs | hs
          · simp [alookup] at hs
          · exact absurd hs hx
      have hval : ∀ x (v : NodeR), alookup res x = some v → storeNode st.store x = some v := by
        intro x v hl
        have := c5 (x, v) (mem_of_alookup res x v hl)
        exact this
      cases tf with
      | nil =>
        have hform : ∀ x, alookup res x = if x ∈ ids then storeNode st.store x else none := by
          intro x
          by_cases hx : x ∈ ids
          · rw [if_pos hx]
            rcases c8 x hx with hs | hs
            · cases hl : alookup res x with
              | none => rw [hl] at hs; cases hs
              | some v => exact (hval x v hl).symm
            · cases hs
          · rw [if_neg hx]
            exact hform0 x hx
        refine ⟨c1, c2, c3, c4, hform, ?_⟩
        have hsub : ∀ x ∈ res.map Prod.fst, x ∈ ids := by
          intro x hx
          have hsome : (alookup res x).isSome := (alookup_isSome_iff res x).mpr hx
          rcases c7 x hsome with hs | hs
          · simp [alookup] at hs
          · exact hs
        calc res.length = (res.map Prod.fst).length := by simp
          _ ≤ ids.length := length_le_of_nodup_subset _ ids c4 hsub
      | cons tfh tft =>
        have hfill := gbnFill_spec (dedupFirst (tfh :: tft)) st1 res c3 c4
          (by rw [c1]; exact c5)
        obtain ⟨f1, f2, f3, f4, f5, f6⟩ := hfill
        rw [c1] at f1 f5 f6
        rw [c2] at f2
        have hform : ∀ x, alookup (gbnFill (dedupFirst (tfh :: tft)) st1 res).1 x =
            if x ∈ ids then storeNode st.store x else none := by
          intro x
          rw [f6 x]
          by_cases hx : x ∈ ids
          · rw [if_pos hx]
            by_cases hf : x ∈ dedupFirst (tfh :: tft) ∧ (storeNode st.store x).isSome
            · rw [if_pos hf]
            · rw [if_neg hf]
              by_cases hsome : (storeNode st.store x).isSome
              · have hnf : x ∉ tfh :: tft := by
                  intro hm
                  exact hf ⟨(mem_dedupFirst _ x).mpr hm, hsome⟩
                rcases c8 x hx with hs | hs
                · cases hl : alookup res x with
                  | none => rw [hl] at hs; cases hs
                  | some v => exact (hval x v hl).symm
                · exact absurd hs hnf
              · rw [Option.not_isSome_iff_eq_none] at hsome
                rw [hsome]
                cases hl : alookup res x with
                | none => rfl
                | some v =>
                  have := hval x v hl
                  rw [this] at hsome
                  cases hsome
          · rw [if_neg hx]
            have hnf : x ∉ dedupFirst (tfh :: tft) := by
              intro hm
              rcases c9 x ((mem_dedupFirst _ x).mp hm) with hs | hs
              · cases hs
              · exact hx hs
            rw [if_neg (fun hc => hnf hc.1)]
            exact hform0 x hx
        refine ⟨f1, f2, f3, f4, hform, ?_⟩
        have hsub : ∀ x ∈ (gbnFill (dedupFirst (tfh :: tft)) st1 res).1.map Prod.fst,
            x ∈ ids := by
          intro x hx
          have hsome : (alookup (gbnFill (dedupFirst (tfh :: tft)) st1 res).1 x).isSome :=
            (alookup_isSome_iff _ x).mpr hx
          rw [hform x] at hsome
          by_cases hxi : x ∈ ids
          · exact hxi
          · rw [if_neg hxi] at hsome
            cases hsome
        calc (gbnFill (dedupFirst (tfh :: tft)) st1 res).1.length
            = ((gbnFill (dedupFirst (tfh :: tft)) st1 res).1.map Prod.fst).length := by simp
          _ ≤ ids.length := length_le_of_nodup_subset _ ids f4 hsub

/-- Behavior of the cache-scan phase of `get_batch_edges`, as for nodes. -/
theorem gbeScan_spec (ids : List String) : ∀ (st : ES) (res : List (String × EdgeR))
    (tf : List String), Consistent st → (res.map Prod.fst).Nodup →
    (∀ p ∈ res, storeEdge st.store p.1 = some p.2) →
    (gbeScan ids st res tf).2.2.store = st.store ∧
    (gbeScan ids st res tf).2.2.nodeCache = st.nodeCache ∧
    Consistent (gbeScan ids st res tf).2.2 ∧
    ((gbeScan ids st res tf).1.map Prod.fst).Nodup ∧
    (∀ p ∈ (gbeScan ids st res tf).1, storeEdge st.store p.1 = some p.2) ∧
    (∀ x, (alookup res x).isSome → (alookup (gbeScan ids st res tf).1 x).isSome) ∧
    (∀ x, (alookup (gbeScan ids st res tf).1 x).isSome → (alookup res x).isSome ∨ x ∈ ids) ∧
    (∀ x ∈ ids, (alookup (gbeScan ids st res tf).1 x).isSome ∨ x ∈ (gbeScan ids st res tf).2.1) ∧
    (∀ x ∈ (gbeScan ids st res tf).2.1, x ∈ tf ∨ x ∈ ids) ∧
    (∀ x ∈ tf, x ∈ (gbeScan ids st res tf).2.1) := by
  induction ids with
  | nil =>
    intro st res tf hcon hnd hval
    refine ⟨rfl, rfl, hcon, hnd, hval, fun x h => h, fun x h => Or.inl h, ?_, ?_, ?_⟩
    · intro x hx; cases hx
    · intro x hx; exact Or.inl hx
    · intro x hx; exact hx
  | cons eid t ih =>
    intro st res tf hcon hnd hval
    have hfst := lru_get_fst st.edgeCache eid
    have hconsget := consistent_edgeCache_get st eid hcon
    rw [show gbeScan (eid :: t) st res tf =
      (match st.edgeCache.get eid with
      | (some e, ec) => gbeScan t { st with edgeCache := ec } (upsert res eid e) tf
      | (none, ec) => gbeScan t { st with edgeCache := ec } res (tf ++ [eid])) from rfl]
    cases hg : st.edgeCache.get eid with
    | mk o ec =>
      rw [hg] at hfst hconsget
      simp only at hfst hconsget
      cases o with
      | some e =>
        have hmem : (eid, e) ∈ st.edgeCache.store := mem_of_alookup _ _ _ hfst.symm
        have hse : storeEdge st.store eid = some e := hcon.2.2.2.2 (eid, e) hmem
        have hvals : ∀ p ∈ upsert res eid e, storeEdge st.store p.1 = some p.2 := by
          intro p hp
          rcases mem_upsert res eid e p hp with hm | hm
          · exact hval p hm
          · rw [hm]; exact hse
        have := ih { st with edgeCache := ec } (upsert res eid e) tf hconsget
          (upsert_keys_nodup res eid e hnd) hvals
        simp only at this
        obtain ⟨c1, c2, c3, c4, c5, c6, c7, c8, c9, c10⟩ := this
        refine ⟨c1, c2, c3, c4, c5, ?_, ?_, ?_, ?_, c10⟩
        · intro x hx
          exact c6 x (alookup_upsert_isSome_mono res eid x e hx)
        · intro x hx
          rcases c7 x hx with hx2 | hx2
          · by_cases hxe : x = eid
            · exact Or.inr (hxe ▸ List.mem_cons_self eid t)
            · rw [alookup_upsert_other res eid x e hxe] at hx2
              exact Or.inl hx2
          · exact Or.inr (List.mem_cons_of_mem _ hx2)
        · intro x hx
          rcases List.mem_cons.mp hx with hxe | hxe
          · subst hxe
            exact Or.inl (c6 x (by rw [alookup_upsert_self]; rfl))
          · exact c8 x hxe
        · intro x hx
          rcases c9 x hx with hx2 | hx2
          · exact Or.inl hx2
          · exact Or.inr (List.mem_cons_of_mem _ hx2)
      | none =>
        have hceq : ec = st.edgeCache := by
          have := lru_get_none_snd st.edgeCache eid (by rw [hg])
          rw [hg] at this
          exact this
        subst hceq
        have := ih { st with edgeCache := st.edgeCache } res (tf ++ [eid]) hconsget hnd hval
        simp only at this
        obtain ⟨c1, c2, c3, c4, c5, c6, c7, c8, c9, c10⟩ := this
        refine ⟨c1, c2, c3, c4, c5, c6, ?_, ?_, ?_, ?_⟩
        · intro x hx
          rcases c7 x hx with hx2 | hx2
          · exact Or.inl hx2
          · exact Or.inr (List.mem_cons_of_mem _ hx2)
        · intro x hx
          rcases List.mem_cons.mp hx with hxe | hxe
          · subst hxe
            exact Or.inr (c10 x (List.mem_append.mpr (Or.inr (by simp))))
          · exact c8 x hxe
        · intro x hx
          rcases c9 x hx with hx2 | hx2
          · rcases List.mem_append.mp hx2 with hx3 | hx3
            · exact Or.inl hx3
            · simp only [List.mem_singleton] at hx3
              exact Or.inr (hx3 ▸ List.mem_cons_self eid t)
          · exact Or.inr (List.mem_cons_of_mem _ hx2)
        · intro x hx
          exact c10 x (List.mem_append.mpr (Or.inl hx))

/-- Behavior of the decode-and-populate phase of `get_batch_edges`. -/
theorem gbeFill_spec (fids : List String) : ∀ (st : ES) (res : List (String × EdgeR)),
    Consistent st → (res.map Prod.fst).Nodup →
    (∀ p ∈ res, storeEdge st.store p.1 = some p.2) →
    (gbeFill fids st res).2.store = st.store ∧
    (gbeFill fids st res).2.nodeCache = st.nodeCache ∧
    Consistent (gbeFill fids st res).2 ∧
    ((gbeFill fids st res).1.map Prod.fst).Nodup ∧
    (∀ p ∈ (gbeFill fids st res).1, storeEdge st.store p.1 = some p.2) ∧
    (∀ x, alookup (gbeFill fids st res).1 x =
      if x ∈ fids ∧ (storeEdge st.store x).isSome then storeEdge st.store x
      else alookup res x) := by
  induction fids with
  | nil =>
    intro st res hcon hnd hval
    refine ⟨rfl, rfl, hcon, hnd, hval, ?_⟩
    intro x
    rw [if_neg (by simp)]
    rfl
  | cons fid t ih =>
    intro st res hcon hnd hval
    rw [show gbeFill (fid :: t) st res =
      (match storeEdge st.store fid with
      | some e => gbeFill t { st with edgeCache := st.edgeCache.put fid e } (upsert res fid e)
      | none => gbeFill t st res) from rfl]
    cases hs : storeEdge st.store fid with
    | some e =>
      have hcons2 : Consistent { st with edgeCache := st.edgeCache.put fid e } :=
        consistent_edgeCache_put st fid e hcon hs
      have hvals : ∀ p ∈ upsert res fid e, storeEdge st.store p.1 = some p.2 := by
        intro p hp
        rcases mem_upsert res fid e p hp with hm | hm
        · exact hval p hm
        · rw [hm]; exact hs
      have := ih { st with edgeCache := st.edgeCache.put fid e } (upsert res fid e) hcons2
        (upsert_keys_nodup res fid e hnd) hvals
      simp only at this
      obtain ⟨c1, c2, c3, c4, c5, c6⟩ := this
      refine ⟨c1, c2, c3, c4, c5, ?_⟩
      intro x
      rw [c6 x]
      by_cases hxt : x ∈ t ∧ (storeEdge st.store x).isSome
      · rw [if_pos hxt, if_pos ⟨List.mem_cons_of_mem _ hxt.1, hxt.2⟩]
      · rw [if_neg hxt]
        by_cases hxf : x = fid
        · subst hxf
          rw [alookup_upsert_self, if_pos ⟨List.mem_cons_self x t, by rw [hs]; rfl⟩, hs]
        · rw [alookup_upsert_other res fid x e hxf]
          rw [if_neg (by
            rintro ⟨hm, hsome⟩
            rcases List.mem_cons.mp hm with he | he
            · exact hxf he
            · exact hxt ⟨he, hsome⟩)]
    | none =>
      have := ih st res hcon hnd hval
      obtain ⟨c1, c2, c3, c4, c5, c6⟩ := this
      refine ⟨c1, c2, c3, c4, c5, ?_⟩
      intro x
      rw [c6 x]
      by_cases hxt : x ∈ t ∧ (storeEdge st.store x).isSome
      · rw [if_pos hxt, if_pos ⟨List.mem_cons_of_mem _ hxt.1, hxt.2⟩]
      · rw [if_neg hxt]
        rw [if_neg (by
          rintro ⟨hm, hsome⟩
          rcases List.mem_cons.mp hm with he | he
          · rw [he, hs] at hsome
            cases hsome
          · exact hxt ⟨he, hsome⟩)]

/-- Full behavior of `get_batch_edges` on a consistent state. -/
theorem getBatchEdges_spec (st : ES) (ids : List String) (h : Consistent st) :
    (getBatchEdges st ids).2.store = st.store ∧
    (getBatchEdges st ids).2.nodeCache = st.nodeCache ∧
    Consistent (getBatchEdges st ids).2 ∧
    ((getBatchEdges st ids).1.map Prod.fst).Nodup ∧
    (∀ x, alookup (getBatchEdges st ids).1 x =
      if x ∈ ids then storeEdge st.store x else none) ∧
    (getBatchEdges st ids).1.length ≤ ids.length := by
  have hscan := gbeScan_spec ids st [] [] h (by simp) (by simp)
  rw [show getBatchEdges st ids = (match gbeScan ids st [] [] with
    | (res, [], st1) => (res, st1)
    | (res, tf, st1) => gbeFill (dedupFirst tf) st1 res) from rfl]
  cases hg : gbeScan ids st [] [] with
  | mk res rest =>
    cases rest with
    | mk tf st1 =>
      rw [hg] at hscan
      simp only at hscan
      obtain ⟨c1, c2, c3, c4, c5, c6, c7, c8, c9, c10⟩ := hscan
      have hform0 : ∀ x, x ∉ ids → alookup res x = none := by
        intro x hx
        cases hl : alookup res x with
        | none => rfl
        | some v =>
          rcases c7 x (by rw [hl]; rfl) with hs | hs
          · simp [alookup] at hs
          · exact absurd hs hx
      have hval : ∀ x (v : EdgeR), alookup res x = some v → storeEdge st.store x = some v := by
        intro x v hl
        exact c5 (x, v) (mem_of_alookup res x v hl)
      cases tf with
      | nil =>
        have hform : ∀ x, alookup res x = if x ∈ ids then storeEdge st.store x else none := by
          intro x
          by_cases hx : x ∈ ids
          · rw [if_pos hx]
            rcases c8 x hx with hs | hs
            · cases hl : alookup res x with
              | none => rw [hl] at hs; cases hs
              | some v => exact (hval x v hl).symm
            · cases hs
          · rw [if_neg hx]
            exact hform0 x hx
        refine ⟨c1, c2, c3, c4, hform, ?_⟩
        have hsub : ∀ x ∈ res.map Prod.fst, x ∈ ids := by
          intro x hx
          have hsome : (alookup res x).isSome := (alookup_isSome_iff res x).mpr hx
          rcases c7 x hsome with hs | hs
          · simp [alookup] at hs
          · exact hs
        calc res.length = (res.map Prod.fst).length := by simp
          _ ≤ ids.length := length_le_of_nodup_subset _ ids c4 hsub
      | cons tfh tft =>
        have hfill := gbeFill_spec (dedupFirst (tfh :: tft)) st1 res c3 c4
          (by rw [c1]; exact c5)
        obtain ⟨f1, f2, f3, f4, f5, f6⟩ := hfill
        rw [c1] at f1 f5 f6
        rw [c2] at f2
        have hform : ∀ x, alookup (gbeFill (dedupFirst (tfh :: tft)) st1 res).1 x =
            if x ∈ ids then storeEdge st.store x else none := by
          intro x
          rw [f6 x]
          by_cases hx : x ∈ ids
          · rw [if_pos hx]
            by_cases hf : x ∈ dedupFirst (tfh :: tft) ∧ (storeEdge st.store x).isSome
            · rw [if_pos hf]
            · rw [if_neg hf]
              by_cases hsome : (storeEdge st.store x).isSome
              · have hnf : x ∉ tfh :: tft := by
                  intro hm
                  exact hf ⟨(mem_dedupFirst _ x).mpr hm, hsome⟩
                rcases c8 x hx with hs | hs
                · cases hl : alookup res x with
                  | none => rw [hl] at hs; cases hs
                  | some v => exact (hval x v hl).symm
                · exact absurd hs hnf
              · rw [Option.not_isSome_iff_eq_none] at hsome
                rw [hsome]
                cases hl : alookup res x with
                | none => rfl
                | some v =>
                  have := hval x v hl
                  rw [this] at hsome
                  cases hsome
          · rw [if_neg hx]
            have hnf : x ∉ dedupFirst (tfh :: tft) := by
              intro hm
              rcases c9 x ((mem_dedupFirst _ x).mp hm) with hs | hs
              · cases hs
              · exact hx hs
            rw [if_neg (fun hc => hnf hc.1)]
            exact hform0 x hx
        refine ⟨f1, f2, f3, f4, hform, ?_⟩
        have hsub : ∀ x ∈ (gbeFill (dedupFirst (tfh :: tft)) st1 res).1.map Prod.fst,
            x ∈ ids := by
          intro x hx
          have hsome : (alookup (gbeFill (dedupFirst (tfh :: tft)) st1 res).1 x).isSome :=
            (alookup_isSome_iff _ x).mpr hx
          rw [hform x] at hsome
          by_cases hxi : x ∈ ids
          · exact hxi
          · rw [if_neg hxi] at hsome
            cases hsome
        calc (gbeFill (dedupFirst (tfh :: tft)) st1 res).1.length
            = ((gbeFill (dedupFirst (tfh :: tft)) st1 res).1.map Prod.fst).length := by simp
          _ ≤ ids.length := length_le_of_nodup_subset _ ids f4 hsub

theorem countP_zero_of_not_key (l : List (String × NodeR)) (y : String)
    (hid : ∀ p ∈ l, p.2.id = p.1) (hy : y ∉ l.map Prod.fst) :
    (l.map Prod.snd).countP (fun nd => nd.id = y) = 0 := by
  induction l with
  | nil => rfl
  | cons p t ih =>
    simp only [List.map_cons, List.countP_cons]
    have h1 : ¬ (p.2.id = y) := by
      rw [hid p (by simp)]
      intro he
      exact hy (by simp [he])
    rw [ih (fun q hq => hid q (by simp [hq])) (fun hm => hy (by simp [List.mem_cons]; right; simpa using hm))]
    simp [h1]

theorem countP_map_snd_le_one (l : List (String × NodeR)) (y : String)
    (hnd : (l.map Prod.fst).Nodup) (hid : ∀ p ∈ l, p.2.id = p.1) :
    (l.map Prod.snd).countP (fun nd => nd.id = y) ≤ 1 := by
  induction l with
  | nil => simp
  | cons p t ih =>
    simp only [List.map_cons, List.nodup_cons] at hnd
    simp only [List.map_cons, List.countP_cons]
    by_cases hp : p.2.id = y
    · have hyk : y ∉ t.map Prod.fst := by
        rw [hid p (by simp)] at hp
        exact hp ▸ hnd.1
      rw [countP_zero_of_not_key t y (fun q hq => hid q (by simp [hq])) hyk]
      simp [hp]
    · rw [if_neg (by simpa using hp)]
      simpa using ih hnd.2 (fun q hq => hid q (by simp [hq]))

/-- One resolvable hop in the stored graph: node `x` exists and one of its
outgoing edge identifiers resolves to an edge record whose end node `y`
also has a record.  This is exactly the relation along which
`get_neighbors` (and hence `bfs`) moves. -/
def nbrStep (store : List (List Nat × StoreVal)) (x y : String) : Prop :=
  ∃ nx, storeNode store x = some nx ∧
    ∃ eid ∈ nx.outgoing_edge_ids, ∃ ed, storeEdge store eid = some ed ∧
      ed.end_node_id = y ∧ (storeNode store y).isSome

/-- Full behavior of `get_neighbors` on a consistent state. -/
theorem getNeighbors_spec (st : ES) (i : String) (h : Consistent st) :
    (getNeighbors st i).2.store = st.store ∧
    Consistent (getNeighbors st i).2 ∧
    (storeNode st.store i = none → (getNeighbors st i).1 = []) ∧
    (∀ nx, storeNode st.store i = some nx →
      (getNeighbors st i).1.length ≤ nx.outgoing_edge_ids.length ∧
      (∀ nd, nd ∈ (getNeighbors st i).1 ↔
        storeNode st.store nd.id = some nd ∧
        ∃ eid ∈ nx.outgoing_edge_ids, ∃ ed, storeEdge st.store eid = some ed ∧
          ed.end_node_id = nd.id) ∧
      (∀ y, ((getNeighbors st i).1.countP fun nd => nd.id = y) ≤ 1) ∧
      (∀ y, y ∈ ((getNeighbors st i).1.map fun n => n.id) ↔ nbrStep st.store i y)) := by
  have hgns := getNode_spec st i h
  cases hgn : getNode st i with
  | mk o st1 =>
    rw [hgn] at hgns
    simp only at hgns
    obtain ⟨ho, hst1, _, hcon1⟩ := hgns
    cases o with
    | none =>
      have hred : getNeighbors st i = ([], st1) := by
        unfold getNeighbors
        rw [hgn]
      rw [hred]
      refine ⟨hst1, hcon1, fun _ => rfl, ?_⟩
      intro nx hnx
      rw [hnx] at ho
      cases ho
    | some node =>
      have hsn : storeNode st.store i = some node := ho.symm
      have hbe := getBatchEdges_spec st1 node.outgoing_edge_ids hcon1
      cases hge : getBatchEdges st1 node.outgoing_edge_ids with
      | mk edgeMap st2 =>
        have hge1 : (getBatchEdges st1 node.outgoing_edge_ids).1 = edgeMap := by rw [hge]
        have hge2 : (getBatchEdges st1 node.outgoing_edge_ids).2 = st2 := by rw [hge]
        rw [hge] at hbe
        simp only at hbe
        obtain ⟨he1, _, hcon2, hend, heform, helen⟩ := hbe
        rw [hst1] at he1 heform
        have hbn := getBatchNodes_spec st2 (edgeMap.map fun p => p.2.end_node_id) hcon2
        cases hgb : getBatchNodes st2 (edgeMap.map fun p => p.2.end_node_id) with
        | mk nodeMap st3 =>
          have hgb1 : (getBatchNodes st2 (edgeMap.map fun p => p.2.end_node_id)).1
              = nodeMap := by rw [hgb]
          have hgb2 : (getBatchNodes st2 (edgeMap.map fun p => p.2.end_node_id)).2
              = st3 := by rw [hgb]
          rw [hgb] at hbn
          simp only at hbn
          obtain ⟨hn1, _, hcon3, hnnd, hnform, hnlen⟩ := hbn
          rw [he1] at hn1 hnform
          have hred : getNeighbors st i = (nodeMap.map Prod.snd, st3) := by
            unfold getNeighbors
            rw [hgn]
            show ((getBatchNodes (getBatchEdges st1 node.outgoing_edge_ids).2
                ((getBatchEdges st1 node.outgoing_edge_ids).1.map
                  fun p => p.2.end_node_id)).1.map Prod.snd,
              (getBatchNodes (getBatchEdges st1 node.outgoing_edge_ids).2
                ((getBatchEdges st1 node.outgoing_edge_ids).1.map
                  fun p => p.2.end_node_id)).2) = (nodeMap.map Prod.snd, st3)
            rw [hge1, hge2, hgb1, hgb2]
          rw [hred]
          simp only
          have hnbr : ∀ y, y ∈ (edgeMap.map fun p => p.2.end_node_id) ↔
              ∃ eid ∈ node.outgoing_edge_ids, ∃ ed,
                storeEdge st.store eid = some ed ∧ ed.end_node_id = y := by
            intro y
            constructor
            · intro hy
              rcases List.mem_map.mp hy with ⟨p, hp, hpe⟩
              have hl : alookup edgeMap p.1 = some p.2 := alookup_of_mem _ _ _ hend hp
              rw [heform p.1] at hl
              by_cases hm : p.1 ∈ node.outgoing_edge_ids
              · rw [if_pos hm] at hl
                exact ⟨p.1, hm, p.2, hl, hpe⟩
              · rw [if_neg hm] at hl
                cases hl
            · rintro ⟨eid, hm, ed, hse, hee⟩
              have hl : alookup edgeMap eid = some ed := by
                rw [heform eid, if_pos hm, hse]
              exact List.mem_map.mpr ⟨(eid, ed), mem_of_alookup _ _ _ hl, hee⟩
          have hid : ∀ p ∈ nodeMap, p.2.id = p.1 := by
            intro p hp
            have hl : alookup nodeMap p.1 = some p.2 := alookup_of_mem _ _ _ hnnd hp
            rw [hnform p.1] at hl
            by_cases hm : p.1 ∈ edgeMap.map fun p => p.2.end_node_id
            · rw [if_pos hm] at hl
              exact storeNode_id st.store p.1 p.2 h.1 hl
            · rw [if_neg hm] at hl
              cases hl
          have hmemres : ∀ nd, nd ∈ nodeMap.map Prod.snd ↔
              storeNode st.store nd.id = some nd ∧
              ∃ eid ∈ node.outgoing_edge_ids, ∃ ed,
                storeEdge st.store eid = some ed ∧ ed.end_node_id = nd.id := by
            intro nd
            constructor
            · intro hy
              rcases List.mem_map.mp hy with ⟨p, hp, hpe⟩
              have hkey := hid p hp
              have hl : alookup nodeMap p.1 = some p.2 := alookup_of_mem _ _ _ hnnd hp
              rw [hnform p.1] at hl
              by_cases hm : p.1 ∈ edgeMap.map fun p => p.2.end_node_id
              · rw [if_pos hm] at hl
                subst hpe
                rw [hkey]
                exact ⟨hl, (hnbr p.1).mp hm⟩
              · rw [if_neg hm] at hl
                cases hl
            · rintro ⟨hsome, hreach⟩
              have hm : nd.id ∈ edgeMap.map fun p => p.2.end_node_id := (hnbr nd.id).mpr hreach
              have hl : alookup nodeMap nd.id = some nd := by
                rw [hnform nd.id, if_pos hm, hsome]
              exact List.mem_map.mpr ⟨(nd.id, nd), mem_of_alookup _ _ _ hl, rfl⟩
          refine ⟨hn1, hcon3, ?_, ?_⟩
          · intro hcontra
            rw [hcontra] at hsn
            cases hsn
          · intro nx hnx
            have hnode : nx = node := by
              rw [hnx] at hsn
              cases hsn
              rfl
            subst hnode
            refine ⟨?_, hmemres, ?_, ?_⟩
            · calc (nodeMap.map Prod.snd).length = nodeMap.length := by simp
                _ ≤ (edgeMap.map fun p => p.2.end_node_id).length := hnlen
                _ = edgeMap.length := by simp
                _ ≤ nx.outgoing_edge_ids.length := helen
            · intro y
              exact countP_map_snd_le_one nodeMap y hnnd hid
            · intro y
              constructor
              · intro hy
                rcases List.mem_map.mp hy with ⟨nd, hnd, hne⟩
                have hprop := (hmemres nd).mp hnd
                subst hne
                refine ⟨nx, hsn, ?_⟩
                rcases hprop.2 with ⟨eid, hm, ed, hse, hee⟩
                exact ⟨eid, hm, ed, hse, hee, by rw [hprop.1]; rfl⟩
              · rintro ⟨nx2, hnx2, eid, hm, ed, hse, hee, hsome⟩
                have hnode2 : nx2 = nx := by
                  rw [hnx2] at hsn
                  cases hsn
                  rfl
                subst hnode2
                rcases Option.isSome_iff_exists.mp hsome with ⟨v, hv⟩
                have hvid : v.id = y := storeNode_id st.store y v h.1 hv
                have hmem : v ∈ nodeMap.map Prod.snd := (hmemres v).mpr
                  ⟨by rw [hvid]; exact hv, eid, hm, ed, hse, by rw [hvid]; exact hee⟩
                exact List.mem_map.mpr ⟨v, hmem, hvid⟩

/-- C8: `get_neighbors` returns an empty collection - and, being total in
this model, raises no error - both when the node record exists with an
empty outgoing-edge sequence and when no node record exists at all. -/
theorem claim_C8 (st : ES) (i : String) (h : Consistent st)
    (habs : storeNode st.store i = none ∨
      ∃ n, storeNode st.store i = some n ∧ n.outgoing_edge_ids = []) :
    (getNeighbors st i).1 = [] := by
  have hspec := getNeighbors_spec st i h
  rcases habs with hnone | ⟨n, hsome, hempty⟩
  · exact hspec.2.2.1 hnone
  · have hlen := (hspec.2.2.2 n hsome).1
    rw [hempty] at hlen
    simp only [List.length_nil, Nat.le_zero] at hlen
    exact List.eq_nil_of_length_eq_zero hlen

/-- A state for the C8 witness: one node `A` with no outgoing edges. -/
def stC8 : ES :=
  ⟨[(makeNodeKey "A", StoreVal.nodeRec nodeA)], LRU.empty String NodeR 5,
    LRU.empty String EdgeR 5⟩

/-- C8 witness: on a concrete consistent state, `get_neighbors` of the
edge-less node `A` and of the absent node `Z` are both empty. -/
theorem claim_C8_witness :
    Consistent stC8 ∧ (getNeighbors stC8 "A").1 = [] ∧ (getNeighbors stC8 "Z").1 = [] :=
  ⟨by decide,
    claim_C8 stC8 "A" (by decide) (Or.inr ⟨nodeA, by decide, rfl⟩),
    claim_C8 stC8 "Z" (by decide) (Or.inl (by decide))⟩

/-- C10: when a node's outgoing-edge sequence holds two distinct edges
sharing the same end node `X` (which has a record), `get_neighbors` returns
`X` exactly once, and in general every node identifier occurs at most once
in the result - the result is accumulated in a dict keyed by node
identifier. -/
theorem claim_C10 (st : ES) (i : String) (h : Consistent st) (nx : NodeR)
    (hnx : storeNode st.store i = some nx) (eid1 eid2 : String) (hne : eid1 ≠ eid2)
    (h1 : eid1 ∈ nx.outgoing_edge_ids) (h2 : eid2 ∈ nx.outgoing_edge_ids)
    (ed1 ed2 : EdgeR) (hse1 : storeEdge st.store eid1 = some ed1)
    (hse2 : storeEdge st.store eid2 = some ed2) (x : String)
    (hx1 : ed1.end_node_id = x) (hx2 : ed2.end_node_id = x) (v : NodeR)
    (hv : storeNode st.store x = some v) :
    (((getNeighbors st i).1.countP fun nd => nd.id = x) = 1) ∧
    (∀ y, ((getNeighbors st i).1.countP fun nd => nd.id = y) ≤ 1) := by
  have hspec := (getNeighbors_spec st i h).2.2.2 nx hnx
  have hvid : v.id = x := storeNode_id st.store x v h.1 hv
  have hmem : v ∈ (getNeighbors st i).1 := (hspec.2.1 v).mpr
    ⟨by rw [hvid]; exact hv, eid1, h1, ed1, hse1, by rw [hvid]; exact hx1⟩
  have hpos : 0 < (getNeighbors st i).1.countP fun nd => nd.id = x :=
    List.countP_pos_iff.mpr ⟨v, hmem, by simp [hvid]⟩
  have hle := hspec.2.2.1 x
  exact ⟨by omega, hspec.2.2.1⟩

/-- A state for the C10 witness: node `A` with two parallel edges to `B`. -/
def stC10 : ES :=
  ⟨[(makeNodeKey "A", StoreVal.nodeRec ⟨"A", "person", [], ["e1", "e2"]⟩),
    (makeNodeKey "B", StoreVal.nodeRec nodeB),
    (makeEdgeKey "e1", StoreVal.edgeRec ⟨"e1", "knows", "A", "B", []⟩),
    (makeEdgeKey "e2", StoreVal.edgeRec ⟨"e2", "likes", "A", "B", []⟩)],
    LRU.empty String NodeR 5, LRU.empty String EdgeR 5⟩

/-- C10 witness: with two distinct edges from `A` to `B`, the neighbor list
of `A` contains `B` exactly once. -/
theorem claim_C10_witness :
    Consistent stC10 ∧ (((getNeighbors stC10 "A").1.countP fun nd => nd.id = "B") = 1) := by
  refine ⟨by decide, ?_⟩
  exact (claim_C10 stC10 "A" (by decide) ⟨"A", "person", [], ["e1", "e2"]⟩ (by decide)
    "e1" "e2" (by decide) (by decide) (by decide)
    ⟨"e1", "knows", "A", "B", []⟩ ⟨"e2", "likes", "A", "B", []⟩ (by decide) (by decide)
    "B" (by decide) (by decide) nodeB (by decide)).1

/-! ### Claim C5: BFS termination and visitation order -/

theorem sum_map_filter_imp_le {α : Type} (l : List α) (f : α → Nat) (p q : α → Prop)
    [DecidablePred p] [DecidablePred q] (himp : ∀ x, q x → p x) :
    ((l.filter fun x => decide (q x)).map f).sum ≤ ((l.filter fun x => decide (p x)).map f).sum := by
  induction l with
  | nil => simp
  | cons a t ih =>
    simp only [List.filter_cons]
    by_cases hq : q a
    · rw [if_pos (by simpa using hq), if_pos (by simpa using himp a hq)]
      simp only [List.map_cons, List.sum_cons]
      omega
    · rw [if_neg (by simpa using hq)]
      by_cases hp : p a
      · rw [if_pos (by simpa using hp)]
        simp only [List.map_cons, List.sum_cons]
        omega
      · rw [if_neg (by simpa using hp)]
        exact ih

theorem sum_filter_cons_notmem {α : Type} [DecidableEq α] (l : List α) (f : α → Nat)
    (vis : List α) (x : α) (hnd : l.Nodup) (hx : x ∈ l) (hv : x ∉ vis) :
    ((l.filter fun y => ¬ y ∈ vis).map f).sum =
      f x + ((l.filter fun y => ¬ y ∈ x :: vis).map f).sum := by
  induction l with
  | nil => cases hx
  | cons a t ih =>
    simp only [List.nodup_cons] at hnd
    simp only [List.filter_cons]
    by_cases hax : a = x
    · subst hax
      rw [if_pos (by simpa using hv), if_neg (by simp)]
      have hcong : t.filter (fun y => ¬ y ∈ a :: vis) = t.filter (fun y => ¬ y ∈ vis) := by
        refine List.filter_congr ?_
        intro y hy
        have hya : y ≠ a := fun he => hnd.1 (he ▸ hy)
        simp [List.mem_cons, hya]
      rw [hcong]
      simp
    · rcases List.mem_cons.mp hx with he | ht
      · exact absurd he.symm hax
      · have hrec := ih hnd.2 ht
        by_cases hav : a ∈ vis
        · rw [if_neg (by simpa using hav), if_neg (by
            simp only [List.mem_cons, decide_not]
            simp [hav])]
          exact hrec
        · rw [if_pos (by simpa using hav), if_pos (by
            simp only [List.mem_cons]
            simp [hav, hax])]
          simp only [List.map_cons, List.sum_cons]
          omega

theorem mem_nodeIdsOf (store : List (List Nat × StoreVal)) (x : String) :
    x ∈ nodeIdsOf store ↔ ∃ p ∈ store, ∃ n, p.2 = StoreVal.nodeRec n ∧ n.id = x := by
  unfold nodeIdsOf
  rw [List.mem_filterMap]
  constructor
  · rintro ⟨p, hp, he⟩
    cases hv : p.2 with
    | nodeRec n =>
      rw [hv] at he
      simp only [Option.some.injEq] at he
      exact ⟨p, hp, n, hv, he⟩
    | edgeRec e => rw [hv] at he; cases he
  · rintro ⟨p, hp, n, hv, he⟩
    exact ⟨p, hp, by rw [hv]; simpa using he⟩

theorem storeNode_isSome_iff (store : List (List Nat × StoreVal)) (x : String)
    (hwf : WFStore store) : (storeNode store x).isSome ↔ x ∈ nodeIdsOf store := by
  constructor
  · intro h
    rcases Option.isSome_iff_exists.mp h with ⟨n, hn⟩
    unfold storeNode at hn
    cases hl : alookup store (makeNodeKey x) with
    | none => rw [hl] at hn; cases hn
    | some v =>
      rw [hl] at hn
      cases v with
      | nodeRec m =>
        have hkey := hwf.2 _ (mem_of_alookup store _ _ hl)
        unfold entryKeyOK at hkey
        exact (mem_nodeIdsOf store x).mpr ⟨(makeNodeKey x, StoreVal.nodeRec m),
          mem_of_alookup store _ _ hl, m, rfl, makeNodeKey_inj _ _ hkey.symm⟩
      | edgeRec e => cases hn
  · intro h
    rcases (mem_nodeIdsOf store x).mp h with ⟨p, hp, n, hv, hid⟩
    have hkey := hwf.2 p hp
    have hk : p.1 = makeNodeKey x := by
      cases p with
      | mk k v =>
        cases hv
        unfold entryKeyOK at hkey
        simp only at hkey ⊢
        rw [hkey, hid]
    have hl : alookup store (makeNodeKey x) = some (StoreVal.nodeRec n) := by
      rw [← hk]
      refine alookup_of_mem store p.1 p.2 hwf.1 (by cases p; cases hv; simpa using hp) |>.trans ?_
      cases p
      cases hv
      rfl
    unfold storeNode
    rw [hl]
    rfl

theorem nodeIdsOf_nodup (store : List (List Nat × StoreVal)) (hwf : WFStore store) :
    (nodeIdsOf store).Nodup := by
  obtain ⟨hknd, hok⟩ := hwf
  induction store with
  | nil => simp [nodeIdsOf]
  | cons p t ih =>
    simp only [List.map_cons, List.nodup_cons] at hknd
    have hokt : ∀ q ∈ t, entryKeyOK q := fun q hq => hok q (List.mem_cons_of_mem _ hq)
    cases hp2 : p.2 with
    | edgeRec e =>
      have : nodeIdsOf (p :: t) = nodeIdsOf t := by
        unfold nodeIdsOf
        simp only [List.filterMap_cons, hp2]
      rw [this]
      exact ih hknd.2 hokt
    | nodeRec n =>
      have hstep : nodeIdsOf (p :: t) = n.id :: nodeIdsOf t := by
        unfold nodeIdsOf
        simp only [List.filterMap_cons, hp2]
      rw [hstep]
      refine List.nodup_cons.mpr ⟨?_, ih hknd.2 hokt⟩
      intro hmem
      rcases (mem_nodeIdsOf t n.id).mp hmem with ⟨q, hq, m, hqv, hmid⟩
      have hkeyq := hokt q hq
      have hkeyp := hok p (by simp)
      cases q with
      | mk qk qv =>
        cases hqv
        unfold entryKeyOK at hkeyq
        simp only at hkeyq
        cases p with
        | mk pk pv =>
          cases hp2
          unfold entryKeyOK at hkeyp
          simp only at hkeyp
          apply hknd.1
          have : qk = pk := by rw [hkeyq, hmid, hkeyp]
          exact this ▸ List.mem_map.mpr ⟨(qk, StoreVal.nodeRec m), hq, rfl⟩

theorem remW_mono (store : List (List Nat × StoreVal)) (vis : List String) (c : String) :
    remW store (c :: vis) ≤ remW store vis := by
  unfold remW
  exact sum_map_filter_imp_le (nodeIdsOf store) (weight store)
    (fun x => ¬ x ∈ vis) (fun x => ¬ x ∈ c :: vis)
    (fun x hx hm => hx (List.mem_cons_of_mem _ hm))

theorem remW_step (store : List (List Nat × StoreVal)) (vis : List String) (x : String)
    (hwf : WFStore store) (hx : (storeNode store x).isSome) (hv : x ∉ vis) :
    remW store vis = weight store x + remW store (x :: vis) := by
  unfold remW
  exact sum_filter_cons_notmem (nodeIdsOf store) (weight store) vis x
    (nodeIdsOf_nodup store hwf) ((storeNode_isSome_iff store x hwf).mp hx) hv

theorem remW_le_total (store : List (List Nat × StoreVal)) (vis : List String) :
    remW store vis ≤ ((nodeIdsOf store).map (weight store)).sum := by
  unfold remW
  induction nodeIdsOf store with
  | nil => simp
  | cons a t ih =>
    simp only [List.filter_cons]
    by_cases ha : a ∈ vis
    · rw [if_neg (by simpa using ha)]
      simp only [List.map_cons, List.sum_cons]
      omega
    · rw [if_pos (by simpa using ha)]
      simp only [List.map_cons, List.sum_cons]
      omega

theorem bfsLoop_nil (target : Option String) (fuel : Nat) (st : ES)
    (visited order : List String) :
    bfsLoop target fuel st visited [] order =
      if targetTruthy target then some (BfsRes.nofind, st)
      else some (BfsRes.trace order, st) := by
  cases fuel <;> rfl

theorem bfsLoop_cons (target : Option String) (f : Nat) (st : ES)
    (visited : List String) (cur : String) (rest order : List String) :
    bfsLoop target (f + 1) st visited (cur :: rest) order =
      (if cur ∈ visited then bfsLoop target f st visited rest order
      else
        match getNode st cur with
        | (none, st1) => bfsLoop target f st1 (cur :: visited) rest order
        | (some node, st1) =>
          if targetTruthy target && (node.label == target.getD "") then
            some (BfsRes.found node, st1)
          else
            match getNeighbors st1 cur with
            | (nbrs, st2) =>
              bfsLoop target f st2 (cur :: visited)
                (rest ++ (nbrs.map fun n => n.id).filter (fun i => ¬ i ∈ cur :: visited))
                (order ++ [cur])) := rfl

/-- Main invariant lemma for the `bfs` while-loop with no target label:
with enough fuel (bounded by the remaining enqueue budget) the loop
terminates with a visitation order that extends the accumulated one, is
duplicate-free, visits only nodes reachable from `start`, and is closed
under resolvable hops out of visited nodes. -/
theorem bfsLoop_spec (store0 : List (List Nat × StoreVal)) (start : String) :
    ∀ (fuel : Nat) (st : ES) (visited queue order : List String),
    st.store = store0 →
    Consistent st →
    queue.length + remW store0 visited ≤ fuel →
    order.Nodup →
    (∀ x ∈ order, x ∈ visited) →
    (∀ x ∈ visited, (x ∈ order ↔ (storeNode store0 x).isSome)) →
    (∀ x ∈ order, ∀ y, nbrStep store0 x y → y ∈ visited ∨ y ∈ queue) →
    (∀ x ∈ queue, Relation.ReflTransGen (nbrStep store0) start x) →
    (∀ x ∈ order, Relation.ReflTransGen (nbrStep store0) start x) →
    ∃ (stF : ES) (visF orderF : List String),
      bfsLoop none fuel st visited queue order = some (BfsRes.trace orderF, stF) ∧
      stF.store = store0 ∧
      orderF.Nodup ∧
      (∀ x ∈ order, x ∈ orderF) ∧
      (∀ x ∈ visited, x ∈ visF) ∧
      (∀ x ∈ queue, x ∈ visF) ∧
      (∀ x ∈ orderF, x ∈ visF) ∧
      (∀ x ∈ visF, (x ∈ orderF ↔ (storeNode store0 x).isSome)) ∧
      (∀ x ∈ orderF, ∀ y, nbrStep store0 x y → y ∈ visF) ∧
      (∀ x ∈ orderF, Relation.ReflTransGen (nbrStep store0) start x) := by
  intro fuel
  induction fuel with
  | zero =>
    intro st visited queue order hstore hcon hfuel hnd hov hvi hcl hqr hor
    cases queue with
    | cons c r => simp at hfuel
    | nil =>
      refine ⟨st, visited, order, ?_, hstore, hnd, fun x h => h, fun x h => h,
        ?_, hov, hvi, ?_, hor⟩
      · rw [bfsLoop_nil]
        rfl
      · intro x hx
        cases hx
      · intro x hx y hy
        rcases hcl x hx y hy with h | h
        · exact h
        · cases h
  | succ f ih =>
    intro st visited queue order hstore hcon hfuel hnd hov hvi hcl hqr hor
    cases queue with
    | nil =>
      refine ⟨st, visited, order, ?_, hstore, hnd, fun x h => h, fun x h => h,
        ?_, hov, hvi, ?_, hor⟩
      · rw [bfsLoop_nil]
        rfl
      · intro x hx
        cases hx
      · intro x hx y hy
        rcases hcl x hx y hy with h | h
        · exact h
        · cases h
    | cons cur rest =>
      by_cases hcv : cur ∈ visited
      · rw [bfsLoop_cons, if_pos hcv]
        have hcl2 : ∀ x ∈ order, ∀ y, nbrStep store0 x y → y ∈ visited ∨ y ∈ rest := by
          intro x hx y hy
          rcases hcl x hx y hy with h | h
          · exact Or.inl h
          · rcases List.mem_cons.mp h with he | he
            · exact Or.inl (he ▸ hcv)
            · exact Or.inr he
        obtain ⟨stF, visF, orderF, e1, e2, e3, e4, e5, e6, e7, e8, e9, e10⟩ :=
          ih st visited rest order hstore hcon
            (by simp only [List.length_cons] at hfuel; omega) hnd hov hvi hcl2
            (fun x hx => hqr x (List.mem_cons_of_mem _ hx)) hor
        refine ⟨stF, visF, orderF, e1, e2, e3, e4, e5, ?_, e7, e8, e9, e10⟩
        intro x hx
        rcases List.mem_cons.mp hx with he | he
        · exact he ▸ e5 cur hcv
        · exact e6 x he
      · have hgns := getNode_spec st cur hcon
        cases hgn : getNode st cur with
        | mk o st1 =>
          rw [hgn] at hgns
          simp only at hgns
          obtain ⟨ho, hst1, _, hcon1⟩ := hgns
          rw [hstore] at ho hst1
          cases o with
          | none =>
            have hnone : storeNode store0 cur = none := ho.symm
            have hredN : bfsLoop none (f + 1) st visited (cur :: rest) order =
                bfsLoop none f st1 (cur :: visited) rest order := by
              rw [bfsLoop_cons, if_neg hcv, hgn]
            rw [hredN]
            have hvi2 : ∀ x ∈ cur :: visited,
                (x ∈ order ↔ (storeNode store0 x).isSome) := by
              intro x hx
              rcases List.mem_cons.mp hx with he | he
              · subst he
                constructor
                · intro hmem
                  exact absurd (hov x hmem) hcv
                · intro hs
                  rw [hnone] at hs
                  cases hs
              · exact hvi x he
            have hcl2 : ∀ x ∈ order, ∀ y, nbrStep store0 x y →
                y ∈ cur :: visited ∨ y ∈ rest := by
              intro x hx y hy
              rcases hcl x hx y hy with h | h
              · exact Or.inl (List.mem_cons_of_mem _ h)
              · rcases List.mem_cons.mp h with he | he
                · exact Or.inl (he ▸ List.mem_cons_self cur visited)
                · exact Or.inr he
            obtain ⟨stF, visF, orderF, e1, e2, e3, e4, e5, e6, e7, e8, e9, e10⟩ :=
              ih st1 (cur :: visited) rest order hst1 hcon1
                (by
                  have hm := remW_mono store0 visited cur
                  simp only [List.length_cons] at hfuel
                  omega)
                hnd (fun x hx => List.mem_cons_of_mem _ (hov x hx)) hvi2 hcl2
                (fun x hx => hqr x (List.mem_cons_of_mem _ hx)) hor
            refine ⟨stF, visF, orderF, e1, e2, e3, e4,
              fun x hx => e5 x (List.mem_cons_of_mem _ hx), ?_, e7, e8, e9, e10⟩
            intro x hx
            rcases List.mem_cons.mp hx with he | he
            · exact he ▸ e5 cur (List.mem_cons_self cur visited)
            · exact e6 x he
          | some node =>
            have hsome : storeNode store0 cur = some node := ho.symm
            have hnbrs := getNeighbors_spec st1 cur hcon1
            cases hgnb : getNeighbors st1 cur with
            | mk nbrs st2 =>
              rw [hgnb] at hnbrs
              simp only at hnbrs
              obtain ⟨hst2, hcon2, _, hat⟩ := hnbrs
              rw [hst1] at hst2 hat
              obtain ⟨hlen, _, _, hids⟩ := hat node hsome
              have hred3 : bfsLoop none (f + 1) st visited (cur :: rest) order =
                  bfsLoop none f st2 (cur :: visited)
                    (rest ++ (nbrs.map fun n => n.id).filter
                      (fun i => ¬ i ∈ cur :: visited))
                    (order ++ [cur]) := by
                rw [bfsLoop_cons, if_neg hcv, hgn]
                show (if targetTruthy none
                      && (node.label == (none : Option String).getD "") then
                    some (BfsRes.found node, st1)
                  else
                    match getNeighbors st1 cur with
                    | (nbrs, st2) =>
                      bfsLoop none f st2 (cur :: visited)
                        (rest ++ (nbrs.map fun n => n.id).filter
                          (fun i => ¬ i ∈ cur :: visited))
                        (order ++ [cur])) = _
                rw [if_neg (by simp [targetTruthy]), hgnb]
              rw [hred3]
              have hpushsub : ∀ y ∈ (nbrs.map fun n => n.id).filter
                  (fun i => ¬ i ∈ cur :: visited), nbrStep store0 cur y := by
                intro y hy
                have := List.mem_of_mem_filter hy
                exact (hids y).mp this
              have hcurW : (nbrs.map fun n => n.id).length ≤ weight store0 cur := by
                unfold weight
                rw [hsome]
                simpa using hlen
              have hnd2 : (order ++ [cur]).Nodup := by
                refine List.Nodup.append hnd (by simp) ?_
                intro a ha hb
                simp only [List.mem_singleton] at hb
                exact hcv (hb ▸ hov a ha)
              have hov2 : ∀ x ∈ order ++ [cur], x ∈ cur :: visited := by
                intro x hx
                rcases List.mem_append.mp hx with h | h
                · exact List.mem_cons_of_mem _ (hov x h)
                · simp only [List.mem_singleton] at h
                  exact h ▸ List.mem_cons_self cur visited
              have hvi2 : ∀ x ∈ cur :: visited,
                  (x ∈ order ++ [cur] ↔ (storeNode store0 x).isSome) := by
                intro x hx
                rcases List.mem_cons.mp hx with he | he
                · subst he
                  constructor
                  · intro _
                    rw [hsome]
                    rfl
                  · intro _
                    exact List.mem_append.mpr (Or.inr (by simp))
                · constructor
                  · intro hmem
                    rcases List.mem_append.mp hmem with h | h
                    · exact (hvi x he).mp h
                    · simp only [List.mem_singleton] at h
                      exact absurd (h ▸ he) hcv
                  · intro hs
                    exact List.mem_append.mpr (Or.inl ((hvi x he).mpr hs))
              have hcl2 : ∀ x ∈ order ++ [cur], ∀ y, nbrStep store0 x y →
                  y ∈ cur :: visited ∨
                  y ∈ rest ++ (nbrs.map fun n => n.id).filter
                    (fun i => ¬ i ∈ cur :: visited) := by
                intro x hx y hy
                rcases List.mem_append.mp hx with h | h
                · rcases hcl x h y hy with h2 | h2
                  · exact Or.inl (List.mem_cons_of_mem _ h2)
                  · rcases List.mem_cons.mp h2 with he | he
                    · exact Or.inl (he ▸ List.mem_cons_self cur visited)
                    · exact Or.inr (List.mem_append.mpr (Or.inl he))
                · simp only [List.mem_singleton] at h
                  subst h
                  have hyid : y ∈ nbrs.map fun n => n.id := (hids y).mpr hy
                  by_cases hyv : y ∈ x :: visited
                  · exact Or.inl hyv
                  · refine Or.inr (List.mem_append.mpr (Or.inr ?_))
                    exact List.mem_filter.mpr ⟨hyid, by simpa using hyv⟩
              have hqr2 : ∀ x ∈ rest ++ (nbrs.map fun n => n.id).filter
                  (fun i => ¬ i ∈ cur :: visited),
                  Relation.ReflTransGen (nbrStep store0) start x := by
                intro x hx
                rcases List.mem_append.mp hx with h | h
                · exact hqr x (List.mem_cons_of_mem _ h)
                · exact Relation.ReflTransGen.tail (hqr cur (List.mem_cons_self cur rest))
                    (hpushsub x h)
              have hor2 : ∀ x ∈ order ++ [cur],
                  Relation.ReflTransGen (nbrStep store0) start x := by
                intro x hx
                rcases List.mem_append.mp hx with h | h
                · exact hor x h
                · simp only [List.mem_singleton] at h
                  exact h ▸ hqr cur (List.mem_cons_self cur rest)
              obtain ⟨stF, visF, orderF, e1, e2, e3, e4, e5, e6, e7, e8, e9, e10⟩ :=
                ih st2 (cur :: visited)
                  (rest ++ (nbrs.map fun n => n.id).filter (fun i => ¬ i ∈ cur :: visited))
                  (order ++ [cur]) hst2 hcon2
                  (by
                    have hstepW := remW_step store0 visited cur
                      (by rw [← hstore]; exact hcon.1) (by rw [hsome]; rfl) hcv
                    have hple : ((nbrs.map fun n => n.id).filter
                        (fun i => ¬ i ∈ cur :: visited)).length
                        ≤ (nbrs.map fun n => n.id).length := List.length_filter_le _ _
                    simp only [List.length_append, List.length_cons] at hfuel ⊢
                    omega)
                  hnd2 hov2 hvi2 hcl2 hqr2 hor2
              refine ⟨stF, visF, orderF, e1, e2, e3, ?_, ?_, ?_, e7, e8, e9, e10⟩
              · intro x hx
                exact e4 x (List.mem_append.mpr (Or.inl hx))
              · intro x hx
                exact e5 x (List.mem_cons_of_mem _ hx)
              · intro x hx
                rcases List.mem_cons.mp hx with he | he
                · exact he ▸ e5 cur (List.mem_cons_self cur visited)
                · exact e6 x (List.mem_append.mpr (Or.inl he))

/-- The cyclic example graph A→B→C→A named by the specification for the
BFS termination property. -/
def stC5 : ES :=
  ⟨[(makeNodeKey "A", StoreVal.nodeRec ⟨"A", "n", [], ["eAB"]⟩),
    (makeNodeKey "B", StoreVal.nodeRec ⟨"B", "n", [], ["eBC"]⟩),
    (makeNodeKey "C", StoreVal.nodeRec ⟨"C", "n", [], ["eCA"]⟩),
    (makeEdgeKey "eAB", StoreVal.edgeRec ⟨"eAB", "e", "A", "B", []⟩),
    (makeEdgeKey "eBC", StoreVal.edgeRec ⟨"eBC", "e", "B", "C", []⟩),
    (makeEdgeKey "eCA", StoreVal.edgeRec ⟨"eCA", "e", "C", "A", []⟩)],
   LRU.empty String NodeR 10, LRU.empty String EdgeR 10⟩

/-- C5: on every consistent store (cyclic graphs included) `bfs(start)`
with no target label terminates and returns a visitation order in which
each node identifier appears at most once (`Nodup`), and the identifiers
listed are exactly the stored nodes reachable from the start by hops
through resolvable outgoing edges — so each reachable node appears exactly
once, and a node already visited is skipped rather than re-expanded.
Concretely, on the cycle A→B→C→A started at A the order is
`["A", "B", "C"]`. -/
theorem claim_C5 :
    (∀ (st : ES) (startId : String), Consistent st →
      ∃ (stF : ES) (orderF : List String),
        bfs st startId none = some (BfsRes.trace orderF, stF) ∧
        orderF.Nodup ∧
        (∀ n, n ∈ orderF ↔
          (Relation.ReflTransGen (nbrStep st.store) startId n ∧
           (storeNode st.store n).isSome))) ∧
    (bfs stC5 "A" none).map Prod.fst = some (BfsRes.trace ["A", "B", "C"]) := by
  constructor
  · intro st startId hcon
    obtain ⟨stF, visF, orderF, e1, e2, e3, e4, e5, e6, e7, e8, e9, e10⟩ :=
      bfsLoop_spec st.store startId (bfsFuel st.store) st [] [startId] [] rfl hcon
        (by
          have h := remW_le_total st.store []
          show [startId].length + remW st.store [] ≤ bfsFuel st.store
          unfold bfsFuel
          simp only [List.length_cons, List.length_nil]
          omega)
        List.nodup_nil
        (by intro x hx; cases hx)
        (by intro x hx; cases hx)
        (by intro x hx; cases hx)
        (by
          intro x hx
          rcases List.mem_cons.mp hx with he | he
          · exact he ▸ Relation.ReflTransGen.refl
          · cases he)
        (by intro x hx; cases hx)
    refine ⟨stF, orderF, e1, e3, ?_⟩
    intro n
    constructor
    · intro hn
      exact ⟨e10 n hn, (e8 n (e7 n hn)).mp hn⟩
    · rintro ⟨hreach, hsome⟩
      have key : ∀ m, Relation.ReflTransGen (nbrStep st.store) startId m →
          (storeNode st.store m).isSome → m ∈ orderF := by
        intro m hm
        induction hm with
        | refl =>
          intro hs
          exact (e8 startId (e6 startId (List.mem_cons_self _ _))).mpr hs
        | @tail b c hr hstep ih =>
          intro hs
          have hbs : (storeNode st.store b).isSome := by
            obtain ⟨nb, hnb, _⟩ := hstep
            rw [hnb]
            rfl
          have hb : b ∈ orderF := ih hbs
          have hc : c ∈ visF := e9 b hb c hstep
          exact (e8 c hc).mpr hs
      exact key n hreach hsome
  · decide

/-- Witness for C5 at the cyclic example state. -/
theorem claim_C5_witness :
    Consistent stC5 ∧
    ∃ (stF : ES) (orderF : List String),
      bfs stC5 "A" none = some (BfsRes.trace orderF, stF) ∧
      orderF.Nodup ∧
      (∀ n, n ∈ orderF ↔
        (Relation.ReflTransGen (nbrStep stC5.store) "A" n ∧
         (storeNode stC5.store n).isSome)) :=
  ⟨by decide, claim_C5.1 stC5 "A" (by decide)⟩

/-! ### Claim C4: conditional BFS by levels (`src/graphdb.py`)

`GraphDB.conditional_bfs` (graphdb.py lines 225-284) works over the LMDB
variant of the store: a `from_adjacency` sub-database mapping a node key to
the set of its outgoing edge keys, and an `edge_features` sub-database
mapping an edge key to its feature dict.  We model the two sub-databases
as association lists (an adjacency value, a Python set, is modelled as the
list of its elements) and a feature dict over string values, which is what
the traversal reads (`"to"`, `"type"`).  A node key travelling through the
queue is `edge_feat.get("to")`, which is `None` when the `"to"` key is
missing: queue entries therefore carry `Option String` (`none` = Python
`None`), and `_to_bytes` sends `None` to the byte key of `str(None)`,
the string `"None"`. -/

/-- `_to_bytes` restricted to the keys `conditional_bfs` passes it: a plain
string is encoded as itself, Python `None` via `str(None)` as `"None"`. -/
def pyKey : Option String → String
  | some s => s
  | none => "None"

/-- The two LMDB sub-databases `conditional_bfs` reads: `from_adjacency`
(node key -> outgoing edge keys) and `edge_features` (edge key -> feature
dict with string values). -/
structure LGraph where
  fromAdj : List (String × List String)
  edgeFeat : List (String × List (String × String))
  deriving DecidableEq, Repr

/-- `get_outgoing_edges(node_key)`: the adjacency entry, or the empty set
when the key is absent. -/
def get_outgoing_edges (g : LGraph) (k : String) : List String :=
  match alookup g.fromAdj k with
  | some es => es
  | none => []

/-- `get_edge_feature(edge_key)`: the stored feature dict, or `None`. -/
def get_edge_feature (g : LGraph) (e : String) : Option (List (String × String)) :=
  alookup g.edgeFeat e

/-- Python `dict.get(key)` on a feature dict: the value, or `None`. -/
def featGet (d : List (String × String)) (k : String) : Option String :=
  alookup d k

/-- `levels = {level: [] for level in range(max_levels + 1)}`. -/
def initLevels (maxLevels : Nat) : List (Nat × List (Option String)) :=
  (List.range (maxLevels + 1)).map fun i => (i, [])

/-- `levels[depth].append(node)`: extends the list stored under key `d`
(every other entry is untouched; under the loop's invariant `d` is always
a key of the dict, matching Python's `levels[depth]` indexing). -/
def levelsAppend (ls : List (Nat × List (Option String))) (d : Nat)
    (n : Option String) : List (Nat × List (Option String)) :=
  ls.map fun p => if p.1 = d then (p.1, p.2 ++ [n]) else p

/-- The inner `for edge_key_bytes in out_edges` loop: for each edge whose
feature record exists and satisfies the user condition, the `"to"` feature
is enqueued at `depth + 1` unless already visited (`visited` already holds
the node being expanded, exactly as in the Python code where
`visited.add(node)` precedes the loop). -/
def cbfsPush (g : LGraph) (cond : List (String × String) → Bool)
    (visited : List (Option String)) (depth : Nat) :
    List String → List (Option String × Nat)
  | [] => []
  | e :: rest =>
    match get_edge_feature g e with
    | none => cbfsPush g cond visited depth rest
    | some feat =>
      if cond feat then
        (if featGet feat "to" ∈ visited then cbfsPush g cond visited depth rest
         else (featGet feat "to", depth + 1) :: cbfsPush g cond visited depth rest)
      else cbfsPush g cond visited depth rest

/-- The `while queue` loop of `conditional_bfs`, with explicit fuel: pop
`(node, depth)`; skip if visited; otherwise mark visited, record the node
at `levels[depth]` when `depth <= max_levels`, and when `depth < max_levels`
enqueue the predicate-approved unvisited neighbours at `depth + 1`. -/
def cbfsLoop (g : LGraph) (cond : List (String × String) → Bool) (maxLevels : Nat) :
    Nat → List (Option String) → List (Option String × Nat) →
      List (Nat × List (Option String)) → Option (List (Nat × List (Option String)))
  | _, _, [], levels => some levels
  | 0, _, _ :: _, _ => none
  | f + 1, visited, (node, depth) :: rest, levels =>
    if node ∈ visited then cbfsLoop g cond maxLevels f visited rest levels
    else
      cbfsLoop g cond maxLevels f (node :: visited)
        (rest ++ (if depth < maxLevels then
            cbfsPush g cond (node :: visited) depth (get_outgoing_edges g (pyKey node))
          else []))
        (if depth ≤ maxLevels then levelsAppend levels depth node else levels)

/-- Every value that can ever sit in the queue: the start node and the
`"to"` feature of every stored edge record (first occurrences kept). -/
def cbfsCandidates (g : LGraph) (start : String) : List (Option String) :=
  dedupFirst (some start :: g.edgeFeat.map fun p => featGet p.2 "to")

/-- The out-degree a queue entry can contribute when expanded. -/
def weightC (g : LGraph) (n : Option String) : Nat :=
  (get_outgoing_edges g (pyKey n)).length

/-- Remaining enqueue budget: total out-degree of the unvisited candidates. -/
def remC (g : LGraph) (start : String) (visited : List (Option String)) : Nat :=
  (((cbfsCandidates g start).filter fun x => ¬ x ∈ visited).map (weightC g)).sum

/-- Fuel sufficient for the whole traversal: the initial enqueue plus the
total out-degree of all candidates (each is expanded at most once). -/
def cbfsFuel (g : LGraph) (start : String) : Nat :=
  1 + ((cbfsCandidates g start).map (weightC g)).sum

/-- `conditional_bfs(start_node, edge_condition, max_levels)`. -/
def conditional_bfs (g : LGraph) (start : String)
    (cond : List (String × String) → Bool) (maxLevels : Nat) :
    Option (List (Nat × List (Option String))) :=
  cbfsLoop g cond maxLevels (cbfsFuel g start) [] [(some start, 0)] (initLevels maxLevels)

/-- All the node values recorded in the level dict, in key order. -/
def levelsNodes : List (Nat × List (Option String)) → List (Option String)
  | [] => []
  | p :: t => p.2 ++ levelsNodes t

/-- `n` was contributed to a level by a predicate-approved edge out of a
node `m` recorded at level `d`. -/
def contributedBy (g : LGraph) (cond : List (String × String) → Bool)
    (levels : List (Nat × List (Option String))) (d : Nat) (n : Option String) : Prop :=
  ∃ lv, alookup levels d = some lv ∧ ∃ m ∈ lv, ∃ e ∈ get_outgoing_edges g (pyKey m),
    ∃ feat, get_edge_feature g e = some feat ∧ cond feat = true ∧ featGet feat "to" = n

theorem cbfsPush_cons_none (g : LGraph) (cond : List (String × String) → Bool)
    (v : List (Option String)) (d : Nat) (e : String) (rest : List String)
    (hf : get_edge_feature g e = none) :
    cbfsPush g cond v d (e :: rest) = cbfsPush g cond v d rest := by
  rw [show cbfsPush g cond v d (e :: rest) = (match get_edge_feature g e with
    | none => cbfsPush g cond v d rest
    | some feat =>
      if cond feat then
        (if featGet feat "to" ∈ v then cbfsPush g cond v d rest
         else (featGet feat "to", d + 1) :: cbfsPush g cond v d rest)
      else cbfsPush g cond v d rest) from rfl, hf]

theorem cbfsPush_cons_some (g : LGraph) (cond : List (String × String) → Bool)
    (v : List (Option String)) (d : Nat) (e : String) (rest : List String)
    (feat : List (String × String)) (hf : get_edge_feature g e = some feat) :
    cbfsPush g cond v d (e :: rest) =
      (if cond feat then
        (if featGet feat "to" ∈ v then cbfsPush g cond v d rest
         else (featGet feat "to", d + 1) :: cbfsPush g cond v d rest)
      else cbfsPush g cond v d rest) := by
  rw [show cbfsPush g cond v d (e :: rest) = (match get_edge_feature g e with
    | none => cbfsPush g cond v d rest
    | some feat =>
      if cond feat then
        (if featGet feat "to" ∈ v then cbfsPush g cond v d rest
         else (featGet feat "to", d + 1) :: cbfsPush g cond v d rest)
      else cbfsPush g cond v d rest) from rfl, hf]

theorem cbfsPush_length (g : LGraph) (cond : List (String × String) → Bool)
    (v : List (Option String)) (d : Nat) :
    ∀ es, (cbfsPush g cond v d es).length ≤ es.length := by
  intro es
  induction es with
  | nil => exact Nat.le_refl 0
  | cons e rest ih =>
    cases hf : get_edge_feature g e with
    | none =>
      rw [cbfsPush_cons_none g cond v d e rest hf]
      exact Nat.le_succ_of_le ih
    | some feat =>
      rw [cbfsPush_cons_some g cond v d e rest feat hf]
      by_cases hc : cond feat
      · rw [if_pos hc]
        by_cases hv : featGet feat "to" ∈ v
        · rw [if_pos hv]
          exact Nat.le_succ_of_le ih
        · rw [if_neg hv]
          exact Nat.succ_le_succ ih
      · rw [if_neg hc]
        exact Nat.le_succ_of_le ih

theorem cbfsPush_mem (g : LGraph) (cond : List (String × String) → Bool)
    (v : List (Option String)) (d : Nat) :
    ∀ es, ∀ q ∈ cbfsPush g cond v d es,
      q.2 = d + 1 ∧ ¬ q.1 ∈ v ∧
      ∃ e ∈ es, ∃ feat, get_edge_feature g e = some feat ∧ cond feat = true ∧
        featGet feat "to" = q.1 := by
  intro es
  induction es with
  | nil => intro q hq; cases hq
  | cons e rest ih =>
    intro q hq
    cases hf : get_edge_feature g e with
    | none =>
      rw [cbfsPush_cons_none g cond v d e rest hf] at hq
      obtain ⟨h1, h2, e1, he1, h3⟩ := ih q hq
      exact ⟨h1, h2, e1, List.mem_cons_of_mem _ he1, h3⟩
    | some feat =>
      rw [cbfsPush_cons_some g cond v d e rest feat hf] at hq
      by_cases hc : cond feat
      · rw [if_pos hc] at hq
        by_cases hv : featGet feat "to" ∈ v
        · rw [if_pos hv] at hq
          obtain ⟨h1, h2, e1, he1, h3⟩ := ih q hq
          exact ⟨h1, h2, e1, List.mem_cons_of_mem _ he1, h3⟩
        · rw [if_neg hv] at hq
          rcases List.mem_cons.mp hq with he | he
          · subst he
            exact ⟨rfl, hv, e, List.mem_cons_self _ _, feat, hf, hc, rfl⟩
          · obtain ⟨h1, h2, e1, he1, h3⟩ := ih q he
            exact ⟨h1, h2, e1, List.mem_cons_of_mem _ he1, h3⟩
      · rw [if_neg hc] at hq
        obtain ⟨h1, h2, e1, he1, h3⟩ := ih q hq
        exact ⟨h1, h2, e1, List.mem_cons_of_mem _ he1, h3⟩

theorem levelsAppend_map_fst (d : Nat) (n : Option String) :
    ∀ ls, (levelsAppend ls d n).map Prod.fst = ls.map Prod.fst := by
  intro ls
  induction ls with
  | nil => rfl
  | cons p t ih =>
    show (if p.1 = d then (p.1, p.2 ++ [n]) else p).1 :: (levelsAppend t d n).map Prod.fst
        = p.1 :: t.map Prod.fst
    rw [ih]
    by_cases h : p.1 = d
    · rw [if_pos h]
    · rw [if_neg h]

theorem levelsAppend_of_not_mem (d : Nat) (n : Option String) :
    ∀ ls, ¬ d ∈ ls.map Prod.fst → levelsAppend ls d n = ls := by
  intro ls
  induction ls with
  | nil => intro _; rfl
  | cons p t ih =>
    intro h
    have h1 : ¬ d = p.1 := fun he => h (List.mem_cons.mpr (Or.inl he))
    have h2 : ¬ d ∈ t.map Prod.fst := fun he => h (List.mem_cons.mpr (Or.inr he))
    show (if p.1 = d then (p.1, p.2 ++ [n]) else p) :: levelsAppend t d n = p :: t
    rw [if_neg (fun he => h1 he.symm), ih h2]

theorem levelsAppend_alookup (d : Nat) (n : Option String) (k : Nat) :
    ∀ ls, alookup (levelsAppend ls d n) k
      = (alookup ls k).map (fun lv => if k = d then lv ++ [n] else lv) := by
  intro ls
  induction ls with
  | nil => rfl
  | cons p t ih =>
    have hstep : levelsAppend (p :: t) d n
        = (if p.1 = d then (p.1, p.2 ++ [n]) else p) :: levelsAppend t d n := rfl
    rw [hstep]
    by_cases hpd : p.1 = d
    · rw [if_pos hpd, alookup_cons, alookup_cons]
      show (if p.1 = k then some (p.2 ++ [n]) else alookup (levelsAppend t d n) k)
          = (if p.1 = k then some p.2 else alookup t k).map
              (fun lv => if k = d then lv ++ [n] else lv)
      by_cases hpk : p.1 = k
      · rw [if_pos hpk, if_pos hpk, Option.map_some', if_pos (by rw [← hpk, hpd])]
      · rw [if_neg hpk, if_neg hpk, ih]
    · rw [if_neg hpd, alookup_cons, alookup_cons]
      by_cases hpk : p.1 = k
      · rw [if_pos hpk, if_pos hpk, Option.map_some',
          if_neg (fun hkd => hpd (hpk.trans hkd))]
      · rw [if_neg hpk, if_neg hpk, ih]

theorem levelsNodes_levelsAppend (d : Nat) (n : Option String) :
    ∀ ls, (ls.map Prod.fst).Nodup → d ∈ ls.map Prod.fst →
      (levelsNodes (levelsAppend ls d n)).Perm (n :: levelsNodes ls) := by
  intro ls
  induction ls with
  | nil => intro _ h; cases h
  | cons p t ih =>
    intro hnd hd
    have hstep : levelsAppend (p :: t) d n
        = (if p.1 = d then (p.1, p.2 ++ [n]) else p) :: levelsAppend t d n := rfl
    rw [hstep]
    by_cases hpd : p.1 = d
    · rw [if_pos hpd]
      have hdt : ¬ d ∈ t.map Prod.fst :=
        fun hm => (List.nodup_cons.mp hnd).1 (hpd ▸ hm)
      rw [levelsAppend_of_not_mem d n t hdt]
      show ((p.2 ++ [n]) ++ levelsNodes t).Perm (n :: (p.2 ++ levelsNodes t))
      rw [List.append_assoc]
      exact List.perm_middle
    · rw [if_neg hpd]
      have hdt : d ∈ t.map Prod.fst := by
        rcases List.mem_cons.mp hd with h | h
        · exact absurd h.symm hpd
        · exact h
      have hnd2 : (t.map Prod.fst).Nodup := (List.nodup_cons.mp hnd).2
      show (p.2 ++ levelsNodes (levelsAppend t d n)).Perm (n :: (p.2 ++ levelsNodes t))
      exact ((ih hnd2 hdt).append_left p.2).trans List.perm_middle

theorem contributedBy_append (g : LGraph) (cond : List (String × String) → Bool)
    (ls : List (Nat × List (Option String))) (d : Nat) (n : Option String)
    (d2 : Nat) (x : Option String) (h : contributedBy g cond ls d n) :
    contributedBy g cond (levelsAppend ls d2 x) d n := by
  obtain ⟨lv, hlv, m, hm, hrest⟩ := h
  refine ⟨if d = d2 then lv ++ [x] else lv, ?_, m, ?_, hrest⟩
  · rw [levelsAppend_alookup, hlv, Option.map_some']
  · by_cases hdd : d = d2
    · rw [if_pos hdd]
      exact List.mem_append.mpr (Or.inl hm)
    · rw [if_neg hdd]
      exact hm

theorem alookup_initLevels (m k : Nat) :
    alookup (initLevels m) k = if k < m + 1 then some [] else none := by
  have h : ∀ l : List Nat,
      alookup (l.map fun i => (i, ([] : List (Option String)))) k
        = if k ∈ l then some [] else none := by
    intro l
    induction l with
    | nil => rfl
    | cons a t ih =>
      show (if a = k then some []
            else alookup (t.map fun i => (i, ([] : List (Option String)))) k) = _
      by_cases hak : a = k
      · rw [if_pos hak, if_pos (List.mem_cons.mpr (Or.inl hak.symm))]
      · rw [if_neg hak, ih]
        by_cases hk : k ∈ t
        · rw [if_pos hk, if_pos (List.mem_cons.mpr (Or.inr hk))]
        · rw [if_neg hk, if_neg (by
            intro hm
            rcases List.mem_cons.mp hm with h2 | h2
            · exact hak h2.symm
            · exact hk h2)]
  rw [show initLevels m = (List.range (m + 1)).map
        fun i => (i, ([] : List (Option String))) from rfl, h]
  by_cases hk : k < m + 1
  · rw [if_pos (List.mem_range.mpr hk), if_pos hk]
  · rw [if_neg (fun hm => hk (List.mem_range.mp hm)), if_neg hk]

theorem levelsNodes_initLevels (m : Nat) : levelsNodes (initLevels m) = [] := by
  have h : ∀ l : List Nat,
      levelsNodes (l.map fun i => (i, ([] : List (Option String)))) = [] := by
    intro l
    induction l with
    | nil => rfl
    | cons a t ih => exact ih
  exact h (List.range (m + 1))

theorem initLevels_map_fst (m : Nat) :
    (initLevels m).map Prod.fst = List.range (m + 1) := by
  have h : ∀ l : List Nat,
      (l.map fun i => (i, ([] : List (Option String)))).map Prod.fst = l := by
    intro l
    induction l with
    | nil => rfl
    | cons a t ih =>
      show a :: (t.map fun i => (i, ([] : List (Option String)))).map Prod.fst = a :: t
      rw [ih]
  exact h (List.range (m + 1))

theorem cbfsLoop_nil (g : LGraph) (cond : List (String × String) → Bool)
    (maxLevels f : Nat) (vis : List (Option String))
    (levels : List (Nat × List (Option String))) :
    cbfsLoop g cond maxLevels f vis [] levels = some levels := by
  cases f <;> rfl

theorem cbfsLoop_cons (g : LGraph) (cond : List (String × String) → Bool)
    (maxLevels f : Nat) (vis : List (Option String)) (node : Option String)
    (depth : Nat) (rest : List (Option String × Nat))
    (levels : List (Nat × List (Option String))) :
    cbfsLoop g cond maxLevels (f + 1) vis ((node, depth) :: rest) levels =
      if node ∈ vis then cbfsLoop g cond maxLevels f vis rest levels
      else cbfsLoop g cond maxLevels f (node :: vis)
        (rest ++ (if depth < maxLevels then
            cbfsPush g cond (node :: vis) depth (get_outgoing_edges g (pyKey node))
          else []))
        (if depth ≤ maxLevels then levelsAppend levels depth node else levels) := rfl

theorem sum_filter_cons_notmem_opt (l : List (Option String)) (f : Option String → Nat)
    (vis : List (Option String)) (x : Option String) (hnd : l.Nodup) (hx : x ∈ l)
    (hv : x ∉ vis) :
    ((l.filter fun y => ¬ y ∈ vis).map f).sum =
      f x + ((l.filter fun y => ¬ y ∈ x :: vis).map f).sum := by
  induction l with
  | nil => cases hx
  | cons a t ih =>
    simp only [List.nodup_cons] at hnd
    simp only [List.filter_cons]
    by_cases hax : a = x
    · subst hax
      rw [if_pos (by simpa using hv), if_neg (by simp)]
      have hcong : t.filter (fun y => ¬ y ∈ a :: vis) = t.filter (fun y => ¬ y ∈ vis) := by
        refine List.filter_congr ?_
        intro y hy
        have hya : y ≠ a := fun he => hnd.1 (he ▸ hy)
        simp [List.mem_cons, hya]
      rw [hcong]
      simp
    · rcases List.mem_cons.mp hx with he | ht
      · exact absurd he.symm hax
      · have hrec := ih hnd.2 ht
        by_cases hav : a ∈ vis
        · rw [if_neg (by simpa using hav), if_neg (by
            simp only [List.mem_cons, decide_not]
            simp [hav])]
          exact hrec
        · rw [if_pos (by simpa using hav), if_pos (by
            simp only [List.mem_cons]
            simp [hav, hax])]
          simp only [List.map_cons, List.sum_cons]
          omega

/-- Main invariant lemma for the `conditional_bfs` while-loop: with enough
fuel the loop terminates and returns a level dict whose keys are still
`0..max_levels`, whose level 0 holds exactly the start node, whose recorded
nodes are pairwise distinct (a node first discovered at some level is never
re-added), and in which every node of a level `d + 1` was contributed by a
predicate-approved edge out of a node recorded at level `d`. -/
theorem cbfsLoop_spec (g : LGraph) (cond : List (String × String) → Bool)
    (maxLevels : Nat) (start : String) :
    ∀ (fuel : Nat) (visited : List (Option String))
      (queue : List (Option String × Nat))
      (levels : List (Nat × List (Option String))),
    queue.length + remC g start visited ≤ fuel →
    (∀ p ∈ queue, p.1 ∈ cbfsCandidates g start) →
    (∀ p ∈ queue, p.2 ≤ maxLevels) →
    levels.map Prod.fst = List.range (maxLevels + 1) →
    (levelsNodes levels).Nodup →
    (∀ x ∈ levelsNodes levels, x ∈ visited) →
    ((∃ rest, queue = (some start, 0) :: rest ∧ (∀ p ∈ rest, 1 ≤ p.2) ∧
        ¬ some start ∈ visited ∧ alookup levels 0 = some []) ∨
      ((∀ p ∈ queue, 1 ≤ p.2) ∧ alookup levels 0 = some [some start])) →
    (∀ p ∈ queue, p.2 = 0 ∨ ∃ d, p.2 = d + 1 ∧ contributedBy g cond levels d p.1) →
    (∀ d lv, alookup levels (d + 1) = some lv →
      ∀ n ∈ lv, contributedBy g cond levels d n) →
    ∃ levelsF,
      cbfsLoop g cond maxLevels fuel visited queue levels = some levelsF ∧
      levelsF.map Prod.fst = List.range (maxLevels + 1) ∧
      alookup levelsF 0 = some [some start] ∧
      (levelsNodes levelsF).Nodup ∧
      (∀ d lv, alookup levelsF (d + 1) = some lv →
        ∀ n ∈ lv, contributedBy g cond levelsF d n) := by
  intro fuel
  induction fuel with
  | zero =>
    intro visited queue levels hfuel hcand hdep hkeys hnd hsub h0 hq hl
    cases queue with
    | cons c r => simp at hfuel
    | nil =>
      refine ⟨levels, cbfsLoop_nil g cond maxLevels 0 visited levels, hkeys, ?_, hnd, hl⟩
      rcases h0 with ⟨rest, habs, _⟩ | ⟨_, h00⟩
      · simp at habs
      · exact h00
  | succ f ih =>
    intro visited queue levels hfuel hcand hdep hkeys hnd hsub h0 hq hl
    cases queue with
    | nil =>
      refine ⟨levels, cbfsLoop_nil g cond maxLevels (f + 1) visited levels, hkeys, ?_,
        hnd, hl⟩
      rcases h0 with ⟨rest, habs, _⟩ | ⟨_, h00⟩
      · simp at habs
      · exact h00
    | cons c r =>
      rcases c with ⟨node, dpt⟩
      by_cases hvis : node ∈ visited
      · rw [cbfsLoop_cons, if_pos hvis]
        have h0r : (∀ p ∈ r, 1 ≤ p.2) ∧ alookup levels 0 = some [some start] := by
          rcases h0 with ⟨rest, heq, hge, hns, _⟩ | ⟨hge, h00⟩
          · injection heq with h1 h2
            injection h1 with hn hd
            exact absurd (hn ▸ hvis) hns
          · exact ⟨fun p hp => hge p (List.mem_cons_of_mem _ hp), h00⟩
        exact ih visited r levels
          (by simp only [List.length_cons] at hfuel; omega)
          (fun p hp => hcand p (List.mem_cons_of_mem _ hp))
          (fun p hp => hdep p (List.mem_cons_of_mem _ hp))
          hkeys hnd hsub (Or.inr h0r)
          (fun p hp => hq p (List.mem_cons_of_mem _ hp)) hl
      · rw [cbfsLoop_cons, if_neg hvis]
        have hdle : dpt ≤ maxLevels := hdep (node, dpt) (List.mem_cons_self _ _)
        rw [if_pos hdle]
        have hkeysnd : (levels.map Prod.fst).Nodup := by
          rw [hkeys]
          exact List.nodup_range _
        have hdmem : dpt ∈ levels.map Prod.fst := by
          rw [hkeys]
          exact List.mem_range.mpr (Nat.lt_succ_of_le hdle)
        have hperm := levelsNodes_levelsAppend dpt node levels hkeysnd hdmem
        have hkeys2 : (levelsAppend levels dpt node).map Prod.fst
            = List.range (maxLevels + 1) := by
          rw [levelsAppend_map_fst, hkeys]
        have hnd2 : (levelsNodes (levelsAppend levels dpt node)).Nodup := by
          rw [hperm.nodup_iff]
          exact List.nodup_cons.mpr ⟨fun hm => hvis (hsub node hm), hnd⟩
        have hsub2 : ∀ x ∈ levelsNodes (levelsAppend levels dpt node),
            x ∈ node :: visited := by
          intro x hx
          rcases List.mem_cons.mp (hperm.mem_iff.mp hx) with he | he
          · exact he ▸ List.mem_cons_self _ _
          · exact List.mem_cons_of_mem _ (hsub x he)
        obtain ⟨lv0, hlv0⟩ : ∃ lv0, alookup levels dpt = some lv0 := by
          have hs := (alookup_isSome_iff levels dpt).mpr hdmem
          cases halo : alookup levels dpt with
          | none => rw [halo] at hs; cases hs
          | some lv0 => exact ⟨lv0, rfl⟩
        have hALp : alookup (levelsAppend levels dpt node) dpt
            = some (lv0 ++ [node]) := by
          rw [levelsAppend_alookup, hlv0, Option.map_some', if_pos rfl]
        have hpushP : ∀ q ∈ (if dpt < maxLevels then
              cbfsPush g cond (node :: visited) dpt (get_outgoing_edges g (pyKey node))
            else []),
            q.2 = dpt + 1 ∧ dpt < maxLevels ∧ ¬ q.1 ∈ (node :: visited) ∧
            ∃ e ∈ get_outgoing_edges g (pyKey node), ∃ feat,
              get_edge_feature g e = some feat ∧ cond feat = true ∧
              featGet feat "to" = q.1 := by
          by_cases hlt : dpt < maxLevels
          · rw [if_pos hlt]
            intro q hq2
            obtain ⟨h1, h2, h3⟩ := cbfsPush_mem g cond (node :: visited) dpt _ q hq2
            exact ⟨h1, hlt, h2, h3⟩
          · rw [if_neg hlt]
            intro q hq2
            cases hq2
        have hpushLen : (if dpt < maxLevels then
              cbfsPush g cond (node :: visited) dpt (get_outgoing_edges g (pyKey node))
            else []).length ≤ weightC g node := by
          by_cases hlt : dpt < maxLevels
          · rw [if_pos hlt]
            exact cbfsPush_length g cond (node :: visited) dpt _
          · rw [if_neg hlt]
            exact Nat.zero_le _
        have hcand2 : ∀ p ∈ r ++ (if dpt < maxLevels then
              cbfsPush g cond (node :: visited) dpt (get_outgoing_edges g (pyKey node))
            else []), p.1 ∈ cbfsCandidates g start := by
          intro p hp
          rcases List.mem_append.mp hp with h | h
          · exact hcand p (List.mem_cons_of_mem _ h)
          · obtain ⟨_, _, _, e, he, feat, hfe, _, hto⟩ := hpushP p h
            have hmem : (e, feat) ∈ g.edgeFeat := mem_of_alookup g.edgeFeat e feat hfe
            rw [show cbfsCandidates g start = dedupFirst (some start ::
              g.edgeFeat.map fun pr => featGet pr.2 "to") from rfl, mem_dedupFirst]
            refine List.mem_cons_of_mem _ ?_
            rw [← hto]
            exact List.mem_map.mpr ⟨(e, feat), hmem, rfl⟩
        have hdep2 : ∀ p ∈ r ++ (if dpt < maxLevels then
              cbfsPush g cond (node :: visited) dpt (get_outgoing_edges g (pyKey node))
            else []), p.2 ≤ maxLevels := by
          intro p hp
          rcases List.mem_append.mp hp with h | h
          · exact hdep p (List.mem_cons_of_mem _ h)
          · obtain ⟨h1, hlt, _⟩ := hpushP p h
            rw [h1]
            exact hlt
        have hnodecand : node ∈ cbfsCandidates g start :=
          hcand (node, dpt) (List.mem_cons_self _ _)
        have hstepW : remC g start visited
            = weightC g node + remC g start (node :: visited) := by
          unfold remC
          exact sum_filter_cons_notmem_opt (cbfsCandidates g start) (weightC g) visited
            node (dedupFirst_nodup _) hnodecand hvis
        have hfuel2 : (r ++ (if dpt < maxLevels then
              cbfsPush g cond (node :: visited) dpt (get_outgoing_edges g (pyKey node))
            else [])).length + remC g start (node :: visited) ≤ f := by
          rw [List.length_append]
          simp only [List.length_cons] at hfuel
          omega
        have h02 : (∃ rest, r ++ (if dpt < maxLevels then
              cbfsPush g cond (node :: visited) dpt (get_outgoing_edges g (pyKey node))
            else []) = (some start, 0) :: rest ∧ (∀ p ∈ rest, 1 ≤ p.2) ∧
              ¬ some start ∈ node :: visited ∧
              alookup (levelsAppend levels dpt node) 0 = some []) ∨
            ((∀ p ∈ r ++ (if dpt < maxLevels then
                cbfsPush g cond (node :: visited) dpt
                  (get_outgoing_edges g (pyKey node))
              else []), 1 ≤ p.2) ∧
              alookup (levelsAppend levels dpt node) 0 = some [some start]) := by
          rcases h0 with ⟨rest0, heq, hge, hns, h00⟩ | ⟨hge, h00⟩
          · injection heq with h1 h2
            injection h1 with hn hd
            subst h2
            refine Or.inr ⟨?_, ?_⟩
            · intro p hp
              rcases List.mem_append.mp hp with h | h
              · exact hge p h
              · obtain ⟨hq2, _⟩ := hpushP p h
                rw [hq2]
                exact Nat.succ_le_succ (Nat.zero_le _)
            · rw [levelsAppend_alookup, h00, Option.map_some', hd, if_pos rfl, hn,
                List.nil_append]
          · refine Or.inr ⟨?_, ?_⟩
            · intro p hp
              rcases List.mem_append.mp hp with h | h
              · exact hge p (List.mem_cons_of_mem _ h)
              · obtain ⟨hq2, _⟩ := hpushP p h
                rw [hq2]
                exact Nat.succ_le_succ (Nat.zero_le _)
            · have hd1 : 1 ≤ dpt := hge (node, dpt) (List.mem_cons_self _ _)
              rw [levelsAppend_alookup, h00, Option.map_some', if_neg (by omega)]
        have hq2 : ∀ p ∈ r ++ (if dpt < maxLevels then
              cbfsPush g cond (node :: visited) dpt (get_outgoing_edges g (pyKey node))
            else []),
            p.2 = 0 ∨ ∃ d, p.2 = d + 1 ∧
              contributedBy g cond (levelsAppend levels dpt node) d p.1 := by
          intro p hp
          rcases List.mem_append.mp hp with h | h
          · rcases hq p (List.mem_cons_of_mem _ h) with h2 | ⟨d, hd2, hcb⟩
            · exact Or.inl h2
            · exact Or.inr ⟨d, hd2, contributedBy_append g cond levels d p.1 dpt node hcb⟩
          · obtain ⟨hpd, hlt, hnv, e, he, feat, hfe, hcf, hto⟩ := hpushP p h
            refine Or.inr ⟨dpt, hpd, ?_⟩
            exact ⟨lv0 ++ [node], hALp, node,
              List.mem_append.mpr (Or.inr (List.mem_cons_self _ _)),
              e, he, feat, hfe, hcf, hto⟩
        have hl2 : ∀ d lv, alookup (levelsAppend levels dpt node) (d + 1) = some lv →
            ∀ n ∈ lv, contributedBy g cond (levelsAppend levels dpt node) d n := by
          intro d lv halv n hn
          rw [levelsAppend_alookup] at halv
          cases hold : alookup levels (d + 1) with
          | none =>
            rw [hold] at halv
            cases halv
          | some lvold =>
            rw [hold, Option.map_some'] at halv
            injection halv with hlv
            by_cases hddpt : d + 1 = dpt
            · rw [if_pos hddpt] at hlv
              rw [← hlv] at hn
              rcases List.mem_append.mp hn with hnm | hnm
              · exact contributedBy_append g cond levels d n dpt node
                  (hl d lvold hold n hnm)
              · have hn2 : n = node := by
                  rcases List.mem_cons.mp hnm with h2 | h2
                  · exact h2
                  · cases h2
                rcases hq (node, dpt) (List.mem_cons_self _ _) with h2 | ⟨d2, hd2, hcb⟩
                · exact absurd (hddpt.trans h2) (Nat.succ_ne_zero d)
                · have hdd : d2 = d := by omega
                  subst hdd
                  rw [hn2]
                  exact contributedBy_append g cond levels d2 node dpt node hcb
            · rw [if_neg hddpt] at hlv
              rw [← hlv] at hn
              exact contributedBy_append g cond levels d n dpt node
                (hl d lvold hold n hn)
        exact ih (node :: visited)
          (r ++ (if dpt < maxLevels then
            cbfsPush g cond (node :: visited) dpt (get_outgoing_edges g (pyKey node))
          else []))
          (levelsAppend levels dpt node)
          hfuel2 hcand2 hdep2 hkeys2 hnd2 hsub2 h02 hq2 hl2

/-- The friendship/colleague example graph of the specification (and of
`test_conditional_bfs` in `src/test.py`): A→B (friendship), A→C
(colleague), B→D (friendship), B→E (colleague). -/
def gC4 : LGraph :=
  ⟨[("A", ["edge_AB", "edge_AC"]), ("B", ["edge_BD", "edge_BE"])],
   [("edge_AB", [("from", "A"), ("to", "B"), ("type", "friendship")]),
    ("edge_AC", [("from", "A"), ("to", "C"), ("type", "colleague")]),
    ("edge_BD", [("from", "B"), ("to", "D"), ("type", "friendship")]),
    ("edge_BE", [("from", "B"), ("to", "E"), ("type", "colleague")])]⟩

/-- `edge_feat.get("type") == "friendship"`. -/
def is_friendship_edge (feat : List (String × String)) : Bool :=
  featGet feat "type" == some "friendship"

/-- `edge_feat.get("type") == "colleague"`. -/
def is_colleague_edge (feat : List (String × String)) : Bool :=
  featGet feat "type" == some "colleague"

/-- C4: for every start identifier, edge predicate and `max_levels`,
`conditional_bfs` terminates with a mapping whose keys are exactly the
levels `0..max_levels`, whose level 0 holds exactly the start node (even
with no outgoing edges), in which a node of level `d + 1` was contributed
by an edge out of a level-`d` node whose features satisfy the predicate
(so only predicate-approved edges contribute their end node to the next
level), and in which no node is recorded at two levels or twice at one
(`Nodup` of all recorded values).  Concretely, on the example graph with
`max_levels = 3`: the friendship-only predicate yields level 0 = [A],
level 1 = [B] (not C), level 2 = [D] (not E); the colleague-only predicate
yields level 0 = [A], level 1 = [C], and E is never reached. -/
theorem claim_C4 :
    (∀ (g : LGraph) (start : String) (cond : List (String × String) → Bool)
        (maxLevels : Nat),
      ∃ levelsF,
        conditional_bfs g start cond maxLevels = some levelsF ∧
        levelsF.map Prod.fst = List.range (maxLevels + 1) ∧
        alookup levelsF 0 = some [some start] ∧
        (levelsNodes levelsF).Nodup ∧
        (∀ d lv, alookup levelsF (d + 1) = some lv →
          ∀ n ∈ lv, contributedBy g cond levelsF d n)) ∧
    conditional_bfs gC4 "A" is_friendship_edge 3 =
      some [(0, [some "A"]), (1, [some "B"]), (2, [some "D"]), (3, [])] ∧
    conditional_bfs gC4 "A" is_colleague_edge 3 =
      some [(0, [some "A"]), (1, [some "C"]), (2, []), (3, [])] := by
  refine ⟨?_, by decide, by decide⟩
  intro g start cond maxLevels
  have hle : remC g start [] = ((cbfsCandidates g start).map (weightC g)).sum := by
    unfold remC
    have hfe : ((cbfsCandidates g start).filter
        fun y => ¬ y ∈ ([] : List (Option String))) = cbfsCandidates g start := by
      apply List.filter_eq_self.mpr
      intro a _
      simp
    rw [hfe]
  exact cbfsLoop_spec g cond maxLevels start (cbfsFuel g start) [] [(some start, 0)]
    (initLevels maxLevels)
    (by
      show [(some start, 0)].length + remC g start [] ≤ cbfsFuel g start
      unfold cbfsFuel
      simp only [List.length_cons, List.length_nil]
      omega)
    (by
      intro p hp
      rcases List.mem_cons.mp hp with he | he
      · rw [he]
        rw [show cbfsCandidates g start = dedupFirst (some start ::
          g.edgeFeat.map fun pr => featGet pr.2 "to") from rfl, mem_dedupFirst]
        exact List.mem_cons_self _ _
      · cases he)
    (by
      intro p hp
      rcases List.mem_cons.mp hp with he | he
      · rw [he]
        exact Nat.zero_le _
      · cases he)
    (initLevels_map_fst maxLevels)
    (by
      rw [levelsNodes_initLevels]
      exact List.nodup_nil)
    (by
      rw [levelsNodes_initLevels]
      intro x hx
      cases hx)
    (Or.inl ⟨[], rfl, fun p hp => absurd hp (List.not_mem_nil p),
      fun h => absurd h (List.not_mem_nil _),
      by rw [alookup_initLevels, if_pos (Nat.succ_pos maxLevels)]⟩)
    (by
      intro p hp
      rcases List.mem_cons.mp hp with he | he
      · rw [he]
        exact Or.inl rfl
      · cases he)
    (by
      intro d lv h n hn
      rw [alookup_initLevels] at h
      by_cases hlt : d + 1 < maxLevels + 1
      · rw [if_pos hlt] at h
        injection h with h2
        rw [← h2] at hn
        cases hn
      · rw [if_neg hlt] at h
        cases h)

/-- Witness for C4 at the friendship example. -/
theorem claim_C4_witness :
    ∃ levelsF,
      conditional_bfs gC4 "A" is_friendship_edge 3 = some levelsF ∧
      levelsF.map Prod.fst = List.range (3 + 1) ∧
      alookup levelsF 0 = some [some "A"] ∧
      (levelsNodes levelsF).Nodup ∧
      (∀ d lv, alookup levelsF (d + 1) = some lv →
        ∀ n ∈ lv, contributedBy gC4 is_friendship_edge levelsF d n) :=
  claim_C4.1 gC4 "A" is_friendship_edge 3

/-! ### Claim C3: JSON round trip (`graph_entities.py` + `graphdbv2.py`)

`GraphDB` serializes an entity as
`json.dumps(entity.to_dict()).encode("utf-8")` and deserializes with
`Entity.from_dict(json.loads(raw.decode("utf-8")))`.  We model
`json.dumps` (default settings: `ensure_ascii=True`, separators `", "`
and `": "`, insertion-ordered dicts) at the byte/codepoint level, and
`json.loads` as the CPython pure-Python scanner (`json/scanner.py` +
`json/decoder.py`) over codepoint lists, with explicit fuel for the
mutually recursive value/array/object parsing (realized as one function
over a mode tag so every definition stays structurally recursive and
kernel-computable).  A Python `float` is modelled by its `repr` literal
(a `PyFloat`), which is exactly what `json.dumps` writes and what
`parse_float` receives back, so the float round trip is literal-level;
`int` keeps the separate `jInt` form (`json.loads` yields `int` exactly
when the number lexeme has no fraction and no exponent, per the scanner's
`NUMBER_RE`).  Two deliberate restrictions of the model, both outside the
image of the encoder: `\uXXXX` escapes are read as four clean hex digits
(CPython's `int(esc, 16)` would also accept a sign or padding), and an
object's pairs are kept as a list (CPython's `dict(pairs)` keeps the last
duplicate; well-formed entities have duplicate-free property keys). -/

/-- JSON whitespace (`json.decoder.WHITESPACE_STR`: space, tab, newline,
carriage return). -/
def isWs (c : Nat) : Bool := c = 32 || c = 9 || c = 10 || c = 13

/-- Skip JSON whitespace (the `_w(s, end).end()` idiom). -/
def skipWs : List Nat → List Nat
  | [] => []
  | c :: t => if isWs c then skipWs t else c :: t

/-- ASCII decimal digit. -/
def isDigit (c : Nat) : Bool := 48 ≤ c && c ≤ 57

/-- Split off the maximal leading run of decimal digits. -/
def digitRun : List Nat → List Nat × List Nat
  | [] => ([], [])
  | c :: t =>
    if isDigit c then
      match digitRun t with
      | (run, rest) => (c :: run, rest)
    else ([], c :: t)

/-- `str(n)` digit codes of a natural number, with explicit fuel. -/
def natDigitsF : Nat → Nat → List Nat
  | 0, _ => []
  | f + 1, n => if n < 10 then [48 + n] else natDigitsF f (n / 10) ++ [48 + n % 10]

/-- `str(n)` for a natural number. -/
def natDigits (n : Nat) : List Nat := natDigitsF (n + 1) n

/-- Numeric value of a digit-code run (how `int(...)` reads it). -/
def natOfDigits (l : List Nat) : Nat := l.foldl (fun a c => a * 10 + (c - 48)) 0

/-- `str(z)` for a Python int: optional minus sign, then digits. -/
def dumpInt (z : Int) : List Nat :=
  if z < 0 then 45 :: natDigits z.natAbs else natDigits z.toNat

/-- `int(lexeme)` on a signed digit lexeme. -/
def intOfCodes (l : List Nat) : Int :=
  match l with
  | [] => 0
  | c :: t => if c = 45 then - Int.ofNat (natOfDigits t) else Int.ofNat (natOfDigits (c :: t))

/-- The integer part of `json.scanner.NUMBER_RE`: `(-?(0|[1-9]\d*))`
without the sign — a lone `0`, or a nonzero digit followed by digits. -/
def lexIntPart : List Nat → Option (List Nat × List Nat)
  | [] => none
  | c :: t =>
    if c = 48 then some ([48], t)
    else if isDigit c then
      match digitRun t with
      | (run, rest) => some (c :: run, rest)
    else none

/-- The optional fraction `(\.\d+)?`: a dot must be followed by at least
one digit to count, else nothing is consumed. -/
def lexFrac : List Nat → List Nat × List Nat
  | [] => ([], [])
  | c :: t =>
    if c = 46 then
      match digitRun t with
      | (run, rest) => if run = [] then ([], c :: t) else (c :: run, rest)
    else ([], c :: t)

/-- The optional exponent `([eE][-+]?\d+)?`. -/
def lexExp : List Nat → List Nat × List Nat
  | [] => ([], [])
  | c :: t =>
    if c = 101 ∨ c = 69 then
      match t with
      | [] => ([], [c])
      | s :: t2 =>
        if s = 43 ∨ s = 45 then
          match digitRun t2 with
          | (run, rest) => if run = [] then ([], c :: s :: t2) else (c :: s :: run, rest)
        else
          match digitRun t with
          | (run, rest) => if run = [] then ([], c :: t) else (c :: run, rest)
    else ([], c :: t)

/-- The unsigned part of the number lexer: integer part, then optional
fraction and exponent.  Returns the lexeme, whether the number is a float
(a fraction or exponent is present, the scanner's `frac or exp` test),
and the remaining input. -/
def lexNumCore (l : List Nat) : Option (List Nat × Bool × List Nat) :=
  match lexIntPart l with
  | none => none
  | some (ip, r1) =>
    match lexFrac r1 with
    | (fr, r2) =>
      match lexExp r2 with
      | (ex, r3) => some (ip ++ fr ++ ex, !fr.isEmpty || !ex.isEmpty, r3)

/-- The full number lexer `NUMBER_RE.match`: optional minus sign, then
the unsigned form. -/
def lexNum : List Nat → Option (List Nat × Bool × List Nat)
  | [] => none
  | c :: t =>
    if c = 45 then
      match lexNumCore t with
      | none => none
      | some (lex, isf, rest) => some (45 :: lex, isf, rest)
    else lexNumCore (c :: t)

/-- One hex digit code to its value (clean digits `0-9a-fA-F`). -/
def hexVal (c : Nat) : Option Nat :=
  if 48 ≤ c ∧ c ≤ 57 then some (c - 48)
  else if 97 ≤ c ∧ c ≤ 102 then some (c - 87)
  else if 65 ≤ c ∧ c ≤ 70 then some (c - 55)
  else none

/-- Four hex digit codes to their 16-bit value (`_decode_uXXXX`). -/
def hexVal4 (a b c d : Nat) : Option Nat :=
  match hexVal a, hexVal b, hexVal c, hexVal d with
  | some x, some y, some z, some w => some (((x * 16 + y) * 16 + z) * 16 + w)
  | _, _, _, _ => none

/-- Lower-case hex digit code of a nibble (`'{0:04x}'.format`). -/
def hexDigit (n : Nat) : Nat := if n < 10 then 48 + n else 87 + n

/-- The four hex digit codes of a value below 0x10000. -/
def hex4 (c : Nat) : List Nat :=
  [hexDigit (c / 4096 % 16), hexDigit (c / 256 % 16), hexDigit (c / 16 % 16),
   hexDigit (c % 16)]

/-- A `\uXXXX` escape. -/
def uEscape (c : Nat) : List Nat := 92 :: 117 :: hex4 c

/-- `py_encode_basestring_ascii` on one code point: the short escapes of
`ESCAPE_DCT`, `\uXXXX` for other characters outside `0x20..0x7e`
(astral code points as a surrogate pair), and the character itself
otherwise. -/
def jstrEscape (c : Nat) : List Nat :=
  if c = 34 then [92, 34]
  else if c = 92 then [92, 92]
  else if c = 8 then [92, 98]
  else if c = 9 then [92, 116]
  else if c = 10 then [92, 110]
  else if c = 12 then [92, 102]
  else if c = 13 then [92, 114]
  else if c < 32 then uEscape c
  else if c < 127 then [c]
  else if c < 65536 then uEscape c
  else uEscape (55296 + (c - 65536) / 1024) ++ uEscape (56320 + (c - 65536) % 1024)

/-- Escape every code point of a string body. -/
def escAll : List Nat → List Nat
  | [] => []
  | c :: t => jstrEscape c ++ escAll t

/-- `json.dumps` of a string: quote, escaped body, quote. -/
def dumpStr (s : String) : List Nat := 34 :: (escAll (strCodes s) ++ [34])

/-- `", "`-joined concatenation (the default item separator). -/
def sepJoin : List (List Nat) → List Nat
  | [] => []
  | [x] => x
  | x :: y :: t => x ++ 44 :: 32 :: sepJoin (y :: t)

/-- `json.dumps` of a property value. -/
def dumpPropVal : PropVal → List Nat
  | PropVal.pInt z => dumpInt z
  | PropVal.pFloat fl => strCodes fl.lit
  | PropVal.pStr s => dumpStr s

/-- `json.dumps` of a property dict (`": "` key separator). -/
def dumpProps (ps : List (String × PropVal)) : List Nat :=
  123 :: (sepJoin (ps.map fun kv => dumpStr kv.1 ++ 58 :: 32 :: dumpPropVal kv.2)
    ++ [125])

/-- `json.dumps` of a list of strings. -/
def dumpStrArr (ids : List String) : List Nat :=
  91 :: (sepJoin (ids.map dumpStr) ++ [93])

/-- `json.dumps(node.to_dict())`: the four keys in `to_dict`'s insertion
order. -/
def dumpNode (n : NodeR) : List Nat :=
  123 :: (dumpStr "id" ++ 58 :: 32 :: dumpStr n.id
    ++ 44 :: 32 :: dumpStr "label" ++ 58 :: 32 :: dumpStr n.label
    ++ 44 :: 32 :: dumpStr "properties" ++ 58 :: 32 :: dumpProps n.properties
    ++ 44 :: 32 :: dumpStr "outgoing_edge_ids" ++ 58 :: 32
    :: dumpStrArr n.outgoing_edge_ids ++ [125])

/-- `json.dumps(edge.to_dict())`: the five keys in `to_dict`'s insertion
order. -/
def dumpEdge (e : EdgeR) : List Nat :=
  123 :: (dumpStr "id" ++ 58 :: 32 :: dumpStr e.id
    ++ 44 :: 32 :: dumpStr "label" ++ 58 :: 32 :: dumpStr e.label
    ++ 44 :: 32 :: dumpStr "start_node_id" ++ 58 :: 32 :: dumpStr e.start_node_id
    ++ 44 :: 32 :: dumpStr "end_node_id" ++ 58 :: 32 :: dumpStr e.end_node_id
    ++ 44 :: 32 :: dumpStr "properties" ++ 58 :: 32 :: dumpProps e.properties
    ++ [125])

/-- A parsed JSON value.  Floats carry the literal handed to
`parse_float` (modelled, like `PyFloat`, by the literal itself); the
constants `NaN`, `Infinity`, `-Infinity` are folded to their conventional
literals. -/
inductive JVal where
  | jNull
  | jBool (b : Bool)
  | jInt (z : Int)
  | jFloat (lit : String)
  | jStr (s : String)
  | jArr (xs : List JVal)
  | jObj (fs : List (String × JVal))

/-- Rebuild a string from code points (`Char.ofNat` is faithful on the
valid scalar values a decoded string consists of). -/
def codesToString (l : List Nat) : String := String.mk (l.map fun c => Char.ofNat c)

/-- The short escapes `py_scanstring` resolves through `BACKSLASH`. -/
def escMap (e : Nat) : Option Nat :=
  if e = 34 then some 34
  else if e = 92 then some 92
  else if e = 47 then some 47
  else if e = 98 then some 8
  else if e = 102 then some 12
  else if e = 110 then some 10
  else if e = 114 then some 13
  else if e = 116 then some 9
  else none

/-- After a high surrogate `u`: if the input continues with `\u` and a
low surrogate, recombine into the astral code point; with `\u` and bad
hex, fail (`_decode_uXXXX` raises); otherwise keep the lone value. -/
def escUSur (u : Nat) (t3 : List Nat) : Option (Nat × List Nat) :=
  match t3 with
  | 92 :: 117 :: a2 :: b2 :: c3 :: d2 :: t4 =>
    (match hexVal4 a2 b2 c3 d2 with
    | none => none
    | some u2 =>
      if 56320 ≤ u2 ∧ u2 ≤ 57343 then
        some (65536 + (u - 55296) * 1024 + (u2 - 56320), t4)
      else some (u, t3))
  | _ => some (u, t3)

/-- After `\u`: four hex digits, then possibly a surrogate pair. -/
def escU (t2 : List Nat) : Option (Nat × List Nat) :=
  match t2 with
  | a :: b :: c2 :: d :: t3 =>
    (match hexVal4 a b c2 d with
    | none => none
    | some u => if 55296 ≤ u ∧ u ≤ 56319 then escUSur u t3 else some (u, t3))
  | _ => none

def escDecode : List Nat → Option (Nat × List Nat)
  | [] => none
  | e :: t2 =>
    if e = 117 then escU t2
    else
      match escMap e with
      | some v => some (v, t2)
      | none => none

/-- `py_scanstring` after the opening quote, over code points, with fuel
(one unit per produced character): literal characters up to `0x1f`
excluded (strict mode), escapes via `escDecode`. -/
def lexStrF : Nat → List Nat → Option (List Nat × List Nat)
  | 0, _ => none
  | f + 1, l =>
    match l with
    | [] => none
    | c :: t =>
      if c = 34 then some ([], t)
      else if c = 92 then
        match escDecode t with
        | some (v, t2) => (lexStrF f t2).map (fun pr => (v :: pr.1, pr.2))
        | none => none
      else if c < 32 then none
      else (lexStrF f t).map (fun pr => (c :: pr.1, pr.2))

/-- Strip a literal token from the front of the input. -/
def stripPre : List Nat → List Nat → Option (List Nat)
  | [], l => some l
  | _ :: _, [] => none
  | p :: ps, c :: t => if c = p then stripPre ps t else none

/-- The constant tokens `scan_once` checks before trying a number:
`null`, `true`, `false`, `NaN`, `Infinity`, `-Infinity`. -/
def jconst (l : List Nat) : Option (JVal × List Nat) :=
  match stripPre [110, 117, 108, 108] l with
  | some r => some (JVal.jNull, r)
  | none =>
    match stripPre [116, 114, 117, 101] l with
    | some r => some (JVal.jBool true, r)
    | none =>
      match stripPre [102, 97, 108, 115, 101] l with
      | some r => some (JVal.jBool false, r)
      | none =>
        match stripPre [78, 97, 78] l with
        | some r => some (JVal.jFloat "nan", r)
        | none =>
          match stripPre [73, 110, 102, 105, 110, 105, 116, 121] l with
          | some r => some (JVal.jFloat "inf", r)
          | none =>
            match stripPre [45, 73, 110, 102, 105, 110, 105, 116, 121] l with
            | some r => some (JVal.jFloat "-inf", r)
            | none => none

/-- What the scanner is currently parsing: a single value (`scan_once`),
the items of an array after `[` and leading whitespace (`JSONArray`), or
the members of an object after `{`, leading whitespace and a first-key
check (`JSONObject`). -/
inductive PMode where
  | val
  | items
  | members

/-- The CPython scanner over code points, with fuel: `scan_once`
dispatches on the first character; the array and object loops consume
`", "`/`"}"`-style separators with the same whitespace skipping as
`json/decoder.py`. -/
def jrun : Nat → PMode → List Nat → Option (JVal × List Nat)
  | 0, _, _ => none
  | f + 1, PMode.val, l =>
    match l with
    | [] => none
    | c :: t =>
      if c = 34 then
        match lexStrF (t.length + 1) t with
        | some (cs, r) => some (JVal.jStr (codesToString cs), r)
        | none => none
      else if c = 123 then
        match skipWs t with
        | 125 :: t2 => some (JVal.jObj [], t2)
        | t2 => jrun f PMode.members t2
      else if c = 91 then
        match skipWs t with
        | 93 :: t2 => some (JVal.jArr [], t2)
        | t2 => jrun f PMode.items t2
      else
        match jconst (c :: t) with
        | some res => some res
        | none =>
          match lexNum (c :: t) with
          | some (lex, isf, r) =>
            if isf then some (JVal.jFloat (codesToString lex), r)
            else some (JVal.jInt (intOfCodes lex), r)
          | none => none
  | f + 1, PMode.items, l =>
    match jrun f PMode.val l with
    | none => none
    | some (v, r1) =>
      match skipWs r1 with
      | 93 :: r2 => some (JVal.jArr [v], r2)
      | 44 :: r2 =>
        match jrun f PMode.items (skipWs r2) with
        | some (JVal.jArr vs, r3) => some (JVal.jArr (v :: vs), r3)
        | _ => none
      | _ => none
  | f + 1, PMode.members, l =>
    match l with
    | 34 :: t =>
      match lexStrF (t.length + 1) t with
      | none => none
      | some (kcs, r1) =>
        match skipWs r1 with
        | 58 :: r2 =>
          match jrun f PMode.val (skipWs r2) with
          | none => none
          | some (v, r3) =>
            match skipWs r3 with
            | 125 :: r4 => some (JVal.jObj [(codesToString kcs, v)], r4)
            | 44 :: r4 =>
              match jrun f PMode.members (skipWs r4) with
              | some (JVal.jObj ps, r5) => some (JVal.jObj ((codesToString kcs, v) :: ps), r5)
              | _ => none
            | _ => none
        | _ => none
    | _ => none

/-- `json.loads` over code points: skip leading whitespace, scan one
value, require only whitespace to remain (`raw_decode` + the extra-data
check in `decode`). -/
def loads (codes : List Nat) : Option JVal :=
  match jrun (codes.length + 2) PMode.val (skipWs codes) with
  | some (v, rest) => if skipWs rest = [] then some v else none
  | none => none

/-- A parsed property value back to the model's `PropVal` (the values our
property domain covers; `Node`/`Edge` store whatever Python hands them,
and the spec's property domain is int/float/str). -/
def jvalToProp : JVal → Option PropVal
  | JVal.jInt z => some (PropVal.pInt z)
  | JVal.jFloat lit => some (PropVal.pFloat ⟨lit⟩)
  | JVal.jStr s => some (PropVal.pStr s)
  | _ => none

/-- A parsed properties object back to a property list, in order. -/
def jvalToProps : List (String × JVal) → Option (List (String × PropVal))
  | [] => some []
  | (k, v) :: t =>
    match jvalToProp v, jvalToProps t with
    | some p, some ps => some ((k, p) :: ps)
    | _, _ => none

/-- A parsed array of strings back to a string list. -/
def jvalToStrList : List JVal → Option (List String)
  | [] => some []
  | JVal.jStr s :: t => (jvalToStrList t).map (fun l => s :: l)
  | _ => none

/-- `Node.from_dict(data)`: reads the four keys and rebuilds the node.
`Node.__init__` runs `node_id or str(uuid.uuid4())`, so a falsy (empty)
id would be replaced by a fresh random UUID — that nondeterministic case
is outside the deterministic fragment and is mapped to `none`; well-formed
nodes have a nonempty id.  `properties or {}` and
`outgoing_edge_ids or []` are identities on the decoded values. -/
def fromDictN (v : JVal) : Option NodeR :=
  match v with
  | JVal.jObj fs =>
    match alookup fs "id", alookup fs "label", alookup fs "properties",
        alookup fs "outgoing_edge_ids" with
    | some (JVal.jStr i), some (JVal.jStr lb), some (JVal.jObj ps),
        some (JVal.jArr es) =>
      if i = "" then none
      else
        match jvalToProps ps, jvalToStrList es with
        | some props, some ids => some ⟨i, lb, props, ids⟩
        | _, _ => none
    | _, _, _, _ => none
  | _ => none

/-- `Edge.from_dict(data)`: reads the five keys; as for nodes, the falsy
edge id (replaced by a random UUID by `edge_id or str(uuid.uuid4())`) is
outside the deterministic fragment. -/
def fromDictE (v : JVal) : Option EdgeR :=
  match v with
  | JVal.jObj fs =>
    match alookup fs "id", alookup fs "label", alookup fs "start_node_id",
        alookup fs "end_node_id", alookup fs "properties" with
    | some (JVal.jStr i), some (JVal.jStr lb), some (JVal.jStr sn),
        some (JVal.jStr en), some (JVal.jObj ps) =>
      if i = "" then none
      else
        match jvalToProps ps with
        | some props => some ⟨i, lb, sn, en, props⟩
        | none => none
    | _, _, _, _, _ => none
  | _ => none

/-- `json.dumps(node.to_dict()).encode("utf-8")`. -/
def encodeNode (n : NodeR) : List Nat := utf8 (dumpNode n)

/-- `json.dumps(edge.to_dict()).encode("utf-8")`. -/
def encodeEdge (e : EdgeR) : List Nat := utf8 (dumpEdge e)

/-- `Node.from_dict(json.loads(raw.decode("utf-8")))`. -/
def decodeNode (bs : List Nat) : Option NodeR :=
  match utf8Dec bs with
  | none => none
  | some codes =>
    match loads codes with
    | some v => fromDictN v
    | none => none

/-- `Edge.from_dict(json.loads(raw.decode("utf-8")))`. -/
def decodeEdge (bs : List Nat) : Option EdgeR :=
  match utf8Dec bs with
  | none => none
  | some codes =>
    match loads codes with
    | some v => fromDictE v
    | none => none

/-- A float literal is valid when the number lexer consumes it entirely
and classifies it as a float — exactly the shape `repr` gives every
finite Python float (a fraction such as `1.0`, or an exponent such as
`1e+16`). -/
def validFloatLit (lit : String) : Prop :=
  lexNum (strCodes lit) = some (strCodes lit, true, [])

instance (lit : String) : Decidable (validFloatLit lit) := by
  unfold validFloatLit
  infer_instance

/-- A valid property value: floats carry a valid literal. -/
def ValidPropVal : PropVal → Prop
  | PropVal.pInt _ => True
  | PropVal.pFloat fl => validFloatLit fl.lit
  | PropVal.pStr _ => True

instance (p : PropVal) : Decidable (ValidPropVal p) := by
  cases p <;> (unfold ValidPropVal; infer_instance)

/-- A valid node: nonempty id (so `node_id or uuid4()` keeps it),
duplicate-free property keys (a Python dict), valid float literals. -/
def WFNode (n : NodeR) : Prop :=
  n.id ≠ "" ∧ (n.properties.map Prod.fst).Nodup ∧
    ∀ p ∈ n.properties, ValidPropVal p.2

/-- A valid edge: nonempty id, duplicate-free property keys, valid float
literals. -/
def WFEdge (e : EdgeR) : Prop :=
  e.id ≠ "" ∧ (e.properties.map Prod.fst).Nodup ∧
    ∀ p ∈ e.properties, ValidPropVal p.2

instance (n : NodeR) : Decidable (WFNode n) := by
  unfold WFNode
  infer_instance

instance (e : EdgeR) : Decidable (WFEdge e) := by
  unfold WFEdge
  infer_instance

theorem skipWs_not (c : Nat) (t : List Nat) (h : isWs c = false) :
    skipWs (c :: t) = c :: t := by
  show (if isWs c then skipWs t else c :: t) = c :: t
  rw [h]
  rfl

theorem skipWs_ws (c : Nat) (t : List Nat) (h : isWs c = true) :
    skipWs (c :: t) = skipWs t := by
  show (if isWs c then skipWs t else c :: t) = skipWs t
  rw [h]
  rfl

/-- The head of the remaining input is not a decimal digit. -/
def headNotDigit : List Nat → Prop
  | [] => True
  | c :: _ => isDigit c = false

theorem digitRun_append (ds : List Nat) (rest : List Nat)
    (hd : ∀ c ∈ ds, isDigit c = true) (hr : headNotDigit rest) :
    digitRun (ds ++ rest) = (ds, rest) := by
  induction ds with
  | nil =>
    cases rest with
    | nil => rfl
    | cons c t =>
      show (if isDigit c then _ else ([], c :: t)) = (([] : List Nat), c :: t)
      rw [show headNotDigit (c :: t) = (isDigit c = false) from rfl] at hr
      rw [hr]
      rfl
  | cons a t ih =>
    have ha : isDigit a = true := hd a (List.mem_cons_self _ _)
    show (if isDigit a then
        match digitRun (t ++ rest) with
        | (run, r) => (a :: run, r)
      else ([], a :: (t ++ rest))) = (a :: t, rest)
    rw [ha, ih (fun c hc => hd c (List.mem_cons_of_mem _ hc))]
    rfl

theorem natOfDigits_append (l : List Nat) (d : Nat) :
    natOfDigits (l ++ [d]) = natOfDigits l * 10 + (d - 48) := by
  unfold natOfDigits
  rw [List.foldl_append]
  rfl

theorem natDigitsF_spec : ∀ f n, n < f →
    (∀ c ∈ natDigitsF f n, isDigit c = true) ∧
    natOfDigits (natDigitsF f n) = n ∧
    (∃ c t, natDigitsF f n = c :: t ∧ (n ≠ 0 → c ≠ 48)) := by
  intro f
  induction f with
  | zero => intro n h; omega
  | succ f ih =>
    intro n h
    by_cases h10 : n < 10
    · refine ⟨?_, ?_, 48 + n, [], ?_⟩
      · intro c hc
        rw [show natDigitsF (f + 1) n = if n < 10 then [48 + n]
            else natDigitsF f (n / 10) ++ [48 + n % 10] from rfl, if_pos h10] at hc
        rcases List.mem_cons.mp hc with he | he
        · subst he
          show (48 ≤ 48 + n && 48 + n ≤ 57) = true
          simp only [Bool.and_eq_true, decide_eq_true_eq]
          omega
        · cases he
      · rw [show natDigitsF (f + 1) n = if n < 10 then [48 + n]
            else natDigitsF f (n / 10) ++ [48 + n % 10] from rfl, if_pos h10]
        show (0 * 10 + (48 + n - 48)) = n
        omega
      · rw [show natDigitsF (f + 1) n = if n < 10 then [48 + n]
            else natDigitsF f (n / 10) ++ [48 + n % 10] from rfl, if_pos h10]
        exact ⟨rfl, fun hn h48 => hn (by omega)⟩
    · have hd10 : n / 10 < f := by
        have := Nat.div_lt_self (by omega : 0 < n) (by omega : 1 < 10)
        omega
      obtain ⟨ih1, ih2, c, t, ih3, ih4⟩ := ih (n / 10) hd10
      rw [show natDigitsF (f + 1) n = if n < 10 then [48 + n]
          else natDigitsF f (n / 10) ++ [48 + n % 10] from rfl, if_neg h10]
      refine ⟨?_, ?_, c, t ++ [48 + n % 10], ?_⟩
      · intro x hx
        rcases List.mem_append.mp hx with he | he
        · exact ih1 x he
        · rcases List.mem_cons.mp he with he2 | he2
          · subst he2
            show (48 ≤ 48 + n % 10 && 48 + n % 10 ≤ 57) = true
            simp only [Bool.and_eq_true, decide_eq_true_eq]
            omega
          · cases he2
      · rw [natOfDigits_append, ih2]
        omega
      · rw [ih3]
        exact ⟨rfl, fun _ => ih4 (by omega)⟩

theorem natDigits_spec (n : Nat) :
    (∀ c ∈ natDigits n, isDigit c = true) ∧
    natOfDigits (natDigits n) = n ∧
    (∃ c t, natDigits n = c :: t ∧ (n ≠ 0 → c ≠ 48)) :=
  natDigitsF_spec (n + 1) n (Nat.lt_succ_self n)

theorem hexVal_hexDigit (n : Nat) (h : n < 16) : hexVal (hexDigit n) = some n := by
  unfold hexVal hexDigit
  by_cases h10 : n < 10
  · rw [if_pos h10, if_pos (by omega)]
    congr 1
    omega
  · rw [if_neg h10, if_neg (by omega), if_pos (by omega)]
    congr 1
    omega

theorem hexVal4_hex4 (u : Nat) (h : u < 65536) :
    hexVal4 (hexDigit (u / 4096 % 16)) (hexDigit (u / 256 % 16))
      (hexDigit (u / 16 % 16)) (hexDigit (u % 16)) = some u := by
  unfold hexVal4
  rw [hexVal_hexDigit _ (by omega), hexVal_hexDigit _ (by omega),
    hexVal_hexDigit _ (by omega), hexVal_hexDigit _ (by omega)]
  show some ((((u / 4096 % 16) * 16 + u / 256 % 16) * 16 + u / 16 % 16) * 16 + u % 16)
      = some u
  congr 1
  omega

theorem escDecode_short (e v : Nat) (X : List Nat) (he : ¬ e = 117) (hm : escMap e = some v) :
    escDecode (e :: X) = some (v, X) := by
  show (if e = 117 then escU X
    else match escMap e with
      | some v => some (v, X)
      | none => none) = some (v, X)
  rw [if_neg he, hm]

theorem escU_single (u : Nat) (X : List Nat) (hu : u < 65536)
    (hns : ¬(55296 ≤ u ∧ u ≤ 56319)) :
    escU (hexDigit (u / 4096 % 16) :: hexDigit (u / 256 % 16)
      :: hexDigit (u / 16 % 16) :: hexDigit (u % 16) :: X) = some (u, X) := by
  show (match hexVal4 (hexDigit (u / 4096 % 16)) (hexDigit (u / 256 % 16))
      (hexDigit (u / 16 % 16)) (hexDigit (u % 16)) with
    | none => none
    | some u2 => if 55296 ≤ u2 ∧ u2 ≤ 56319 then escUSur u2 X else some (u2, X))
      = some (u, X)
  rw [hexVal4_hex4 u hu]
  show (if 55296 ≤ u ∧ u ≤ 56319 then escUSur u X else some (u, X)) = some (u, X)
  rw [if_neg hns]

theorem escUSur_pair (hi lo : Nat) (X : List Nat) (hlo1 : 56320 ≤ lo) (hlo2 : lo ≤ 57343) :
    escUSur hi (92 :: 117 :: hexDigit (lo / 4096 % 16) :: hexDigit (lo / 256 % 16)
      :: hexDigit (lo / 16 % 16) :: hexDigit (lo % 16) :: X)
      = some (65536 + (hi - 55296) * 1024 + (lo - 56320), X) := by
  show (match hexVal4 (hexDigit (lo / 4096 % 16)) (hexDigit (lo / 256 % 16))
      (hexDigit (lo / 16 % 16)) (hexDigit (lo % 16)) with
    | none => none
    | some u2 =>
      if 56320 ≤ u2 ∧ u2 ≤ 57343 then
        some (65536 + (hi - 55296) * 1024 + (u2 - 56320), X)
      else some (hi, 92 :: 117 :: hexDigit (lo / 4096 % 16) :: hexDigit (lo / 256 % 16)
        :: hexDigit (lo / 16 % 16) :: hexDigit (lo % 16) :: X))
      = some (65536 + (hi - 55296) * 1024 + (lo - 56320), X)
  rw [hexVal4_hex4 lo (by omega)]
  show (if 56320 ≤ lo ∧ lo ≤ 57343 then
      some (65536 + (hi - 55296) * 1024 + (lo - 56320), X)
    else some (hi, 92 :: 117 :: hexDigit (lo / 4096 % 16) :: hexDigit (lo / 256 % 16)
      :: hexDigit (lo / 16 % 16) :: hexDigit (lo % 16) :: X))
      = some (65536 + (hi - 55296) * 1024 + (lo - 56320), X)
  rw [if_pos ⟨hlo1, hlo2⟩]

/-- Case analysis combinator for an optional value (definitionally the
one-level `match`, packaged so rewriting can step through stuck
scrutinees). -/
def optStep {α β : Type} (o : Option α) (f : α → β) (n : β) : β :=
  match o with
  | none => n
  | some u => f u

theorem optStep_some {α β : Type} (u : α) (f : α → β) (n : β) :
    optStep (some u) f n = f u := rfl

theorem optStep_none {α β : Type} (f : α → β) (n : β) :
    optStep (none : Option α) f n = n := rfl

theorem escU_eq (a b c2 d : Nat) (X : List Nat) :
    escU (a :: b :: c2 :: d :: X)
      = optStep (hexVal4 a b c2 d)
          (fun u => if 55296 ≤ u ∧ u ≤ 56319 then escUSur u X else some (u, X)) none := by
  have h : escU (a :: b :: c2 :: d :: X) = (match hexVal4 a b c2 d with
      | none => none
      | some u => if 55296 ≤ u ∧ u ≤ 56319 then escUSur u X else some (u, X)) := rfl
  rw [h]
  cases hexVal4 a b c2 d with
  | none => rfl
  | some u => rfl

theorem escU_spec (u : Nat) (X : List Nat) (hu : u < 65536) :
    escU (hexDigit (u / 4096 % 16) :: hexDigit (u / 256 % 16)
      :: hexDigit (u / 16 % 16) :: hexDigit (u % 16) :: X)
      = if 55296 ≤ u ∧ u ≤ 56319 then escUSur u X else some (u, X) := by
  rw [escU_eq, hexVal4_hex4 u hu]
  exact optStep_some u _ none

theorem escU_sur_spec (hi lo : Nat) (X : List Nat) (hhi1 : 55296 ≤ hi) (hhi2 : hi ≤ 56319)
    (hlo1 : 56320 ≤ lo) (hlo2 : lo ≤ 57343) :
    escU (hexDigit (hi / 4096 % 16) :: hexDigit (hi / 256 % 16) :: hexDigit (hi / 16 % 16)
      :: hexDigit (hi % 16)
      :: (92 :: 117 :: hexDigit (lo / 4096 % 16) :: hexDigit (lo / 256 % 16)
        :: hexDigit (lo / 16 % 16) :: hexDigit (lo % 16) :: X))
      = some (65536 + (hi - 55296) * 1024 + (lo - 56320), X) := by
  rw [escU_spec hi _ (by omega), if_pos ⟨hhi1, hhi2⟩, escUSur_pair hi lo X hlo1 hlo2]

theorem escDecode_u (t2 : List Nat) : escDecode (117 :: t2) = escU t2 := by
  show (if (117 : Nat) = 117 then escU t2 else match escMap 117 with
    | some v => some (v, t2)
    | none => none) = escU t2
  rw [if_pos rfl]

theorem lexStrF_cons (f : Nat) (c : Nat) (t : List Nat) :
    lexStrF (f + 1) (c :: t)
      = if c = 34 then some ([], t)
        else if c = 92 then
          optStep (escDecode t)
            (fun vt => (lexStrF f vt.2).map fun pr => (vt.1 :: pr.1, pr.2)) none
        else if c < 32 then none
        else (lexStrF f t).map fun pr => (c :: pr.1, pr.2) := by
  have h : lexStrF (f + 1) (c :: t)
      = (if c = 34 then some ([], t)
        else if c = 92 then
          match escDecode t with
          | some (v, t2) => (lexStrF f t2).map (fun pr => (v :: pr.1, pr.2))
          | none => none
        else if c < 32 then none
        else (lexStrF f t).map fun pr => (c :: pr.1, pr.2)) := rfl
  rw [h]
  by_cases h34 : c = 34
  · rw [if_pos h34, if_pos h34]
  · rw [if_neg h34, if_neg h34]
    by_cases h92 : c = 92
    · rw [if_pos h92, if_pos h92]
      cases hd : escDecode t with
      | none => rfl
      | some vt =>
        cases vt
        rfl
    · rw [if_neg h92, if_neg h92]

theorem lexStrF_shortEsc (f2 : Nat) (e v : Nat) (X : List Nat) (t rest : List Nat)
    (he : ¬ e = 117) (hm : escMap e = some v)
    (hih : lexStrF f2 X = some (t, rest)) :
    lexStrF (f2 + 1) (92 :: e :: X) = some (v :: t, rest) := by
  rw [lexStrF_cons, if_neg (by omega), if_pos rfl, escDecode_short e v X he hm,
    optStep_some]
  show (lexStrF f2 X).map (fun pr => (v :: pr.1, pr.2)) = some (v :: t, rest)
  rw [hih]
  rfl

theorem lexStrF_uEsc (f2 : Nat) (u : Nat) (X t rest : List Nat)
    (hu : u < 65536) (hns : ¬(55296 ≤ u ∧ u ≤ 56319))
    (hih : lexStrF f2 X = some (t, rest)) :
    lexStrF (f2 + 1) (92 :: 117 :: hexDigit (u / 4096 % 16) :: hexDigit (u / 256 % 16)
      :: hexDigit (u / 16 % 16) :: hexDigit (u % 16) :: X) = some (u :: t, rest) := by
  rw [lexStrF_cons, if_neg (by omega), if_pos rfl, escDecode_u, escU_spec u X hu,
    if_neg hns, optStep_some]
  show (lexStrF f2 X).map (fun pr => (u :: pr.1, pr.2)) = some (u :: t, rest)
  rw [hih]
  rfl

theorem lexStrF_pairEsc (f2 c : Nat) (X t rest : List Nat)
    (hc : 65536 ≤ c) (hc2 : c < 1114112)
    (hih : lexStrF f2 X = some (t, rest)) :
    lexStrF (f2 + 1) (92 :: 117 :: hexDigit ((55296 + (c - 65536) / 1024) / 4096 % 16)
      :: hexDigit ((55296 + (c - 65536) / 1024) / 256 % 16)
      :: hexDigit ((55296 + (c - 65536) / 1024) / 16 % 16)
      :: hexDigit ((55296 + (c - 65536) / 1024) % 16)
      :: (92 :: 117 :: hexDigit ((56320 + (c - 65536) % 1024) / 4096 % 16)
        :: hexDigit ((56320 + (c - 65536) % 1024) / 256 % 16)
        :: hexDigit ((56320 + (c - 65536) % 1024) / 16 % 16)
        :: hexDigit ((56320 + (c - 65536) % 1024) % 16) :: X))
      = some (c :: t, rest) := by
  rw [lexStrF_cons, if_neg (by omega), if_pos rfl, escDecode_u]
  rw [escU_sur_spec (55296 + (c - 65536) / 1024) (56320 + (c - 65536) % 1024) X
    (by omega) (by omega) (by omega) (by omega)]
  rw [show 65536 + (55296 + (c - 65536) / 1024 - 55296) * 1024
      + (56320 + (c - 65536) % 1024 - 56320) = c from by omega]
  rw [optStep_some]
  show (lexStrF f2 X).map (fun pr => (c :: pr.1, pr.2)) = some (c :: t, rest)
  rw [hih]
  rfl

theorem lexStrF_lit (f2 c : Nat) (X t rest : List Nat) (h34 : ¬ c = 34) (h92 : ¬ c = 92)
    (h32 : ¬ c < 32) (hih : lexStrF f2 X = some (t, rest)) :
    lexStrF (f2 + 1) (c :: X) = some (c :: t, rest) := by
  rw [lexStrF_cons, if_neg h34, if_neg h92, if_neg h32, hih]
  rfl

theorem uEscape_append (u : Nat) (X : List Nat) :
    uEscape u ++ X = 92 :: 117 :: hexDigit (u / 4096 % 16) :: hexDigit (u / 256 % 16)
      :: hexDigit (u / 16 % 16) :: hexDigit (u % 16) :: X := rfl

/-- Round trip of the string body: lexing the `ensure_ascii`-escaped form
of a scalar sequence (followed by the closing quote) recovers the
sequence. -/
theorem lexStrF_escAll (cs : List Nat) :
    ∀ f rest, (∀ c ∈ cs, ValidScalar c) → cs.length + 1 ≤ f →
    lexStrF f (escAll cs ++ 34 :: rest) = some (cs, rest) := by
  induction cs with
  | nil =>
    intro f rest _ hf
    cases f with
    | zero => omega
    | succ f2 =>
      show lexStrF (f2 + 1) (34 :: rest) = some ([], rest)
      rw [lexStrF_cons, if_pos rfl]
  | cons c t ih =>
    intro f rest hval hf
    cases f with
    | zero => omega
    | succ f2 =>
      have hvc : ValidScalar c := hval c (List.mem_cons_self _ _)
      have iht : lexStrF f2 (escAll t ++ 34 :: rest) = some (t, rest) :=
        ih f2 rest (fun x hx => hval x (List.mem_cons_of_mem _ hx))
          (by simp only [List.length_cons] at hf; omega)
      rw [show escAll (c :: t) = jstrEscape c ++ escAll t from rfl, List.append_assoc]
      by_cases h34 : c = 34
      · subst h34
        rw [show jstrEscape 34 = [92, 34] from rfl]
        exact lexStrF_shortEsc f2 34 34 _ t rest (by omega) rfl iht
      by_cases h92 : c = 92
      · subst h92
        rw [show jstrEscape 92 = [92, 92] from rfl]
        exact lexStrF_shortEsc f2 92 92 _ t rest (by omega) rfl iht
      by_cases h8 : c = 8
      · subst h8
        rw [show jstrEscape 8 = [92, 98] from rfl]
        exact lexStrF_shortEsc f2 98 8 _ t rest (by omega) rfl iht
      by_cases h9 : c = 9
      · subst h9
        rw [show jstrEscape 9 = [92, 116] from rfl]
        exact lexStrF_shortEsc f2 116 9 _ t rest (by omega) rfl iht
      by_cases h10 : c = 10
      · subst h10
        rw [show jstrEscape 10 = [92, 110] from rfl]
        exact lexStrF_shortEsc f2 110 10 _ t rest (by omega) rfl iht
      by_cases h12 : c = 12
      · subst h12
        rw [show jstrEscape 12 = [92, 102] from rfl]
        exact lexStrF_shortEsc f2 102 12 _ t rest (by omega) rfl iht
      by_cases h13 : c = 13
      · subst h13
        rw [show jstrEscape 13 = [92, 114] from rfl]
        exact lexStrF_shortEsc f2 114 13 _ t rest (by omega) rfl iht
      by_cases h32 : c < 32
      · have hesc : jstrEscape c = uEscape c := by
          unfold jstrEscape
          rw [if_neg h34, if_neg h92, if_neg h8, if_neg h9, if_neg h10, if_neg h12,
            if_neg h13, if_pos h32]
        rw [hesc, uEscape_append]
        exact lexStrF_uEsc f2 c _ t rest (by omega) (by omega) iht
      by_cases h127 : c < 127
      · have hesc : jstrEscape c = [c] := by
          unfold jstrEscape
          rw [if_neg h34, if_neg h92, if_neg h8, if_neg h9, if_neg h10, if_neg h12,
            if_neg h13, if_neg h32, if_pos h127]
        rw [hesc]
        exact lexStrF_lit f2 c _ t rest h34 h92 h32 iht
      by_cases hbmp : c < 65536
      · have hesc : jstrEscape c = uEscape c := by
          unfold jstrEscape
          rw [if_neg h34, if_neg h92, if_neg h8, if_neg h9, if_neg h10, if_neg h12,
            if_neg h13, if_neg h32, if_neg h127, if_pos hbmp]
        rw [hesc, uEscape_append]
        have hns : ¬(55296 ≤ c ∧ c ≤ 56319) := by
          rcases hvc with h | h
          · omega
          · omega
        exact lexStrF_uEsc f2 c _ t rest hbmp hns iht
      · have hesc : jstrEscape c = uEscape (55296 + (c - 65536) / 1024)
            ++ uEscape (56320 + (c - 65536) % 1024) := by
          unfold jstrEscape
          rw [if_neg h34, if_neg h92, if_neg h8, if_neg h9, if_neg h10, if_neg h12,
            if_neg h13, if_neg h32, if_neg h127, if_neg hbmp]
        have hub : c < 1114112 := by
          rcases hvc with h | h
          · omega
          · exact h.2
        rw [hesc, List.append_assoc, uEscape_append, uEscape_append]
        exact lexStrF_pairEsc f2 c _ t rest (by omega) hub iht

/-- No digit, dot or exponent letter follows: appending `rest` cannot
extend a number lexeme. -/
def numStop : List Nat → Prop
  | [] => True
  | c :: _ => isDigit c = false ∧ ¬ c = 46 ∧ ¬ c = 101 ∧ ¬ c = 69

theorem headNotDigit_stop (rest : List Nat) (h : numStop rest) : headNotDigit rest := by
  cases rest with
  | nil => trivial
  | cons c t => exact h.1

theorem headNotDigit_append (r rest : List Nat) (hr : headNotDigit r)
    (hrest : numStop rest) : headNotDigit (r ++ rest) := by
  cases r with
  | nil => exact headNotDigit_stop rest hrest
  | cons c t => exact hr

theorem digitRun_split (x : List Nat) : ∀ run r, digitRun x = (run, r) →
    x = run ++ r ∧ (∀ d ∈ run, isDigit d = true) ∧ headNotDigit r := by
  induction x with
  | nil =>
    intro run r h
    have h2 : (([], []) : List Nat × List Nat) = (run, r) := h
    rw [Prod.mk.injEq] at h2
    obtain ⟨h3, h4⟩ := h2
    subst h3
    subst h4
    exact ⟨rfl, fun d hd => absurd hd (List.not_mem_nil d), trivial⟩
  | cons c t ih =>
    intro run r h
    have h2 : (if isDigit c = true then
        match digitRun t with
        | (run2, rest2) => (c :: run2, rest2)
      else ([], c :: t)) = (run, r) := h
    by_cases hc : isDigit c = true
    · rw [if_pos hc] at h2
      cases hdr : digitRun t with
      | mk run2 rest2 =>
        rw [hdr] at h2
        have h3 : (c :: run2, rest2) = (run, r) := h2
        rw [Prod.mk.injEq] at h3
        obtain ⟨h4, h5⟩ := h3
        subst h4
        subst h5
        obtain ⟨ha, hb, hc2⟩ := ih run2 rest2 hdr
        refine ⟨by rw [ha]; rfl, ?_, hc2⟩
        intro d hd
        rcases List.mem_cons.mp hd with he | he
        · exact he ▸ hc
        · exact hb d he
    · rw [if_neg hc] at h2
      rw [Prod.mk.injEq] at h2
      obtain ⟨h3, h4⟩ := h2
      subst h3
      subst h4
      have hcf : isDigit c = false := by
        cases hb : isDigit c with
        | false => rfl
        | true => exact absurd hb hc
      exact ⟨rfl, fun d hd => absurd hd (List.not_mem_nil d), hcf⟩

theorem lexIntPart_extend (t ip r1 rest : List Nat) (h : lexIntPart t = some (ip, r1))
    (hstop : numStop rest) : lexIntPart (t ++ rest) = some (ip, r1 ++ rest) := by
  cases t with
  | nil => cases h
  | cons c t2 =>
    have h2 : (if c = 48 then some ([48], t2)
      else if isDigit c = true then
        match digitRun t2 with
        | (run, rest2) => some (c :: run, rest2)
      else none) = some (ip, r1) := h
    show (if c = 48 then some ([48], t2 ++ rest)
      else if isDigit c = true then
        match digitRun (t2 ++ rest) with
        | (run, rest2) => some (c :: run, rest2)
      else none) = some (ip, r1 ++ rest)
    by_cases hc : c = 48
    · rw [if_pos hc] at h2
      rw [if_pos hc]
      injection h2 with h3
      rw [Prod.mk.injEq] at h3
      obtain ⟨h4, h5⟩ := h3
      rw [← h4, ← h5]
    · rw [if_neg hc] at h2
      rw [if_neg hc]
      by_cases hd : isDigit c = true
      · rw [if_pos hd] at h2
        rw [if_pos hd]
        cases hdr : digitRun t2 with
        | mk run rest2 =>
          rw [hdr] at h2
          have h3 : some (c :: run, rest2) = some (ip, r1) := h2
          injection h3 with h4
          rw [Prod.mk.injEq] at h4
          obtain ⟨h5, h6⟩ := h4
          obtain ⟨ha, hb, hc2⟩ := digitRun_split t2 run rest2 hdr
          rw [ha, List.append_assoc,
            digitRun_append run (rest2 ++ rest) hb
              (headNotDigit_append rest2 rest hc2 hstop)]
          rw [← h5, ← h6]
      · rw [if_neg hd] at h2
        cases h2

theorem lexFrac_stop (l : List Nat) (h : numStop l) : lexFrac l = ([], l) := by
  cases l with
  | nil => rfl
  | cons c t =>
    show (if c = 46 then
        match digitRun t with
        | (run, rest2) => if run = [] then ([], c :: t) else (c :: run, rest2)
      else ([], c :: t)) = ([], c :: t)
    rw [if_neg h.2.1]

theorem lexExp_stop (l : List Nat) (h : numStop l) : lexExp l = ([], l) := by
  cases l with
  | nil => rfl
  | cons c t =>
    unfold lexExp
    simp only []
    rw [if_neg (by
      intro hor
      rcases hor with h1 | h1
      · exact h.2.2.1 h1
      · exact h.2.2.2 h1)]

theorem lexFrac_split (r1 fr r2 : List Nat) (h : lexFrac r1 = (fr, r2)) :
    r1 = fr ++ r2 := by
  cases r1 with
  | nil =>
    have h2 : (([], []) : List Nat × List Nat) = (fr, r2) := h
    rw [Prod.mk.injEq] at h2
    rw [← h2.1, ← h2.2]
    rfl
  | cons c t =>
    have h2 : (if c = 46 then
        match digitRun t with
        | (run, rest2) => if run = [] then ([], c :: t) else (c :: run, rest2)
      else ([], c :: t)) = (fr, r2) := h
    by_cases hc : c = 46
    · rw [if_pos hc] at h2
      cases hdr : digitRun t with
      | mk run rest2 =>
        rw [hdr] at h2
        have h3 : (if run = [] then ([], c :: t) else (c :: run, rest2)) = (fr, r2) := h2
        by_cases hrun : run = []
        · rw [if_pos hrun] at h3
          rw [Prod.mk.injEq] at h3
          rw [← h3.1, ← h3.2]
          rfl
        · rw [if_neg hrun] at h3
          rw [Prod.mk.injEq] at h3
          obtain ⟨ha, _, _⟩ := digitRun_split t run rest2 hdr
          rw [← h3.1, ← h3.2, ha]
          rfl
    · rw [if_neg hc] at h2
      rw [Prod.mk.injEq] at h2
      rw [← h2.1, ← h2.2]
      rfl

theorem lexFrac_extend (r1 fr r2 rest : List Nat) (h : lexFrac r1 = (fr, r2))
    (hstop : numStop rest) : lexFrac (r1 ++ rest) = (fr, r2 ++ rest) := by
  cases r1 with
  | nil =>
    have h2 : (([], []) : List Nat × List Nat) = (fr, r2) := h
    rw [Prod.mk.injEq] at h2
    rw [← h2.1, ← h2.2]
    exact lexFrac_stop rest hstop
  | cons c t =>
    have h2 : (if c = 46 then
        match digitRun t with
        | (run, rest2) => if run = [] then ([], c :: t) else (c :: run, rest2)
      else ([], c :: t)) = (fr, r2) := h
    show (if c = 46 then
        match digitRun (t ++ rest) with
        | (run, rest2) => if run = [] then ([], c :: (t ++ rest)) else (c :: run, rest2)
      else ([], c :: (t ++ rest))) = (fr, r2 ++ rest)
    by_cases hc : c = 46
    · rw [if_pos hc] at h2
      rw [if_pos hc]
      cases hdr : digitRun t with
      | mk run rest2 =>
        rw [hdr] at h2
        have h3 : (if run = [] then ([], c :: t) else (c :: run, rest2)) = (fr, r2) := h2
        obtain ⟨ha, hb, hc2⟩ := digitRun_split t run rest2 hdr
        by_cases hrun : run = []
        · subst hrun
          rw [if_pos rfl] at h3
          rw [Prod.mk.injEq] at h3
          have ht : t = rest2 := ha
          subst ht
          have hdga : digitRun (t ++ rest) = ([], t ++ rest) :=
            digitRun_append [] (t ++ rest)
              (fun d hd => absurd hd (List.not_mem_nil d))
              (headNotDigit_append t rest hc2 hstop)
          rw [hdga]
          show (if ([] : List Nat) = [] then (([] : List Nat), c :: (t ++ rest))
              else (c :: ([] : List Nat), t ++ rest)) = (fr, r2 ++ rest)
          rw [if_pos rfl, ← h3.1, ← h3.2]
          rfl
        · rw [if_neg hrun] at h3
          rw [Prod.mk.injEq] at h3
          have hdga : digitRun (t ++ rest) = (run, rest2 ++ rest) := by
            rw [ha, List.append_assoc]
            exact digitRun_append run (rest2 ++ rest) hb
              (headNotDigit_append rest2 rest hc2 hstop)
          rw [hdga]
          show (if run = [] then (([] : List Nat), c :: (t ++ rest))
              else (c :: run, rest2 ++ rest)) = (fr, r2 ++ rest)
          rw [if_neg hrun, ← h3.1, ← h3.2]
    · rw [if_neg hc] at h2
      rw [if_neg hc]
      rw [Prod.mk.injEq] at h2
      rw [← h2.1, ← h2.2]
      rfl

theorem lexExp_split (r2 ex r3 : List Nat) (h : lexExp r2 = (ex, r3)) : r2 = ex ++ r3 := by
  cases r2 with
  | nil =>
    have h2 : (([], []) : List Nat × List Nat) = (ex, r3) := h
    rw [Prod.mk.injEq] at h2
    rw [← h2.1, ← h2.2]
    rfl
  | cons c t =>
    unfold lexExp at h
    simp only [] at h
    by_cases he : c = 101 ∨ c = 69
    · rw [if_pos he] at h
      cases t with
      | nil =>
        simp only [] at h
        rw [Prod.mk.injEq] at h
        rw [← h.1, ← h.2]
        rfl
      | cons s t2 =>
        simp only [] at h
        by_cases hs : s = 43 ∨ s = 45
        · rw [if_pos hs] at h
          cases hdr : digitRun t2 with
          | mk run rest2 =>
            rw [hdr] at h
            have h3 : (if run = [] then ([], c :: s :: t2)
                else (c :: s :: run, rest2)) = (ex, r3) := h
            obtain ⟨ha, _, _⟩ := digitRun_split t2 run rest2 hdr
            by_cases hrun : run = []
            · rw [if_pos hrun] at h3
              rw [Prod.mk.injEq] at h3
              rw [← h3.1, ← h3.2]
              rfl
            · rw [if_neg hrun] at h3
              rw [Prod.mk.injEq] at h3
              rw [← h3.1, ← h3.2, ha]
              rfl
        · rw [if_neg hs] at h
          cases hdr : digitRun (s :: t2) with
          | mk run rest2 =>
            rw [hdr] at h
            have h3 : (if run = [] then ([], c :: s :: t2)
                else (c :: run, rest2)) = (ex, r3) := h
            obtain ⟨ha, _, _⟩ := digitRun_split (s :: t2) run rest2 hdr
            by_cases hrun : run = []
            · rw [if_pos hrun] at h3
              rw [Prod.mk.injEq] at h3
              rw [← h3.1, ← h3.2]
              rfl
            · rw [if_neg hrun] at h3
              rw [Prod.mk.injEq] at h3
              rw [← h3.1, ← h3.2, ha]
              rfl
    · rw [if_neg he] at h
      rw [Prod.mk.injEq] at h
      rw [← h.1, ← h.2]
      rfl

theorem lexExp_extend (r2 ex rest : List Nat) (h : lexExp r2 = (ex, []))
    (hstop : numStop rest) : lexExp (r2 ++ rest) = (ex, rest) := by
  cases r2 with
  | nil =>
    have h2 : (([], []) : List Nat × List Nat) = (ex, []) := h
    rw [Prod.mk.injEq] at h2
    rw [← h2.1]
    exact lexExp_stop rest hstop
  | cons c t =>
    unfold lexExp at h
    simp only [] at h
    by_cases he : c = 101 ∨ c = 69
    · rw [if_pos he] at h
      cases t with
      | nil =>
        simp only [] at h
        rw [Prod.mk.injEq] at h
        exact absurd h.2 (by simp)
      | cons s t2 =>
        simp only [] at h
        by_cases hs : s = 43 ∨ s = 45
        · rw [if_pos hs] at h
          cases hdr : digitRun t2 with
          | mk run rest2 =>
            rw [hdr] at h
            have h3 : (if run = [] then ([], c :: s :: t2)
                else (c :: s :: run, rest2)) = (ex, []) := h
            obtain ⟨ha, hb, _⟩ := digitRun_split t2 run rest2 hdr
            by_cases hrun : run = []
            · rw [if_pos hrun] at h3
              rw [Prod.mk.injEq] at h3
              exact absurd h3.2 (by simp)
            · rw [if_neg hrun] at h3
              rw [Prod.mk.injEq] at h3
              have hr2 : rest2 = [] := h3.2
              subst hr2
              have ht2 : t2 = run := by rw [ha, List.append_nil]
              rw [List.cons_append, List.cons_append]
              unfold lexExp
              simp only []
              rw [if_pos he, if_pos hs]
              have hdga : digitRun (t2 ++ rest) = (run, rest) := by
                rw [ht2]
                exact digitRun_append run rest hb (headNotDigit_stop rest hstop)
              rw [hdga]
              show (if run = [] then (([] : List Nat), c :: s :: (t2 ++ rest))
                  else (c :: s :: run, rest)) = (ex, rest)
              rw [if_neg hrun, ← h3.1]
        · rw [if_neg hs] at h
          cases hdr : digitRun (s :: t2) with
          | mk run rest2 =>
            rw [hdr] at h
            have h3 : (if run = [] then ([], c :: s :: t2)
                else (c :: run, rest2)) = (ex, []) := h
            obtain ⟨ha, hb, _⟩ := digitRun_split (s :: t2) run rest2 hdr
            by_cases hrun : run = []
            · rw [if_pos hrun] at h3
              rw [Prod.mk.injEq] at h3
              exact absurd h3.2 (by simp)
            · rw [if_neg hrun] at h3
              rw [Prod.mk.injEq] at h3
              have hr2 : rest2 = [] := h3.2
              subst hr2
              have hst : s :: t2 = run := by rw [ha, List.append_nil]
              rw [List.cons_append, List.cons_append]
              unfold lexExp
              simp only []
              rw [if_pos he, if_neg hs]
              have hdga : digitRun (s :: (t2 ++ rest)) = (run, rest) := by
                have h5 : digitRun ((s :: t2) ++ rest) = (run, rest) := by
                  rw [hst]
                  exact digitRun_append run rest hb (headNotDigit_stop rest hstop)
                exact h5
              rw [hdga]
              show (if run = [] then (([] : List Nat), c :: s :: (t2 ++ rest))
                  else (c :: run, rest)) = (ex, rest)
              rw [if_neg hrun, ← h3.1]
    · rw [if_neg he] at h
      rw [Prod.mk.injEq] at h
      exact absurd h.2 (by simp)

theorem lexNumCore_extend (t : List Nat) (b : Bool) (rest : List Nat)
    (h : lexNumCore t = some (t, b, [])) (hstop : numStop rest) :
    lexNumCore (t ++ rest) = some (t, b, rest) := by
  cases hip : lexIntPart t with
  | none =>
    unfold lexNumCore at h
    rw [hip] at h
    cases h
  | some ipr =>
    rcases ipr with ⟨ip, r1⟩
    unfold lexNumCore at h
    rw [hip] at h
    have h2 : (match lexFrac r1 with
      | (fr, r2) =>
        match lexExp r2 with
        | (ex, r3) => some (ip ++ fr ++ ex, !fr.isEmpty || !ex.isEmpty, r3))
        = some (t, b, []) := h
    cases hfr : lexFrac r1 with
    | mk fr r2 =>
      rw [hfr] at h2
      have h3 : (match lexExp r2 with
        | (ex, r3) => some (ip ++ fr ++ ex, !fr.isEmpty || !ex.isEmpty, r3))
          = some (t, b, []) := h2
      cases hex : lexExp r2 with
      | mk ex r3 =>
        rw [hex] at h3
        have h4 : some (ip ++ fr ++ ex, !fr.isEmpty || !ex.isEmpty, r3)
            = some (t, b, []) := h3
        injection h4 with h5
        rw [Prod.mk.injEq] at h5
        obtain ⟨hA, h6⟩ := h5
        rw [Prod.mk.injEq] at h6
        obtain ⟨hB, hC⟩ := h6
        subst hC
        unfold lexNumCore
        rw [lexIntPart_extend t ip r1 rest hip hstop]
        show (match lexFrac (r1 ++ rest) with
          | (fr, r2) =>
            match lexExp r2 with
            | (ex, r3) => some (ip ++ fr ++ ex, !fr.isEmpty || !ex.isEmpty, r3))
            = some (t, b, rest)
        rw [lexFrac_extend r1 fr r2 rest hfr hstop]
        show (match lexExp (r2 ++ rest) with
          | (ex, r3) => some (ip ++ fr ++ ex, !fr.isEmpty || !ex.isEmpty, r3))
            = some (t, b, rest)
        rw [lexExp_extend r2 ex rest hex hstop]
        show some (ip ++ fr ++ ex, !fr.isEmpty || !ex.isEmpty, rest) = some (t, b, rest)
        rw [hA, hB]

theorem lexNum_extend (l : List Nat) (b : Bool) (rest : List Nat)
    (h : lexNum l = some (l, b, [])) (hstop : numStop rest) :
    lexNum (l ++ rest) = some (l, b, rest) := by
  cases l with
  | nil => exact Option.noConfusion h
  | cons c t =>
    by_cases hc : c = 45
    · subst hc
      have h2 : (match lexNumCore t with
        | none => none
        | some (lex, isf, r) => some (45 :: lex, isf, r)) = some (45 :: t, b, []) := h
      cases hcore : lexNumCore t with
      | none =>
        rw [hcore] at h2
        cases h2
      | some lir =>
        rcases lir with ⟨lex, isf, r⟩
        rw [hcore] at h2
        have h3 : some (45 :: lex, isf, r) = some (45 :: t, b, []) := h2
        injection h3 with h4
        rw [Prod.mk.injEq] at h4
        obtain ⟨h5, h6⟩ := h4
        rw [Prod.mk.injEq] at h6
        injection h5 with _ hlex
        obtain ⟨h6a, h6b⟩ := h6
        rw [hlex, h6a, h6b] at hcore
        have hcx := lexNumCore_extend t b rest hcore hstop
        show (match lexNumCore (t ++ rest) with
          | none => none
          | some (lex, isf, r) => some (45 :: lex, isf, r)) = some (45 :: t, b, rest)
        rw [hcx]
    · have h2 : (if c = 45 then
          (match lexNumCore t with
          | none => none
          | some (lex, isf, r) => some (45 :: lex, isf, r))
        else lexNumCore (c :: t)) = some (c :: t, b, []) := h
      rw [if_neg hc] at h2
      have hcx := lexNumCore_extend (c :: t) b rest h2 hstop
      show (if c = 45 then
          (match lexNumCore (t ++ rest) with
          | none => none
          | some (lex, isf, r) => some (45 :: lex, isf, r))
        else lexNumCore (c :: (t ++ rest))) = some (c :: t, b, rest)
      rw [if_neg hc]
      exact hcx

theorem lexIntPart_digits (n : Nat) (rest : List Nat) (hr : headNotDigit rest) :
    lexIntPart (natDigits n ++ rest) = some (natDigits n, rest) := by
  obtain ⟨hdig, _, c, t, hct, hc48⟩ := natDigits_spec n
  by_cases hn : n = 0
  · subst hn
    rfl
  · rw [hct]
    show (if c = 48 then some ([48], t ++ rest)
      else if isDigit c = true then
        match digitRun (t ++ rest) with
        | (run, rest2) => some (c :: run, rest2)
      else none) = some (c :: t, rest)
    have hcd : isDigit c = true := hdig c (by rw [hct]; exact List.mem_cons_self _ _)
    have htd : ∀ d ∈ t, isDigit d = true := by
      intro d hd
      exact hdig d (by rw [hct]; exact List.mem_cons_of_mem _ hd)
    rw [if_neg (hc48 hn), if_pos hcd, digitRun_append t rest htd hr]

theorem lexNumCore_digits (n : Nat) (rest : List Nat) (hstop : numStop rest) :
    lexNumCore (natDigits n ++ rest) = some (natDigits n, false, rest) := by
  unfold lexNumCore
  rw [lexIntPart_digits n rest (headNotDigit_stop rest hstop)]
  show (match lexFrac rest with
    | (fr, r2) =>
      match lexExp r2 with
      | (ex, r3) => some (natDigits n ++ fr ++ ex, !fr.isEmpty || !ex.isEmpty, r3))
      = some (natDigits n, false, rest)
  rw [lexFrac_stop rest hstop]
  show (match lexExp rest with
    | (ex, r3) => some (natDigits n ++ [] ++ ex, !List.isEmpty [] || !ex.isEmpty, r3))
      = some (natDigits n, false, rest)
  rw [lexExp_stop rest hstop]
  show some (natDigits n ++ [] ++ [], !List.isEmpty [] || !List.isEmpty [], rest)
      = some (natDigits n, false, rest)
  rw [List.append_nil, List.append_nil]
  rfl

theorem lexNum_dumpInt (z : Int) (rest : List Nat) (hstop : numStop rest) :
    lexNum (dumpInt z ++ rest) = some (dumpInt z, false, rest) := by
  by_cases hz : z < 0
  · rw [show dumpInt z = 45 :: natDigits z.natAbs from by unfold dumpInt; rw [if_pos hz]]
    show (if (45 : Nat) = 45 then
        (match lexNumCore (natDigits z.natAbs ++ rest) with
        | none => none
        | some (lex, isf, r) => some (45 :: lex, isf, r))
      else lexNumCore (45 :: (natDigits z.natAbs ++ rest)))
      = some (45 :: natDigits z.natAbs, false, rest)
    rw [if_pos rfl, lexNumCore_digits z.natAbs rest hstop]
  · rw [show dumpInt z = natDigits z.toNat from by unfold dumpInt; rw [if_neg hz]]
    obtain ⟨hdig, _, c, t, hct, _⟩ := natDigits_spec z.toNat
    have hcd : isDigit c = true := hdig c (by rw [hct]; exact List.mem_cons_self _ _)
    have hc45 : ¬ c = 45 := by
      unfold isDigit at hcd
      simp only [Bool.and_eq_true, decide_eq_true_eq] at hcd
      omega
    rw [hct]
    show (if c = 45 then
        (match lexNumCore (t ++ rest) with
        | none => none
        | some (lex, isf, r) => some (45 :: lex, isf, r))
      else lexNumCore (c :: (t ++ rest))) = some (c :: t, false, rest)
    rw [if_neg hc45]
    have h2 : lexNumCore ((c :: t) ++ rest) = some (c :: t, false, rest) := by
      rw [← hct]
      exact lexNumCore_digits z.toNat rest hstop
    exact h2

theorem intOfCodes_dumpInt (z : Int) : intOfCodes (dumpInt z) = z := by
  by_cases hz : z < 0
  · rw [show dumpInt z = 45 :: natDigits z.natAbs from by unfold dumpInt; rw [if_pos hz]]
    show (if (45 : Nat) = 45 then - Int.ofNat (natOfDigits (natDigits z.natAbs))
      else Int.ofNat (natOfDigits (45 :: natDigits z.natAbs))) = z
    rw [if_pos rfl, (natDigits_spec z.natAbs).2.1]
    simp only [Int.ofNat_eq_coe]
    omega
  · rw [show dumpInt z = natDigits z.toNat from by unfold dumpInt; rw [if_neg hz]]
    obtain ⟨hdig, hval, c, t, hct, _⟩ := natDigits_spec z.toNat
    have hcd : isDigit c = true := hdig c (by rw [hct]; exact List.mem_cons_self _ _)
    have hc45 : ¬ c = 45 := by
      unfold isDigit at hcd
      simp only [Bool.and_eq_true, decide_eq_true_eq] at hcd
      omega
    rw [hct]
    show (if c = 45 then - Int.ofNat (natOfDigits t)
      else Int.ofNat (natOfDigits (c :: t))) = z
    rw [if_neg hc45, ← hct, hval]
    simp only [Int.ofNat_eq_coe]
    omega

theorem codesToString_strCodes (s : String) : codesToString (strCodes s) = s := by
  unfold codesToString strCodes
  rw [List.map_map]
  have h : (fun c => Char.ofNat c) ∘ Char.toNat = id := by
    funext ch
    exact Char.ofNat_toNat ch
  rw [h, List.map_id]

theorem jstrEscape_len (c : Nat) : 1 ≤ (jstrEscape c).length := by
  unfold jstrEscape
  by_cases h1 : c = 34
  · rw [if_pos h1]
    exact Nat.succ_le_succ (Nat.zero_le _)
  rw [if_neg h1]
  by_cases h2 : c = 92
  · rw [if_pos h2]
    exact Nat.succ_le_succ (Nat.zero_le _)
  rw [if_neg h2]
  by_cases h3 : c = 8
  · rw [if_pos h3]
    exact Nat.succ_le_succ (Nat.zero_le _)
  rw [if_neg h3]
  by_cases h4 : c = 9
  · rw [if_pos h4]
    exact Nat.succ_le_succ (Nat.zero_le _)
  rw [if_neg h4]
  by_cases h5 : c = 10
  · rw [if_pos h5]
    exact Nat.succ_le_succ (Nat.zero_le _)
  rw [if_neg h5]
  by_cases h6 : c = 12
  · rw [if_pos h6]
    exact Nat.succ_le_succ (Nat.zero_le _)
  rw [if_neg h6]
  by_cases h7 : c = 13
  · rw [if_pos h7]
    exact Nat.succ_le_succ (Nat.zero_le _)
  rw [if_neg h7]
  by_cases h8 : c < 32
  · rw [if_pos h8]
    exact Nat.succ_le_succ (Nat.zero_le _)
  rw [if_neg h8]
  by_cases h9 : c < 127
  · rw [if_pos h9]
    exact Nat.le_refl 1
  rw [if_neg h9]
  by_cases h10 : c < 65536
  · rw [if_pos h10]
    exact Nat.succ_le_succ (Nat.zero_le _)
  rw [if_neg h10]
  have hl1 : (uEscape (55296 + (c - 65536) / 1024)).length = 6 := rfl
  have hl2 : (uEscape (56320 + (c - 65536) % 1024)).length = 6 := rfl
  rw [List.length_append, hl1, hl2]
  omega

theorem escAll_len (cs : List Nat) : cs.length ≤ (escAll cs).length := by
  induction cs with
  | nil => exact Nat.le_refl 0
  | cons c t ih =>
    show t.length + 1 ≤ (jstrEscape c ++ escAll t).length
    rw [List.length_append]
    have h := jstrEscape_len c
    omega

theorem jrun_val_str_eq (f : Nat) (t : List Nat) :
    jrun (f + 1) PMode.val (34 :: t)
      = (match lexStrF (t.length + 1) t with
        | some (cs, r) => some (JVal.jStr (codesToString cs), r)
        | none => none) := rfl

theorem jrun_val_obj_eq (f : Nat) (t : List Nat) :
    jrun (f + 1) PMode.val (123 :: t)
      = (match skipWs t with
        | 125 :: t2 => some (JVal.jObj [], t2)
        | t2 => jrun f PMode.members t2) := rfl

theorem jrun_val_arr_eq (f : Nat) (t : List Nat) :
    jrun (f + 1) PMode.val (91 :: t)
      = (match skipWs t with
        | 93 :: t2 => some (JVal.jArr [], t2)
        | t2 => jrun f PMode.items t2) := rfl

theorem jrun_val_num_eq (f : Nat) (c : Nat) (t : List Nat) (h34 : ¬ c = 34)
    (h123 : ¬ c = 123) (h91 : ¬ c = 91) :
    jrun (f + 1) PMode.val (c :: t)
      = (match jconst (c :: t) with
        | some res => some res
        | none =>
          match lexNum (c :: t) with
          | some (lex, isf, r) =>
            if isf then some (JVal.jFloat (codesToString lex), r)
            else some (JVal.jInt (intOfCodes lex), r)
          | none => none) := by
  have h : jrun (f + 1) PMode.val (c :: t)
      = (if c = 34 then
          (match lexStrF (t.length + 1) t with
          | some (cs, r) => some (JVal.jStr (codesToString cs), r)
          | none => none)
        else if c = 123 then
          (match skipWs t with
          | 125 :: t2 => some (JVal.jObj [], t2)
          | t2 => jrun f PMode.members t2)
        else if c = 91 then
          (match skipWs t with
          | 93 :: t2 => some (JVal.jArr [], t2)
          | t2 => jrun f PMode.items t2)
        else
          (match jconst (c :: t) with
          | some res => some res
          | none =>
            match lexNum (c :: t) with
            | some (lex, isf, r) =>
              if isf then some (JVal.jFloat (codesToString lex), r)
              else some (JVal.jInt (intOfCodes lex), r)
            | none => none)) := rfl
  rw [h, if_neg h34, if_neg h123, if_neg h91]

theorem jrun_val_str (s : String) (f : Nat) (rest : List Nat) :
    jrun (f + 1) PMode.val (dumpStr s ++ rest) = some (JVal.jStr s, rest) := by
  rw [show dumpStr s = 34 :: (escAll (strCodes s) ++ [34]) from rfl]
  rw [List.cons_append, List.append_assoc, List.singleton_append]
  rw [jrun_val_str_eq]
  rw [lexStrF_escAll (strCodes s) ((escAll (strCodes s) ++ 34 :: rest).length + 1) rest
    (strCodes_valid s)
    (by
      rw [List.length_append]
      have h := escAll_len (strCodes s)
      simp only [List.length_cons]
      omega)]
  show some (JVal.jStr (codesToString (strCodes s)), rest) = some (JVal.jStr s, rest)
  rw [codesToString_strCodes]

theorem lexIntPart_head (l ip r : List Nat) (h : lexIntPart l = some (ip, r)) :
    ∃ c t, l = c :: t ∧ isDigit c = true := by
  cases l with
  | nil => cases h
  | cons c t =>
    have h2 : (if c = 48 then some ([48], t)
      else if isDigit c = true then
        match digitRun t with
        | (run, rest2) => some (c :: run, rest2)
      else none) = some (ip, r) := h
    by_cases hc : c = 48
    · exact ⟨c, t, rfl, by rw [hc]; rfl⟩
    · rw [if_neg hc] at h2
      by_cases hd : isDigit c = true
      · exact ⟨c, t, rfl, hd⟩
      · rw [if_neg hd] at h2
        cases h2

theorem lexNum_head (l : List Nat) (lex : List Nat) (b : Bool) (r : List Nat)
    (h : lexNum l = some (lex, b, r)) :
    ∃ c t, l = c :: t ∧ (isDigit c = true ∨
      (c = 45 ∧ ∃ d t2, t = d :: t2 ∧ isDigit d = true)) := by
  cases l with
  | nil => cases h
  | cons c t =>
    by_cases hc : c = 45
    · subst hc
      have h2 : (match lexNumCore t with
        | none => none
        | some (lex, isf, r) => some (45 :: lex, isf, r)) = some (lex, b, r) := h
      cases hcore : lexNumCore t with
      | none =>
        rw [hcore] at h2
        cases h2
      | some lir =>
        unfold lexNumCore at hcore
        cases hip : lexIntPart t with
        | none =>
          rw [hip] at hcore
          cases hcore
        | some ipr =>
          obtain ⟨d, t2, hdt, hdd⟩ := lexIntPart_head t ipr.1 ipr.2 (by rw [hip])
          exact ⟨45, t, rfl, Or.inr ⟨rfl, d, t2, hdt, hdd⟩⟩
    · have h2 : (if c = 45 then
          (match lexNumCore t with
          | none => none
          | some (lex, isf, r) => some (45 :: lex, isf, r))
        else lexNumCore (c :: t)) = some (lex, b, r) := h
      rw [if_neg hc] at h2
      unfold lexNumCore at h2
      cases hip : lexIntPart (c :: t) with
      | none =>
        rw [hip] at h2
        cases h2
      | some ipr =>
        obtain ⟨c2, t2, hct, hcd⟩ := lexIntPart_head (c :: t) ipr.1 ipr.2 (by rw [hip])
        injection hct with hc2 _
        exact ⟨c, t, rfl, Or.inl (hc2 ▸ hcd)⟩

theorem stripPre_cons (p : Nat) (ps : List Nat) (c : Nat) (t : List Nat) (h : ¬ c = p) :
    stripPre (p :: ps) (c :: t) = none := by
  show (if c = p then stripPre ps t else none) = none
  rw [if_neg h]

theorem jconst_num (c : Nat) (t : List Nat)
    (hc : isDigit c = true ∨
      (c = 45 ∧ ∃ d t2, t = d :: t2 ∧ isDigit d = true)) :
    jconst (c :: t) = none := by
  have hb : ∀ p, 58 ≤ p → ¬ c = p := by
    intro p hp he
    rcases hc with h | h
    · unfold isDigit at h
      simp only [Bool.and_eq_true, decide_eq_true_eq] at h
      omega
    · omega
  unfold jconst
  rw [stripPre_cons 110 _ c t (hb 110 (by omega))]
  simp only []
  rw [stripPre_cons 116 _ c t (hb 116 (by omega))]
  simp only []
  rw [stripPre_cons 102 _ c t (hb 102 (by omega))]
  simp only []
  rw [stripPre_cons 78 _ c t (hb 78 (by omega))]
  simp only []
  rw [stripPre_cons 73 _ c t (hb 73 (by omega))]
  simp only []
  rcases hc with h | h
  · rw [stripPre_cons 45 _ c t (by
      unfold isDigit at h
      simp only [Bool.and_eq_true, decide_eq_true_eq] at h
      omega)]
  · obtain ⟨hc45, d, t2, hdt, hdd⟩ := h
    subst hc45
    subst hdt
    have hstep : stripPre [45, 73, 110, 102, 105, 110, 105, 116, 121] (45 :: d :: t2)
        = stripPre [73, 110, 102, 105, 110, 105, 116, 121] (d :: t2) := by
      show (if (45 : Nat) = 45 then
          stripPre [73, 110, 102, 105, 110, 105, 116, 121] (d :: t2)
        else none) = stripPre [73, 110, 102, 105, 110, 105, 116, 121] (d :: t2)
      rw [if_pos rfl]
    rw [hstep, stripPre_cons 73 _ d t2 (by
      unfold isDigit at hdd
      simp only [Bool.and_eq_true, decide_eq_true_eq] at hdd
      omega)]

theorem jrun_val_numlit (l : List Nat) (b : Bool) (f : Nat) (rest : List Nat)
    (h : lexNum l = some (l, b, [])) (hstop : numStop rest) :
    jrun (f + 1) PMode.val (l ++ rest)
      = some (if b then JVal.jFloat (codesToString l) else JVal.jInt (intOfCodes l),
          rest) := by
  obtain ⟨c, t, hl, hc⟩ := lexNum_head l l b [] h
  have hext := lexNum_extend l b rest h hstop
  subst hl
  rw [List.cons_append] at hext ⊢
  have hd : ¬ c = 34 ∧ ¬ c = 123 ∧ ¬ c = 91 := by
    rcases hc with h2 | h2
    · unfold isDigit at h2
      simp only [Bool.and_eq_true, decide_eq_true_eq] at h2
      exact ⟨by omega, by omega, by omega⟩
    · exact ⟨by omega, by omega, by omega⟩
  rw [jrun_val_num_eq f c (t ++ rest) hd.1 hd.2.1 hd.2.2]
  rw [jconst_num c (t ++ rest) (by
    rcases hc with h2 | h2
    · exact Or.inl h2
    · obtain ⟨hc45, d, t2, hdt, hdd⟩ := h2
      subst hdt
      exact Or.inr ⟨hc45, d, t2 ++ rest, List.cons_append d t2 rest, hdd⟩)]
  simp only []
  rw [hext]
  simp only []
  cases b with
  | true => rfl
  | false => rfl

theorem jrun_val_int (z : Int) (f : Nat) (rest : List Nat) (hstop : numStop rest) :
    jrun (f + 1) PMode.val (dumpInt z ++ rest) = some (JVal.jInt z, rest) := by
  have h0 : lexNum (dumpInt z) = some (dumpInt z, false, []) := by
    have h1 := lexNum_dumpInt z [] trivial
    rw [List.append_nil] at h1
    exact h1
  rw [jrun_val_numlit (dumpInt z) false f rest h0 hstop]
  show some (JVal.jInt (intOfCodes (dumpInt z)), rest) = some (JVal.jInt z, rest)
  rw [intOfCodes_dumpInt]

theorem jrun_val_float (lit : String) (hv : validFloatLit lit) (f : Nat)
    (rest : List Nat) (hstop : numStop rest) :
    jrun (f + 1) PMode.val (strCodes lit ++ rest) = some (JVal.jFloat lit, rest) := by
  rw [jrun_val_numlit (strCodes lit) true f rest hv hstop]
  show some (JVal.jFloat (codesToString (strCodes lit)), rest)
      = some (JVal.jFloat lit, rest)
  rw [codesToString_strCodes]

theorem isWs_false (c : Nat) (h32 : ¬ c = 32) (h9 : ¬ c = 9) (h10 : ¬ c = 10)
    (h13 : ¬ c = 13) : isWs c = false := by
  unfold isWs
  simp [h32, h9, h10, h13]

theorem skipWs_numlit (l : List Nat) (b : Bool) (h : lexNum l = some (l, b, []))
    (rest2 : List Nat) : skipWs (l ++ rest2) = l ++ rest2 := by
  obtain ⟨c, t, hl, hc⟩ := lexNum_head l l b [] h
  subst hl
  rw [List.cons_append]
  have hni : ¬ c = 32 ∧ ¬ c = 9 ∧ ¬ c = 10 ∧ ¬ c = 13 := by
    rcases hc with h2 | h2
    · unfold isDigit at h2
      simp only [Bool.and_eq_true, decide_eq_true_eq] at h2
      exact ⟨by omega, by omega, by omega, by omega⟩
    · obtain ⟨h45, _⟩ := h2
      exact ⟨by omega, by omega, by omega, by omega⟩
  exact skipWs_not c _ (isWs_false c hni.1 hni.2.1 hni.2.2.1 hni.2.2.2)

/-- One value of a property dict together with its dumped form, parsed
form and parse cost (extra fuel needed for nested structures). -/
structure JMemb where
  key : String
  vd : List Nat
  jv : JVal
  cost : Nat

def membsDump (ms : List JMemb) : List Nat :=
  sepJoin (ms.map fun m => dumpStr m.key ++ 58 :: 32 :: m.vd)

def membsCost (ms : List JMemb) : Nat := (ms.map fun m => m.cost + 1).sum

theorem membsDump_cons (m : JMemb) (ms : List JMemb) :
    ∃ Z, membsDump (m :: ms) = 34 :: Z := by
  cases ms with
  | nil =>
    refine ⟨(escAll (strCodes m.key) ++ [34]) ++ (58 :: 32 :: m.vd), ?_⟩
    show dumpStr m.key ++ 58 :: 32 :: m.vd = _
    rw [show dumpStr m.key = 34 :: (escAll (strCodes m.key) ++ [34]) from rfl,
      List.cons_append]
  | cons m2 ms3 =>
    refine ⟨((escAll (strCodes m.key) ++ [34]) ++ (58 :: 32 :: m.vd))
      ++ (44 :: 32 :: sepJoin ((m2 :: ms3).map fun x => dumpStr x.key ++ 58 :: 32 :: x.vd)),
      ?_⟩
    show (dumpStr m.key ++ 58 :: 32 :: m.vd)
        ++ 44 :: 32 :: sepJoin ((m2 :: ms3).map fun x => dumpStr x.key ++ 58 :: 32 :: x.vd)
        = _
    rw [show dumpStr m.key = 34 :: (escAll (strCodes m.key) ++ [34]) from rfl,
      List.cons_append, List.cons_append]

theorem jrun_members_eq (f : Nat) (t : List Nat) :
    jrun (f + 1) PMode.members (34 :: t)
      = (match lexStrF (t.length + 1) t with
        | none => none
        | some (kcs, r1) =>
          match skipWs r1 with
          | 58 :: r2 =>
            (match jrun f PMode.val (skipWs r2) with
            | none => none
            | some (v, r3) =>
              match skipWs r3 with
              | 125 :: r4 => some (JVal.jObj [(codesToString kcs, v)], r4)
              | 44 :: r4 =>
                (match jrun f PMode.members (skipWs r4) with
                | some (JVal.jObj ps, r5) =>
                  some (JVal.jObj ((codesToString kcs, v) :: ps), r5)
                | _ => none)
              | _ => none)
          | _ => none) := rfl

theorem memb_part_norm (k : String) (vd S : List Nat) :
    (dumpStr k ++ 58 :: 32 :: vd) ++ S
      = 34 :: (escAll (strCodes k) ++ 34 :: 58 :: 32 :: (vd ++ S)) := by
  rw [show dumpStr k = 34 :: (escAll (strCodes k) ++ [34]) from rfl]
  simp [List.append_assoc]

/-- The object-member loop recovers every dumped member: keys and values
in order, consuming the closing brace. -/
theorem jrun_members_gen (ms : List JMemb) :
    ∀ f rest, ms ≠ [] →
    (∀ m ∈ ms, ∀ (f2 : Nat) (rest2 : List Nat), numStop rest2 → m.cost ≤ f2 →
      jrun (f2 + 1) PMode.val (skipWs (m.vd ++ rest2)) = some (m.jv, rest2)) →
    membsCost ms + 1 ≤ f →
    jrun f PMode.members (membsDump ms ++ 125 :: rest)
      = some (JVal.jObj (ms.map fun m => (m.key, m.jv)), rest) := by
  induction ms with
  | nil =>
    intro f rest hne _ _
    exact absurd rfl hne
  | cons m ms2 ih =>
    intro f rest _ hv hf
    have hfc : membsCost (m :: ms2) = m.cost + 1 + membsCost ms2 := by
      unfold membsCost
      rw [List.map_cons, List.sum_cons]
    rw [hfc] at hf
    cases f with
    | zero => omega
    | succ f2 =>
      cases f2 with
      | zero => omega
      | succ f3 =>
        have hvm := hv m (List.mem_cons_self _ _)
        cases ms2 with
        | nil =>
          rw [show membsDump [m] = dumpStr m.key ++ 58 :: 32 :: m.vd from rfl]
          rw [memb_part_norm m.key m.vd (125 :: rest)]
          rw [jrun_members_eq]
          rw [lexStrF_escAll (strCodes m.key) _ (58 :: 32 :: (m.vd ++ 125 :: rest))
            (strCodes_valid m.key)
            (by
              rw [List.length_append]
              have h := escAll_len (strCodes m.key)
              simp only [List.length_cons]
              omega)]
          simp only []
          rw [skipWs_not 58 _ (by decide)]
          simp only []
          rw [skipWs_ws 32 _ (by decide)]
          rw [hvm f3 (125 :: rest) ⟨by decide, by decide, by decide, by decide⟩
            (by omega)]
          simp only []
          rw [skipWs_not 125 _ (by decide)]
          simp only []
          rw [codesToString_strCodes]
          rfl
        | cons m2 ms3 =>
          rw [show membsDump (m :: m2 :: ms3) = (dumpStr m.key ++ 58 :: 32 :: m.vd)
            ++ 44 :: 32 :: membsDump (m2 :: ms3) from rfl]
          rw [List.append_assoc]
          rw [memb_part_norm m.key m.vd _]
          rw [List.cons_append, List.cons_append]
          rw [jrun_members_eq]
          rw [lexStrF_escAll (strCodes m.key) _
            (58 :: 32 :: (m.vd ++ 44 :: 32 :: (membsDump (m2 :: ms3) ++ 125 :: rest)))
            (strCodes_valid m.key)
            (by
              rw [List.length_append]
              have h := escAll_len (strCodes m.key)
              simp only [List.length_cons]
              omega)]
          simp only []
          rw [skipWs_not 58 _ (by decide)]
          simp only []
          rw [skipWs_ws 32 _ (by decide)]
          rw [hvm f3 (44 :: 32 :: (membsDump (m2 :: ms3) ++ 125 :: rest))
            ⟨by decide, by decide, by decide, by decide⟩ (by omega)]
          simp only []
          rw [skipWs_not 44 _ (by decide)]
          simp only []
          rw [skipWs_ws 32 _ (by decide)]
          obtain ⟨Z, hZ⟩ := membsDump_cons m2 ms3
          rw [hZ, List.cons_append, skipWs_not 34 _ (by decide), ← List.cons_append,
            ← hZ]
          rw [ih (f3 + 1) rest (by simp) (fun m3 hm3 => hv m3 (List.mem_cons_of_mem _ hm3))
            (by omega)]
          simp only []
          rw [codesToString_strCodes]
          rfl

/-- The JSON value a property value dumps to. -/
def propJVal : PropVal → JVal
  | PropVal.pInt z => JVal.jInt z
  | PropVal.pFloat fl => JVal.jFloat fl.lit
  | PropVal.pStr s => JVal.jStr s

/-- Scanning a dumped property value (after optional whitespace) yields
its parsed form. -/
theorem jrun_val_propVal (p : PropVal) (hp : ValidPropVal p) (f : Nat)
    (rest : List Nat) (hstop : numStop rest) :
    jrun (f + 1) PMode.val (skipWs (dumpPropVal p ++ rest))
      = some (propJVal p, rest) := by
  cases p with
  | pInt z =>
    have h0 : lexNum (dumpInt z) = some (dumpInt z, false, []) := by
      have h1 := lexNum_dumpInt z [] trivial
      rw [List.append_nil] at h1
      exact h1
    rw [show dumpPropVal (PropVal.pInt z) = dumpInt z from rfl]
    rw [skipWs_numlit (dumpInt z) false h0 rest]
    exact jrun_val_int z f rest hstop
  | pFloat fl =>
    have hp2 : validFloatLit fl.lit := hp
    rw [show dumpPropVal (PropVal.pFloat fl) = strCodes fl.lit from rfl]
    rw [skipWs_numlit (strCodes fl.lit) true hp2 rest]
    exact jrun_val_float fl.lit hp2 f rest hstop
  | pStr s =>
    rw [show dumpPropVal (PropVal.pStr s) = dumpStr s from rfl]
    have hx : dumpStr s ++ rest = 34 :: ((escAll (strCodes s) ++ [34]) ++ rest) := by
      rw [show dumpStr s = 34 :: (escAll (strCodes s) ++ [34]) from rfl]
      rfl
    rw [hx, skipWs_not 34 _ (by decide), ← hx]
    exact jrun_val_str s f rest

/-- A property entry as an object member (parse cost 0: scalars need no
extra fuel). -/
def pmemb (p : String × PropVal) : JMemb :=
  ⟨p.1, dumpPropVal p.2, propJVal p.2, 0⟩

theorem membsCost_pmemb (ps : List (String × PropVal)) :
    membsCost (ps.map pmemb) = ps.length := by
  induction ps with
  | nil => rfl
  | cons p t ih =>
    simp only [List.map_cons, membsCost, List.sum_cons, List.length_cons, pmemb] at *
    omega

theorem pmemb_map (ps : List (String × PropVal)) :
    (ps.map pmemb).map (fun m => (m.key, m.jv))
      = ps.map fun q => (q.1, propJVal q.2) := by
  rw [List.map_map]
  rfl

theorem jrun_val_obj34 (f : Nat) (Z : List Nat) :
    jrun (f + 1) PMode.val (123 :: 34 :: Z) = jrun f PMode.members (34 :: Z) := rfl

/-- Scanning a dumped property dict yields the object of parsed members,
in order. -/
theorem jrun_val_props (ps : List (String × PropVal))
    (hps : ∀ p ∈ ps, ValidPropVal p.2) (f : Nat) (rest : List Nat)
    (hf : ps.length + 1 ≤ f) :
    jrun (f + 1) PMode.val (dumpProps ps ++ rest)
      = some (JVal.jObj (ps.map fun q => (q.1, propJVal q.2)), rest) := by
  cases ps with
  | nil =>
    have hx : dumpProps [] ++ rest = 123 :: 125 :: rest := rfl
    rw [hx, jrun_val_obj_eq, skipWs_not 125 _ (by decide)]
    rfl
  | cons kv ps2 =>
    have hx : dumpProps (kv :: ps2) ++ rest
        = 123 :: (membsDump ((kv :: ps2).map pmemb) ++ 125 :: rest) := by
      unfold dumpProps membsDump
      rw [List.map_map, List.cons_append, List.append_assoc]
      rfl
    rw [hx, List.map_cons]
    obtain ⟨Z, hZ⟩ := membsDump_cons (pmemb kv) (ps2.map pmemb)
    rw [hZ, List.cons_append, jrun_val_obj34, ← List.cons_append, ← hZ]
    rw [jrun_members_gen (pmemb kv :: ps2.map pmemb) f rest (by simp)
      (by
        intro m hm
        rw [← List.map_cons] at hm
        obtain ⟨p, hpin, hpm⟩ := List.mem_map.mp hm
        intro f2 rest2 hstop _
        rw [← hpm]
        exact jrun_val_propVal p.2 (hps p hpin) f2 rest2 hstop)
      (by
        rw [← List.map_cons pmemb kv ps2, membsCost_pmemb]
        simpa using hf)]
    rw [← List.map_cons pmemb kv ps2, pmemb_map]

theorem jrun_items_eq (f : Nat) (l : List Nat) :
    jrun (f + 1) PMode.items l
      = (match jrun f PMode.val l with
        | none => none
        | some (v, r1) =>
          match skipWs r1 with
          | 93 :: r2 => some (JVal.jArr [v], r2)
          | 44 :: r2 =>
            match jrun f PMode.items (skipWs r2) with
            | some (JVal.jArr vs, r3) => some (JVal.jArr (v :: vs), r3)
            | _ => none
          | _ => none) := rfl

theorem sepJoin_dumpStr_cons (s : String) (l : List String) :
    ∃ Z, sepJoin ((s :: l).map dumpStr) = 34 :: Z := by
  cases l with
  | nil => exact ⟨escAll (strCodes s) ++ [34], rfl⟩
  | cons y t =>
    refine ⟨(escAll (strCodes s) ++ [34]) ++ 44 :: 32 :: sepJoin ((y :: t).map dumpStr),
      ?_⟩
    rw [show sepJoin ((s :: y :: t).map dumpStr)
      = dumpStr s ++ 44 :: 32 :: sepJoin ((y :: t).map dumpStr) from rfl]
    rw [show dumpStr s = 34 :: (escAll (strCodes s) ++ [34]) from rfl]
    rw [List.cons_append]

/-- The array-item loop recovers a dumped list of strings, consuming the
closing bracket. -/
theorem jrun_items_strs (ids : List String) :
    ∀ f rest, ids ≠ [] → ids.length + 1 ≤ f →
    jrun f PMode.items (sepJoin (ids.map dumpStr) ++ 93 :: rest)
      = some (JVal.jArr (ids.map JVal.jStr), rest) := by
  induction ids with
  | nil =>
    intro f rest hne _
    exact absurd rfl hne
  | cons s t ih =>
    intro f rest _ hf
    cases t with
    | nil =>
      cases f with
      | zero => simp only [List.length_cons] at hf; omega
      | succ f2 =>
        cases f2 with
        | zero => simp only [List.length_cons] at hf; omega
        | succ f3 =>
          rw [show sepJoin ([s].map dumpStr) = dumpStr s from rfl]
          rw [jrun_items_eq]
          rw [jrun_val_str s f3 (93 :: rest)]
          simp only []
          rw [skipWs_not 93 _ (by decide)]
          rfl
    | cons s2 t2 =>
      cases f with
      | zero => simp only [List.length_cons] at hf; omega
      | succ f2 =>
        cases f2 with
        | zero => simp only [List.length_cons] at hf; omega
        | succ f3 =>
          rw [show sepJoin ((s :: s2 :: t2).map dumpStr)
            = dumpStr s ++ 44 :: 32 :: sepJoin ((s2 :: t2).map dumpStr) from rfl]
          rw [List.append_assoc, List.cons_append, List.cons_append]
          rw [jrun_items_eq]
          rw [jrun_val_str s f3
            (44 :: 32 :: (sepJoin ((s2 :: t2).map dumpStr) ++ 93 :: rest))]
          simp only []
          rw [skipWs_not 44 _ (by decide)]
          simp only []
          rw [skipWs_ws 32 _ (by decide)]
          obtain ⟨Z, hZ⟩ := sepJoin_dumpStr_cons s2 t2
          rw [hZ, List.cons_append, skipWs_not 34 _ (by decide), ← List.cons_append,
            ← hZ]
          rw [ih (f3 + 1) rest (by simp)
            (by simp only [List.length_cons] at hf ⊢; omega)]
          simp only []
          rfl

theorem jrun_val_arr34 (f : Nat) (Z : List Nat) :
    jrun (f + 1) PMode.val (91 :: 34 :: Z) = jrun f PMode.items (34 :: Z) := rfl

/-- Scanning a dumped list of strings yields the array of parsed strings. -/
theorem jrun_val_strArr (ids : List String) (f : Nat) (rest : List Nat)
    (hf : ids.length + 1 ≤ f) :
    jrun (f + 1) PMode.val (dumpStrArr ids ++ rest)
      = some (JVal.jArr (ids.map JVal.jStr), rest) := by
  cases ids with
  | nil =>
    have hx : dumpStrArr [] ++ rest = 91 :: 93 :: rest := rfl
    rw [hx, jrun_val_arr_eq, skipWs_not 93 _ (by decide)]
    rfl
  | cons s t =>
    have hx : dumpStrArr (s :: t) ++ rest
        = 91 :: (sepJoin ((s :: t).map dumpStr) ++ 93 :: rest) := by
      unfold dumpStrArr
      rw [List.cons_append, List.append_assoc]
      rfl
    rw [hx]
    obtain ⟨Z, hZ⟩ := sepJoin_dumpStr_cons s t
    rw [hZ, List.cons_append, jrun_val_arr34, ← List.cons_append, ← hZ]
    exact jrun_items_strs (s :: t) f rest (by simp) hf

theorem hexDigit_lt (n : Nat) (h : n < 16) : hexDigit n < 128 := by
  unfold hexDigit
  by_cases h10 : n < 10
  · rw [if_pos h10]; omega
  · rw [if_neg h10]; omega

theorem uEscape_lt (c : Nat) : ∀ x ∈ uEscape c, x < 128 := by
  intro x hx
  unfold uEscape hex4 at hx
  simp only [List.mem_cons, List.mem_singleton, List.mem_nil_iff, or_false] at hx
  rcases hx with rfl | rfl | rfl | rfl | rfl | rfl
  · omega
  · omega
  · exact hexDigit_lt _ (Nat.mod_lt _ (by omega))
  · exact hexDigit_lt _ (Nat.mod_lt _ (by omega))
  · exact hexDigit_lt _ (Nat.mod_lt _ (by omega))
  · exact hexDigit_lt _ (Nat.mod_lt _ (by omega))

set_option maxHeartbeats 1000000 in
/-- `py_encode_basestring_ascii` emits only ASCII code points. -/
theorem jstrEscape_lt (c : Nat) : ∀ x ∈ jstrEscape c, x < 128 := by
  intro x hx
  unfold jstrEscape at hx
  split_ifs at hx
  · rcases List.mem_pair.mp hx with rfl | rfl <;> omega
  · rcases List.mem_pair.mp hx with rfl | rfl <;> omega
  · rcases List.mem_pair.mp hx with rfl | rfl <;> omega
  · rcases List.mem_pair.mp hx with rfl | rfl <;> omega
  · rcases List.mem_pair.mp hx with rfl | rfl <;> omega
  · rcases List.mem_pair.mp hx with rfl | rfl <;> omega
  · rcases List.mem_pair.mp hx with rfl | rfl <;> omega
  · exact uEscape_lt c x hx
  · rcases List.mem_singleton.mp hx with rfl; omega
  · exact uEscape_lt c x hx
  · rcases List.mem_append.mp hx with h | h
    · exact uEscape_lt _ x h
    · exact uEscape_lt _ x h

theorem escAll_lt (cs : List Nat) : ∀ x ∈ escAll cs, x < 128 := by
  induction cs with
  | nil => intro x hx; simp [escAll] at hx
  | cons c t ih =>
    intro x hx
    rw [show escAll (c :: t) = jstrEscape c ++ escAll t from rfl] at hx
    rcases List.mem_append.mp hx with h | h
    · exact jstrEscape_lt c x h
    · exact ih x h

theorem dumpStr_scalar (s : String) : ∀ x ∈ dumpStr s, ValidScalar x := by
  intro x hx
  rw [show dumpStr s = 34 :: (escAll (strCodes s) ++ [34]) from rfl] at hx
  rcases List.mem_cons.mp hx with rfl | hx
  · exact Or.inl (by omega)
  rcases List.mem_append.mp hx with h | h
  · exact Or.inl (by have := escAll_lt (strCodes s) x h; omega)
  · simp at h; subst h; exact Or.inl (by omega)

theorem dumpInt_scalar (z : Int) : ∀ x ∈ dumpInt z, ValidScalar x := by
  have hdig : ∀ (m : Nat) (y : Nat), y ∈ natDigits m → ValidScalar y := by
    intro m y hy
    have h := (natDigits_spec m).1 y hy
    unfold isDigit at h
    simp only [Bool.and_eq_true, decide_eq_true_eq] at h
    exact Or.inl (by omega)
  intro x hx
  unfold dumpInt at hx
  split at hx
  · rcases List.mem_cons.mp hx with rfl | h
    · exact Or.inl (by omega)
    · exact hdig _ x h
  · exact hdig _ x hx

theorem dumpPropVal_scalar (p : PropVal) : ∀ x ∈ dumpPropVal p, ValidScalar x := by
  cases p with
  | pInt z => exact dumpInt_scalar z
  | pFloat fl => exact strCodes_valid fl.lit
  | pStr s => exact dumpStr_scalar s

theorem sepJoin_scalar (l : List (List Nat))
    (h : ∀ a ∈ l, ∀ x ∈ a, ValidScalar x) : ∀ x ∈ sepJoin l, ValidScalar x := by
  induction l with
  | nil => intro x hx; simp [sepJoin] at hx
  | cons a t ih =>
    cases t with
    | nil =>
      intro x hx
      exact h a (by simp) x hx
    | cons b t2 =>
      intro x hx
      rw [show sepJoin (a :: b :: t2) = a ++ 44 :: 32 :: sepJoin (b :: t2) from rfl]
        at hx
      rcases List.mem_append.mp hx with h1 | h1
      · exact h a (by simp) x h1
      · rcases List.mem_cons.mp h1 with rfl | h2
        · exact Or.inl (by omega)
        · rcases List.mem_cons.mp h2 with rfl | h3
          · exact Or.inl (by omega)
          · exact ih (fun a2 ha2 x2 hx2 => h a2 (by simp [ha2]) x2 hx2) x h3

theorem dumpProps_scalar (ps : List (String × PropVal)) :
    ∀ x ∈ dumpProps ps, ValidScalar x := by
  intro x hx
  unfold dumpProps at hx
  rcases List.mem_cons.mp hx with rfl | hx
  · exact Or.inl (by omega)
  rcases List.mem_append.mp hx with h1 | h1
  · refine sepJoin_scalar _ ?_ x h1
    intro a ha y hy
    obtain ⟨kv, hkv, rfl⟩ := List.mem_map.mp ha
    rcases List.mem_append.mp hy with h2 | h2
    · exact dumpStr_scalar kv.1 y h2
    · rcases List.mem_cons.mp h2 with rfl | h3
      · exact Or.inl (by omega)
      · rcases List.mem_cons.mp h3 with rfl | h4
        · exact Or.inl (by omega)
        · exact dumpPropVal_scalar kv.2 y h4
  · simp at h1; subst h1; exact Or.inl (by omega)

theorem dumpStrArr_scalar (ids : List String) :
    ∀ x ∈ dumpStrArr ids, ValidScalar x := by
  intro x hx
  unfold dumpStrArr at hx
  rcases List.mem_cons.mp hx with rfl | hx
  · exact Or.inl (by omega)
  rcases List.mem_append.mp hx with h1 | h1
  · refine sepJoin_scalar _ ?_ x h1
    intro a ha y hy
    obtain ⟨s, hs, rfl⟩ := List.mem_map.mp ha
    exact dumpStr_scalar s y hy
  · simp at h1; subst h1; exact Or.inl (by omega)

theorem dumpNode_scalar (n : NodeR) : ∀ x ∈ dumpNode n, ValidScalar x := by
  intro x hx
  unfold dumpNode at hx
  simp only [List.mem_cons, List.mem_append, List.mem_singleton,
    List.mem_nil_iff, or_false] at hx
  casesm* _ ∨ _
  all_goals first
    | (exact Or.inl (by omega))
    | (exact dumpStr_scalar _ x (by assumption))
    | (exact dumpProps_scalar _ x (by assumption))
    | (exact dumpStrArr_scalar _ x (by assumption))

theorem dumpEdge_scalar (e : EdgeR) : ∀ x ∈ dumpEdge e, ValidScalar x := by
  intro x hx
  unfold dumpEdge at hx
  simp only [List.mem_cons, List.mem_append, List.mem_singleton,
    List.mem_nil_iff, or_false] at hx
  casesm* _ ∨ _
  all_goals first
    | (exact Or.inl (by omega))
    | (exact dumpStr_scalar _ x (by assumption))
    | (exact dumpProps_scalar _ x (by assumption))

theorem jvalToProp_propJVal (v : PropVal) : jvalToProp (propJVal v) = some v := by
  cases v with
  | pInt z => rfl
  | pFloat fl => rfl
  | pStr s => rfl

theorem jvalToProps_map (ps : List (String × PropVal)) :
    jvalToProps (ps.map fun q => (q.1, propJVal q.2)) = some ps := by
  induction ps with
  | nil => rfl
  | cons p t ih =>
    rw [List.map_cons]
    have hx : jvalToProps ((p.1, propJVal p.2) :: t.map fun q => (q.1, propJVal q.2))
        = (match jvalToProp (propJVal p.2),
            jvalToProps (t.map fun q => (q.1, propJVal q.2)) with
          | some v, some ps2 => some ((p.1, v) :: ps2)
          | _, _ => none) := rfl
    rw [hx, jvalToProp_propJVal, ih]

theorem jvalToStrList_map (ids : List String) :
    jvalToStrList (ids.map JVal.jStr) = some ids := by
  induction ids with
  | nil => rfl
  | cons s t ih =>
    rw [List.map_cons]
    have hx : jvalToStrList (JVal.jStr s :: t.map JVal.jStr)
        = (jvalToStrList (t.map JVal.jStr)).map (fun l => s :: l) := rfl
    rw [hx, ih]
    rfl

/-- The members of `node.to_dict()` in insertion order. -/
def nodeMembs (n : NodeR) : List JMemb :=
  [⟨"id", dumpStr n.id, JVal.jStr n.id, 0⟩,
   ⟨"label", dumpStr n.label, JVal.jStr n.label, 0⟩,
   ⟨"properties", dumpProps n.properties,
     JVal.jObj (n.properties.map fun q => (q.1, propJVal q.2)),
     n.properties.length + 1⟩,
   ⟨"outgoing_edge_ids", dumpStrArr n.outgoing_edge_ids,
     JVal.jArr (n.outgoing_edge_ids.map JVal.jStr),
     n.outgoing_edge_ids.length + 1⟩]

/-- The JSON value `json.loads` recovers from a dumped node. -/
def nodeJVal (n : NodeR) : JVal :=
  JVal.jObj [("id", JVal.jStr n.id), ("label", JVal.jStr n.label),
    ("properties", JVal.jObj (n.properties.map fun q => (q.1, propJVal q.2))),
    ("outgoing_edge_ids", JVal.jArr (n.outgoing_edge_ids.map JVal.jStr))]

theorem dumpNode_membs (n : NodeR) (rest : List Nat) :
    dumpNode n ++ rest = 123 :: (membsDump (nodeMembs n) ++ 125 :: rest) := by
  unfold dumpNode nodeMembs membsDump
  simp [sepJoin, List.append_assoc]

theorem skipWs_dumpProps (ps : List (String × PropVal)) (rest : List Nat) :
    skipWs (dumpProps ps ++ rest) = dumpProps ps ++ rest := by
  have hx : dumpProps ps ++ rest
      = 123 :: ((sepJoin (ps.map fun kv =>
          dumpStr kv.1 ++ 58 :: 32 :: dumpPropVal kv.2) ++ [125]) ++ rest) := rfl
  rw [hx, skipWs_not 123 _ (by decide)]

theorem skipWs_dumpStrArr (ids : List String) (rest : List Nat) :
    skipWs (dumpStrArr ids ++ rest) = dumpStrArr ids ++ rest := by
  have hx : dumpStrArr ids ++ rest
      = 91 :: ((sepJoin (ids.map dumpStr) ++ [93]) ++ rest) := rfl
  rw [hx, skipWs_not 91 _ (by decide)]

/-- Scanning a dumped node document yields its JSON object. -/
theorem jrun_val_node (n : NodeR) (hw : ∀ p ∈ n.properties, ValidPropVal p.2)
    (f : Nat) (rest : List Nat)
    (hf : n.properties.length + n.outgoing_edge_ids.length + 7 ≤ f) :
    jrun (f + 1) PMode.val (dumpNode n ++ rest) = some (nodeJVal n, rest) := by
  have hcost : membsCost (nodeMembs n)
      = n.properties.length + n.outgoing_edge_ids.length + 6 := by
    simp only [nodeMembs, membsCost, List.map_cons, List.map_nil, List.sum_cons,
      List.sum_nil]
    omega
  rw [dumpNode_membs n rest]
  obtain ⟨Z, hZ⟩ : ∃ Z, membsDump (nodeMembs n) = 34 :: Z := membsDump_cons _ _
  rw [hZ, List.cons_append, jrun_val_obj34, ← List.cons_append, ← hZ]
  rw [jrun_members_gen (nodeMembs n) f rest (by simp [nodeMembs])
    (by
      intro m hm
      have hm2 : m = (⟨"id", dumpStr n.id, JVal.jStr n.id, 0⟩ : JMemb)
          ∨ m = ⟨"label", dumpStr n.label, JVal.jStr n.label, 0⟩
          ∨ m = ⟨"properties", dumpProps n.properties,
              JVal.jObj (n.properties.map fun q => (q.1, propJVal q.2)),
              n.properties.length + 1⟩
          ∨ m = ⟨"outgoing_edge_ids", dumpStrArr n.outgoing_edge_ids,
              JVal.jArr (n.outgoing_edge_ids.map JVal.jStr),
              n.outgoing_edge_ids.length + 1⟩ := by
        simpa [nodeMembs] using hm
      intro f2 rest2 hstop hc
      rcases hm2 with rfl | rfl | rfl | rfl
      · exact jrun_val_propVal (PropVal.pStr n.id) trivial f2 rest2 hstop
      · exact jrun_val_propVal (PropVal.pStr n.label) trivial f2 rest2 hstop
      · show jrun (f2 + 1) PMode.val (skipWs (dumpProps n.properties ++ rest2))
            = some (JVal.jObj (n.properties.map fun q => (q.1, propJVal q.2)), rest2)
        rw [skipWs_dumpProps n.properties rest2]
        exact jrun_val_props n.properties hw f2 rest2 hc
      · show jrun (f2 + 1) PMode.val
              (skipWs (dumpStrArr n.outgoing_edge_ids ++ rest2))
            = some (JVal.jArr (n.outgoing_edge_ids.map JVal.jStr), rest2)
        rw [skipWs_dumpStrArr n.outgoing_edge_ids rest2]
        exact jrun_val_strArr n.outgoing_edge_ids f2 rest2 hc)
    (by rw [hcost]; omega)]
  rfl

/-- The members of `edge.to_dict()` in insertion order. -/
def edgeMembs (e : EdgeR) : List JMemb :=
  [⟨"id", dumpStr e.id, JVal.jStr e.id, 0⟩,
   ⟨"label", dumpStr e.label, JVal.jStr e.label, 0⟩,
   ⟨"start_node_id", dumpStr e.start_node_id, JVal.jStr e.start_node_id, 0⟩,
   ⟨"end_node_id", dumpStr e.end_node_id, JVal.jStr e.end_node_id, 0⟩,
   ⟨"properties", dumpProps e.properties,
     JVal.jObj (e.properties.map fun q => (q.1, propJVal q.2)),
     e.properties.length + 1⟩]

/-- The JSON value `json.loads` recovers from a dumped edge. -/
def edgeJVal (e : EdgeR) : JVal :=
  JVal.jObj [("id", JVal.jStr e.id), ("label", JVal.jStr e.label),
    ("start_node_id", JVal.jStr e.start_node_id),
    ("end_node_id", JVal.jStr e.end_node_id),
    ("properties", JVal.jObj (e.properties.map fun q => (q.1, propJVal q.2)))]

theorem dumpEdge_membs (e : EdgeR) (rest : List Nat) :
    dumpEdge e ++ rest = 123 :: (membsDump (edgeMembs e) ++ 125 :: rest) := by
  unfold dumpEdge edgeMembs membsDump
  simp [sepJoin, List.append_assoc]

/-- Scanning a dumped edge document yields its JSON object. -/
theorem jrun_val_edge (e : EdgeR) (hw : ∀ p ∈ e.properties, ValidPropVal p.2)
    (f : Nat) (rest : List Nat) (hf : e.properties.length + 7 ≤ f) :
    jrun (f + 1) PMode.val (dumpEdge e ++ rest) = some (edgeJVal e, rest) := by
  have hcost : membsCost (edgeMembs e) = e.properties.length + 6 := by
    simp only [edgeMembs, membsCost, List.map_cons, List.map_nil, List.sum_cons,
      List.sum_nil]
    omega
  rw [dumpEdge_membs e rest]
  obtain ⟨Z, hZ⟩ : ∃ Z, membsDump (edgeMembs e) = 34 :: Z := membsDump_cons _ _
  rw [hZ, List.cons_append, jrun_val_obj34, ← List.cons_append, ← hZ]
  rw [jrun_members_gen (edgeMembs e) f rest (by simp [edgeMembs])
    (by
      intro m hm
      have hm2 : m = (⟨"id", dumpStr e.id, JVal.jStr e.id, 0⟩ : JMemb)
          ∨ m = ⟨"label", dumpStr e.label, JVal.jStr e.label, 0⟩
          ∨ m = ⟨"start_node_id", dumpStr e.start_node_id,
              JVal.jStr e.start_node_id, 0⟩
          ∨ m = ⟨"end_node_id", dumpStr e.end_node_id, JVal.jStr e.end_node_id, 0⟩
          ∨ m = ⟨"properties", dumpProps e.properties,
              JVal.jObj (e.properties.map fun q => (q.1, propJVal q.2)),
              e.properties.length + 1⟩ := by
        simpa [edgeMembs] using hm
      intro f2 rest2 hstop hc
      rcases hm2 with rfl | rfl | rfl | rfl | rfl
      · exact jrun_val_propVal (PropVal.pStr e.id) trivial f2 rest2 hstop
      · exact jrun_val_propVal (PropVal.pStr e.label) trivial f2 rest2 hstop
      · exact jrun_val_propVal (PropVal.pStr e.start_node_id) trivial f2 rest2 hstop
      · exact jrun_val_propVal (PropVal.pStr e.end_node_id) trivial f2 rest2 hstop
      · show jrun (f2 + 1) PMode.val (skipWs (dumpProps e.properties ++ rest2))
            = some (JVal.jObj (e.properties.map fun q => (q.1, propJVal q.2)), rest2)
        rw [skipWs_dumpProps e.properties rest2]
        exact jrun_val_props e.properties hw f2 rest2 hc)
    (by rw [hcost]; omega)]
  rfl

theorem sepJoin_len (l : List (List Nat)) (h : ∀ a ∈ l, 1 ≤ a.length) :
    l.length ≤ (sepJoin l).length := by
  induction l with
  | nil => simp [sepJoin]
  | cons a t ih =>
    cases t with
    | nil => simpa using h a (by simp)
    | cons b t2 =>
      rw [show sepJoin (a :: b :: t2) = a ++ 44 :: 32 :: sepJoin (b :: t2) from rfl]
      rw [List.length_append]
      simp only [List.length_cons]
      have h1 := h a (by simp)
      have h2 := ih (fun z hz => h z (by simp [hz]))
      simp only [List.length_cons] at h2
      omega

theorem dumpProps_len (ps : List (String × PropVal)) :
    ps.length + 2 ≤ (dumpProps ps).length := by
  unfold dumpProps
  have h := sepJoin_len (ps.map fun kv => dumpStr kv.1 ++ 58 :: 32 :: dumpPropVal kv.2)
    (by
      intro a ha
      obtain ⟨kv, _, rfl⟩ := List.mem_map.mp ha
      rw [List.length_append]
      simp only [List.length_cons]
      omega)
  rw [List.length_map] at h
  simp only [List.length_cons, List.length_append, List.length_nil]
  omega

theorem dumpStrArr_len (ids : List String) :
    ids.length + 2 ≤ (dumpStrArr ids).length := by
  unfold dumpStrArr
  have h := sepJoin_len (ids.map dumpStr)
    (by
      intro a ha
      obtain ⟨s, _, rfl⟩ := List.mem_map.mp ha
      rw [show dumpStr s = 34 :: (escAll (strCodes s) ++ [34]) from rfl]
      simp)
  rw [List.length_map] at h
  simp only [List.length_cons, List.length_append, List.length_nil]
  omega

theorem dumpNode_len (n : NodeR) :
    n.properties.length + n.outgoing_edge_ids.length + 6 ≤ (dumpNode n).length := by
  unfold dumpNode
  simp only [List.length_cons, List.length_append, List.length_nil]
  have h1 := dumpProps_len n.properties
  have h2 := dumpStrArr_len n.outgoing_edge_ids
  omega

theorem dumpEdge_len (e : EdgeR) :
    e.properties.length + 6 ≤ (dumpEdge e).length := by
  unfold dumpEdge
  simp only [List.length_cons, List.length_append, List.length_nil]
  have h1 := dumpProps_len e.properties
  omega

/-- `json.loads` of a dumped node document. -/
theorem loads_dumpNode (n : NodeR) (hw : ∀ p ∈ n.properties, ValidPropVal p.2) :
    loads (dumpNode n) = some (nodeJVal n) := by
  unfold loads
  obtain ⟨T, hT⟩ : ∃ T, dumpNode n = 123 :: T := ⟨_, rfl⟩
  rw [hT, skipWs_not 123 _ (by decide), ← hT]
  have hv := jrun_val_node n hw ((dumpNode n).length + 1) []
    (by have := dumpNode_len n; omega)
  rw [List.append_nil] at hv
  have hv2 : jrun ((dumpNode n).length + 2) PMode.val (dumpNode n)
      = some (nodeJVal n, []) := hv
  rw [hv2]
  rfl

/-- `json.loads` of a dumped edge document. -/
theorem loads_dumpEdge (e : EdgeR) (hw : ∀ p ∈ e.properties, ValidPropVal p.2) :
    loads (dumpEdge e) = some (edgeJVal e) := by
  unfold loads
  obtain ⟨T, hT⟩ : ∃ T, dumpEdge e = 123 :: T := ⟨_, rfl⟩
  rw [hT, skipWs_not 123 _ (by decide), ← hT]
  have hv := jrun_val_edge e hw ((dumpEdge e).length + 1) []
    (by have := dumpEdge_len e; omega)
  rw [List.append_nil] at hv
  have hv2 : jrun ((dumpEdge e).length + 2) PMode.val (dumpEdge e)
      = some (edgeJVal e, []) := hv
  rw [hv2]
  rfl

/-- `Node.from_dict` rebuilds the node from its parsed document. -/
theorem fromDictN_nodeJVal (n : NodeR) (hid : n.id ≠ "") :
    fromDictN (nodeJVal n) = some n := by
  have hx : fromDictN (nodeJVal n)
      = (if n.id = "" then none
        else
          match jvalToProps (n.properties.map fun q => (q.1, propJVal q.2)),
              jvalToStrList (n.outgoing_edge_ids.map JVal.jStr) with
          | some props, some ids => some ⟨n.id, n.label, props, ids⟩
          | _, _ => none) := rfl
  rw [hx, if_neg hid, jvalToProps_map, jvalToStrList_map]

/-- `Edge.from_dict` rebuilds the edge from its parsed document. -/
theorem fromDictE_edgeJVal (e : EdgeR) (hid : e.id ≠ "") :
    fromDictE (edgeJVal e) = some e := by
  have hx : fromDictE (edgeJVal e)
      = (if e.id = "" then none
        else
          match jvalToProps (e.properties.map fun q => (q.1, propJVal q.2)) with
          | some props => some ⟨e.id, e.label, e.start_node_id, e.end_node_id, props⟩
          | none => none) := rfl
  rw [hx, if_neg hid, jvalToProps_map]

/-- Full round trip for nodes. -/
theorem decodeNode_encodeNode (n : NodeR) (hw : WFNode n) :
    decodeNode (encodeNode n) = some n := by
  unfold decodeNode encodeNode
  rw [utf8Dec_utf8 (dumpNode n) (dumpNode_scalar n)]
  simp only []
  rw [loads_dumpNode n hw.2.2]
  simp only []
  exact fromDictN_nodeJVal n hw.1

/-- Full round trip for edges. -/
theorem decodeEdge_encodeEdge (e : EdgeR) (hw : WFEdge e) :
    decodeEdge (encodeEdge e) = some e := by
  unfold decodeEdge encodeEdge
  rw [utf8Dec_utf8 (dumpEdge e) (dumpEdge_scalar e)]
  simp only []
  rw [loads_dumpEdge e hw.2.2]
  simp only []
  exact fromDictE_edgeJVal e hw.1

/-- A concrete node with mixed integer, float and string properties. -/
def nC3 : NodeR :=
  ⟨"n1", "Person",
    [("count", PropVal.pInt 42), ("avg", PropVal.pFloat ⟨"3.5"⟩),
     ("name", PropVal.pStr "alice"), ("neg", PropVal.pInt (-7))],
    ["e1", "e2"]⟩

/-- A concrete edge with mixed float, integer and string properties. -/
def eC3 : EdgeR :=
  ⟨"e1", "knows", "n1", "n2",
    [("weight", PropVal.pFloat ⟨"1e+16"⟩), ("since", PropVal.pInt 2020),
     ("note", PropVal.pStr "old friends")]⟩

/-- C3: for every valid node value and every valid edge value — including
property maps mixing integer, floating-point and string values — decoding
the bytes produced by encoding the value yields exactly the original value
(`decode(encode(x)) = some x`), and since equality of `PropVal` separates
the `pInt` and `pFloat` constructors, the integer-versus-floating-point
distinction of every property value is preserved. -/
theorem claim_C3 :
    (∀ n : NodeR, WFNode n → decodeNode (encodeNode n) = some n) ∧
    (∀ e : EdgeR, WFEdge e → decodeEdge (encodeEdge e) = some e) :=
  ⟨fun n hw => decodeNode_encodeNode n hw, fun e hw => decodeEdge_encodeEdge e hw⟩

set_option maxRecDepth 10000 in
/-- The round trip instantiated on concrete mixed-property values. -/
theorem claim_C3_witness :
    decodeNode (encodeNode nC3) = some nC3 ∧ decodeEdge (encodeEdge eC3) = some eC3 :=
  ⟨claim_C3.1 nC3 (by decide), claim_C3.2 eC3 (by decide)⟩
